import Mathlib

/-!
# timeslug: derivation engine of `internal/provider/slug.go`

A shallow embedding of the slug derivation engine (`Generate`, `derive`,
`entropyToBIP39Words`, `buildObfuscatedSlug` and its post-processing passes,
`parseTime`, `parseInterval`) together with the parts of the Go standard
library it calls (`crypto/sha256`, `crypto/hmac`, `encoding/hex`, `strings`,
`time`).

Conventions of the embedding:

* a Go `string` and a Go `[]byte` are both a list of bytes (`Bytes`);
* a Go `int` is an `Int`; where the source multiplies `time.Duration`s the
  result is wrapped to 64 bits explicitly (`wrapInt64`);
* a run-time panic of the Go code (slice bound out of range, index out of
  range, `make` with a length out of range) is the value `none` of `Option`;
  the sizes are those of a 64-bit platform with 48-bit heap addresses, and
  running out of memory is not modelled;
* an `error` returned by the Go code carries its text: `Except.error` for
  `parseTime` and `parseInterval`, `Result.error` for `Generate`, which can
  also panic (`Result.panic`);
* the dictionary `bip39Words`, loaded from an embedded file, is a parameter;
* the zone rules of `time.Local`, which the process takes from its
  environment, are a parameter `localZone`.
-/

namespace Timeslug

/-! ## Bytes and strings -/

/-- A Go string or byte slice, as the list of its bytes. -/
abbrev Bytes := List Nat

/-- The bytes of an ASCII string literal of the source. -/
def str (s : String) : Bytes := s.toList.map Char.toNat

/-- Every byte is an ASCII code (below 128). -/
def isASCII (s : Bytes) : Prop := ∀ c ∈ s, c < 128

instance (s : Bytes) : Decidable (isASCII s) := by
  unfold isASCII; infer_instance

/-! ## crypto/sha256 and crypto/hmac (FIPS 180-4, RFC 2104) -/

/-- Rotate a 32-bit word right by `n` bits. -/
def rotr (x n : Nat) : Nat := ((x >>> n) ||| (x <<< (32 - n))) % 2 ^ 32

/-- The 64 round constants of SHA-256. -/
def sha256K : List Nat := [
  0x428a2f98, 0x71374491, 0xb5c0fbcf, 0xe9b5dba5, 0x3956c25b, 0x59f111f1, 0x923f82a4, 0xab1c5ed5,
  0xd807aa98, 0x12835b01, 0x243185be, 0x550c7dc3, 0x72be5d74, 0x80deb1fe, 0x9bdc06a7, 0xc19bf174,
  0xe49b69c1, 0xefbe4786, 0x0fc19dc6, 0x240ca1cc, 0x2de92c6f, 0x4a7484aa, 0x5cb0a9dc, 0x76f988da,
  0x983e5152, 0xa831c66d, 0xb00327c8, 0xbf597fc7, 0xc6e00bf3, 0xd5a79147, 0x06ca6351, 0x14292967,
  0x27b70a85, 0x2e1b2138, 0x4d2c6dfc, 0x53380d13, 0x650a7354, 0x766a0abb, 0x81c2c92e, 0x92722c85,
  0xa2bfe8a1, 0xa81a664b, 0xc24b8b70, 0xc76c51a3, 0xd192e819, 0xd6990624, 0xf40e3585, 0x106aa070,
  0x19a4c116, 0x1e376c08, 0x2748774c, 0x34b0bcb5, 0x391c0cb3, 0x4ed8aa4a, 0x5b9cca4f, 0x682e6ff3,
  0x748f82ee, 0x78a5636f, 0x84c87814, 0x8cc70208, 0x90befffa, 0xa4506ceb, 0xbef9a3f7, 0xc67178f2]

/-- The eight working registers of SHA-256. -/
structure Regs where
  a : Nat
  b : Nat
  c : Nat
  d : Nat
  e : Nat
  f : Nat
  g : Nat
  h : Nat
deriving DecidableEq, Repr

/-- The initial hash value of SHA-256. -/
def sha256Init : Regs :=
  ⟨0x6a09e667, 0xbb67ae85, 0x3c6ef372, 0xa54ff53a, 0x510e527f, 0x9b05688c, 0x1f83d9ab, 0x5be0cd19⟩

/-- Big-endian 32-bit word of four bytes. -/
def beWord (bs : Bytes) : Nat :=
  bs.getD 0 0 * 2 ^ 24 + bs.getD 1 0 * 2 ^ 16 + bs.getD 2 0 * 2 ^ 8 + bs.getD 3 0

/-- The four bytes of a 32-bit word, most significant first. -/
def wordBytes (x : Nat) : Bytes :=
  [x / 2 ^ 24 % 256, x / 2 ^ 16 % 256, x / 2 ^ 8 % 256, x % 256]

/-- The first `n` big-endian words of a block. -/
def blockWords : Nat → Bytes → List Nat
  | 0, _ => []
  | n + 1, bs => beWord (bs.take 4) :: blockWords n (bs.drop 4)

/-- Extend the message schedule by `n` words. -/
def extendSchedule : Nat → List Nat → List Nat
  | 0, ws => ws
  | n + 1, ws =>
    let t := ws.length
    let w2 := ws.getD (t - 2) 0
    let w15 := ws.getD (t - 15) 0
    let s0 := rotr w15 7 ^^^ rotr w15 18 ^^^ (w15 >>> 3)
    let s1 := rotr w2 17 ^^^ rotr w2 19 ^^^ (w2 >>> 10)
    extendSchedule n (ws ++ [(s1 + ws.getD (t - 7) 0 + s0 + ws.getD (t - 16) 0) % 2 ^ 32])

/-- One round of the compression function, for the word `kw = K[t] + W[t]`. -/
def sha256Round (s : Regs) (kw : Nat) : Regs :=
  let s1 := rotr s.e 6 ^^^ rotr s.e 11 ^^^ rotr s.e 25
  let ch := (s.e &&& s.f) ^^^ ((s.e ^^^ 0xffffffff) &&& s.g)
  let t1 := (s.h + s1 + ch + kw) % 2 ^ 32
  let s0 := rotr s.a 2 ^^^ rotr s.a 13 ^^^ rotr s.a 22
  let maj := (s.a &&& s.b) ^^^ (s.a &&& s.c) ^^^ (s.b &&& s.c)
  let t2 := (s0 + maj) % 2 ^ 32
  ⟨(t1 + t2) % 2 ^ 32, s.a, s.b, s.c, (s.d + t1) % 2 ^ 32, s.e, s.f, s.g⟩

/-- The compression function on one 64-byte block. -/
def sha256Block (s : Regs) (block : Bytes) : Regs :=
  let ws := extendSchedule 48 (blockWords 16 block)
  let r := (List.zipWith (fun k w => k + w) sha256K ws).foldl sha256Round s
  ⟨(s.a + r.a) % 2 ^ 32, (s.b + r.b) % 2 ^ 32, (s.c + r.c) % 2 ^ 32, (s.d + r.d) % 2 ^ 32,
   (s.e + r.e) % 2 ^ 32, (s.f + r.f) % 2 ^ 32, (s.g + r.g) % 2 ^ 32, (s.h + r.h) % 2 ^ 32⟩

/-- The padded message: a 1 bit, zeros, and the bit length in 64 bits. -/
def sha256Pad (m : Bytes) : Bytes :=
  let bits := m.length * 8 % 2 ^ 64
  m ++ [0x80] ++ List.replicate ((119 - m.length % 64) % 64) 0
    ++ wordBytes (bits / 2 ^ 32) ++ wordBytes (bits % 2 ^ 32)

/-- Fold the compression function over the first `n` 64-byte blocks. -/
def sha256Blocks : Nat → Regs → Bytes → Regs
  | 0, s, _ => s
  | n + 1, s, bs => sha256Blocks n (sha256Block s (bs.take 64)) (bs.drop 64)

/-- The SHA-256 digest (`sha256.Sum256`), 32 bytes. -/
def sha256Sum (m : Bytes) : Bytes :=
  let p := sha256Pad m
  let r := sha256Blocks (p.length / 64) sha256Init p
  wordBytes r.a ++ wordBytes r.b ++ wordBytes r.c ++ wordBytes r.d
    ++ wordBytes r.e ++ wordBytes r.f ++ wordBytes r.g ++ wordBytes r.h

/-- The HMAC key block: keys longer than 64 bytes are hashed, then zero padded. -/
def hmacKeyBlock (key : Bytes) : Bytes :=
  let k := if key.length > 64 then sha256Sum key else key
  k ++ List.replicate (64 - k.length) 0

/-- Source `hmacSHA256`: HMAC-SHA256 of `message` under `key`
(`hmac.New(sha256.New, key)`, `Write`, `Sum(nil)`); the digest has length and
capacity 32. -/
def hmacSHA256 (key message : Bytes) : Bytes :=
  let k := hmacKeyBlock key
  sha256Sum (k.map (fun b => b ^^^ 0x5c) ++ sha256Sum (k.map (fun b => b ^^^ 0x36) ++ message))

/-! ## encoding/hex -/

/-- A lowercase hexadecimal digit. -/
def hexDigit (n : Nat) : Nat := if n < 10 then 48 + n else 87 + n

/-- The function `hex.EncodeToString`. -/
def hexEncode (bs : Bytes) : Bytes :=
  bs.flatMap (fun b => [hexDigit (b / 16 % 16), hexDigit (b % 16)])

/-! ## strings

The slug pipeline only handles ASCII text, so `ToLower` and the byte loops
are modelled on ASCII strings, where every rune is one byte. -/

/-- Go slice expression `s[:k]`: panics unless `0 ≤ k ≤ len(s)`. For the
slices taken in this package the capacity equals the length. -/
def sliceTo {α : Type} (s : List α) (k : Int) : Option (List α) :=
  if 0 ≤ k ∧ k ≤ (s.length : Int) then some (s.take k.toNat) else none

/-- Go slice expression `s[k:]`: panics unless `0 ≤ k ≤ len(s)`. -/
def sliceFrom {α : Type} (s : List α) (k : Int) : Option (List α) :=
  if 0 ≤ k ∧ k ≤ (s.length : Int) then some (s.drop k.toNat) else none

/-- Go slice expression `s[i:j]`: panics unless `0 ≤ i ≤ j ≤ len(s)`. -/
def slice {α : Type} (s : List α) (i j : Int) : Option (List α) :=
  if 0 ≤ i ∧ i ≤ j ∧ j ≤ (s.length : Int) then some ((s.take j.toNat).drop i.toNat) else none

/-- The function `strings.ToLower` on ASCII text. -/
def toLower (s : Bytes) : Bytes := s.map (fun c => if 65 ≤ c ∧ c ≤ 90 then c + 32 else c)

/-- The function `strings.Index`: the offset of the first occurrence of `sub`
in `s`; `none` stands for the result `-1`. -/
def stringsIndex : Bytes → Bytes → Option Nat
  | [], sub => if sub.isEmpty then some 0 else none
  | c :: s, sub =>
    if sub.isPrefixOf (c :: s) then some 0 else (stringsIndex s sub).map (fun i => i + 1)

/-- The function `strings.Contains`. -/
def stringsContains (s sub : Bytes) : Bool := (stringsIndex s sub).isSome

/-- The call `strings.ContainsAny(string(b), chars)` for one byte `b` and
ASCII `chars`. -/
def byteIn (b : Nat) (chars : Bytes) : Bool := chars.contains b

/-- The function `strings.HasSuffix`. -/
def hasSuffix (s suffix : Bytes) : Bool := suffix.isSuffixOf s

/-- Two ASCII bytes are equal up to the case of a letter. -/
def asciiFoldEq (a b : Nat) : Bool :=
  a == b || (65 ≤ a && a ≤ 90 && b == a + 32) || (65 ≤ b && b ≤ 90 && a == b + 32)

/-- The UTF-8 encoding of the one non-ASCII rune in the simple case-folding
orbit of an ASCII letter: U+017F (long s) for `s`, U+212A (Kelvin sign) for
`k`. -/
def foldRune (b : Nat) : Option Bytes :=
  if b = 115 ∨ b = 83 then some [0xC5, 0xBF]
  else if b = 107 ∨ b = 75 then some [0xE2, 0x84, 0xAA]
  else none

/-- The function `strings.EqualFold s t` for an ASCII `t`: equality of the
rune sequences under simple Unicode case folding. -/
def equalFold : Bytes → Bytes → Bool
  | s, [] => s.isEmpty
  | s, b :: t =>
    match s with
    | [] => false
    | a :: s1 =>
      if a < 128 then asciiFoldEq a b && equalFold s1 t
      else
        match foldRune b with
        | some r => r.isPrefixOf s && equalFold (s.drop r.length) t
        | none => false

/-! ## Word lists for obfuscated mode -/

def consonants : List Bytes :=
  ["b", "c", "d", "f", "g", "k", "l", "m", "n", "p", "r", "s", "t", "v", "z"].map str

def vowels : List Bytes := ["a", "a", "e", "e", "i", "i", "o", "o", "u"].map str

def codas : List Bytes := ["", "", "", "", "", "", "n", "m", "r", "x"].map str

def prefixes : List Bytes := ["get", "try", "go", "my", "pro", "on", "up", "hi"].map str

def suffixes : List Bytes := ["ly", "fy", "io", "co", "go", "up", "hq", "ai"].map str

def numbers : List Bytes :=
  ["1", "2", "3", "4", "5", "7", "8", "9", "11", "22", "24", "42", "99", "101", "123", "247",
   "360", "365"].map str

def techWords : List Bytes :=
  ["cloud", "data", "tech", "sync", "fast", "smart", "link", "soft", "core", "base",
   "meta", "flux", "grid", "node", "edge", "wave", "pixel", "cyber", "logic", "delta",
   "sigma", "alpha", "beta", "gamma", "nova", "nexus", "pulse", "spark", "beam", "volt",
   "zero", "next", "snap", "dash", "rush", "bolt", "jump", "flip", "spin", "zoom",
   "push", "pull", "grab", "drop", "lift", "kick", "click", "swipe", "pure", "bold",
   "keen", "swift", "prime", "peak", "true", "safe", "bright", "clear", "clean", "fresh",
   "sharp", "super", "ultra", "mega", "rock", "star", "moon", "sand", "leaf", "pine",
   "oak", "wolf", "lake", "river", "wind", "fire", "ice", "snow", "rain", "sun",
   "fox", "bear", "hawk", "crow", "elk", "owl", "lion", "tiger", "blue", "red",
   "gray", "gold", "jade", "mint", "rust", "onyx", "amber", "coral", "ivory", "slate",
   "steel", "silver", "copper", "box", "hub", "lab", "bit", "dot", "max", "zen",
   "arc", "top", "pop", "cup", "cap", "pin", "pen", "pad", "pod"].map str

def blockedWords : List Bytes :=
  ["shit", "fuck", "damn", "hell", "crap", "piss", "cock", "dick", "cunt", "ass",
   "fag", "nig", "sex", "xxx", "porn", "anal", "rape", "kill", "nazi", "hate",
   "dead", "die", "hack", "crack"].map str

/-! ## The obfuscated slug synthesizer -/

/-- Source `pick`: selects from `choices` using the entropy byte at
`offset % 32` and returns the selection with the next offset. -/
def pick (entropy : Bytes) (offset : Nat) (choices : List Bytes) : Option (Bytes × Nat) :=
  match entropy[offset % 32]? with
  | none => none
  | some b =>
    if choices.length = 0 then none
    else
      match choices[b % choices.length]? with
      | none => none
      | some c => some (c, offset + 1)

/-- Source `makeSyllable`: a consonant-vowel-coda pattern like "ba", "kem". -/
def makeSyllable (entropy : Bytes) (offset : Nat) : Option (Bytes × Nat) :=
  match pick entropy offset consonants with
  | none => none
  | some (c, offset1) =>
    match pick entropy offset1 vowels with
    | none => none
    | some (v, offset2) =>
      match pick entropy offset2 codas with
      | none => none
      | some (d, offset3) => some (c ++ v ++ d, offset3)

/-- Source `shortenWord`. The guard `n < 4` keeps the indices `n-2`, `n-1`
in range, so the function never panics. -/
def shortenWord (word : Bytes) : Bytes :=
  let n := word.length
  if n < 4 then word
  else if byteIn (word.getD (n - 2) 0) (str "aeo") && word.getD (n - 1) 0 == 114 then
    word.take (n - 2) ++ str "r"
  else if hasSuffix word (str "le") && decide (n > 3) then word.take (n - 1)
  else if byteIn (word.getD (n - 1) 0) (str "aeiou") && decide (n > 4) then word.take (n - 1)
  else word

/-- Source `containsBlockedWord`. -/
def containsBlockedWord (s : Bytes) : Bool :=
  let lower := toLower s
  blockedWords.any (fun word => stringsContains lower word)

/-- The loop `for range 5` of `buildObfuscatedSlug` that draws the second
word: up to `n` picks, stopping at the first one different from `word1`. -/
def pickSecondWord (entropy word1 : Bytes) : Nat → Bytes → Nat → Option (Bytes × Nat)
  | 0, word2, offset => some (word2, offset)
  | n + 1, _, offset =>
    match pick entropy offset techWords with
    | none => none
    | some (w, next) => if w ≠ word1 then some (w, next) else pickSecondWord entropy word1 n w next

/-- First block of `buildObfuscatedSlug` (`// 25% chance of prefix`): the
text written to the builder and the offset after the block. -/
def slugPrefix (entropy : Bytes) : Option (Bytes × Nat) :=
  match entropy[0]? with
  | none => none
  | some b => if b % 4 = 0 then pick entropy 1 prefixes else some ([], 1)

/-- Second block (`// First word (20% chance to shorten)`): `word1` and the
offset after the block. -/
def slugFirstWord (entropy : Bytes) (offset : Nat) : Option (Bytes × Nat) :=
  match pick entropy offset techWords with
  | none => none
  | some (word1, offset1) =>
    match entropy[offset1]? with
    | none => none
    | some b => some (if b % 5 = 0 then shortenWord word1 else word1, offset1 + 1)

/-- Third block (`// 15% chance of mid element (syllable or dash)`). -/
def slugMid (entropy : Bytes) (offset : Nat) : Option (Bytes × Nat) :=
  match entropy[offset]? with
  | none => none
  | some b =>
    if b % 7 < 2 then
      if b % 2 = 0 then makeSyllable entropy (offset + 1) else some (str "-", offset + 1)
    else some ([], offset + 1)

/-- Fourth block (`// Second word (must differ from first, 20% chance to
shorten)`): `word2` and the offset after the block. -/
def slugSecondWord (entropy word1 : Bytes) (offset : Nat) : Option (Bytes × Nat) :=
  match pickSecondWord entropy word1 5 [] offset with
  | none => none
  | some (word2, offset1) =>
    match entropy[offset1]? with
    | none => none
    | some b => some (if b % 5 = 0 then shortenWord word2 else word2, offset1 + 1)

/-- Fifth block (`// Ending`): the `switch entropy[offset] % 8`. -/
def slugEnding (entropy : Bytes) (offset : Nat) : Option Bytes :=
  match entropy[offset]? with
  | none => none
  | some b =>
    if b % 8 ≤ 2 then (makeSyllable entropy (offset + 1)).map Prod.fst
    else if b % 8 ≤ 4 then (pick entropy (offset + 1) numbers).map Prod.fst
    else if b % 8 ≤ 6 then
      match makeSyllable entropy (offset + 1) with
      | none => none
      | some (syl1, next) => (makeSyllable entropy next).map (fun r => syl1 ++ r.1)
    else (pick entropy (offset + 1) suffixes).map Prod.fst

/-- The first part of `buildObfuscatedSlug`, up to `slug.String()`: the
grammar `[prefix] + word1 + [mid] + word2 + ending`. -/
def buildGrammar (entropy : Bytes) : Option Bytes :=
  match slugPrefix entropy with
  | none => none
  | some (pre, offset1) =>
    match slugFirstWord entropy offset1 with
    | none => none
    | some (word1, offset2) =>
      match slugMid entropy offset2 with
      | none => none
      | some (mid, offset3) =>
        match slugSecondWord entropy word1 offset3 with
        | none => none
        | some (word2, offset4) =>
          match slugEnding entropy offset4 with
          | none => none
          | some ending => some (pre ++ word1 ++ mid ++ word2 ++ ending)

/-- The loop of source `padToMinLength`, with the fuel that bounds the model's
recursion; running out of fuel is `none`. -/
def padLoop (entropy : Bytes) (minLen : Nat) : Nat → Bytes → Nat → Option Bytes
  | 0, _, _ => none
  | fuel + 1, s, offset =>
    if s.length < minLen then
      match makeSyllable entropy offset with
      | none => none
      | some (syl, next) => padLoop entropy minLen fuel (s ++ syl) next
    else some s

/-- Source `padToMinLength`; every round adds a character, so `minLen + 1`
rounds of fuel are never used up. -/
def padToMinLength (s : Bytes) (minLen : Nat) (entropy : Bytes) : Option Bytes :=
  padLoop entropy minLen (minLen + 1) s 20

/-- The body of the loop of `removeBlockedWords` for attempt `i`: a syllable
is inserted at the midpoint of the first occurrence of the first blocked word
(in list order) that occurs. -/
def insertSyllable (s entropy : Bytes) (i : Nat) : Option Bytes :=
  let lower := toLower s
  match blockedWords.findSome? (fun blocked =>
      (stringsIndex lower blocked).map (fun idx => idx + blocked.length / 2)) with
  | none => some s
  | some insertAt =>
    match makeSyllable entropy (25 + i) with
    | none => none
    | some (syl, _) =>
      match sliceTo s insertAt, sliceFrom s insertAt with
      | some l, some r => some (l ++ syl ++ r)
      | _, _ => none

/-- The loop of `removeBlockedWords` with `n` attempts left, at attempt `i`. -/
def removeBlockedLoop (entropy : Bytes) : Nat → Nat → Bytes → Option Bytes
  | 0, _, s => some s
  | n + 1, i, s =>
    if containsBlockedWord s then
      match insertSyllable s entropy i with
      | none => none
      | some s1 => removeBlockedLoop entropy n (i + 1) s1
    else some s

/-- Source `removeBlockedWords`: `for i := 0; containsBlockedWord(s) && i < 10; i++`. -/
def removeBlockedWords (s entropy : Bytes) : Option Bytes :=
  removeBlockedLoop entropy 10 0 s

/-- The backward scan of `truncateToMaxLength`: `n` values of `i` are left to
try, the current one is `i`. -/
def truncateLoop (s : Bytes) (maxLen : Nat) : Nat → Nat → Option Bytes
  | 0, _ => sliceTo s maxLen
  | n + 1, i =>
    if i = 0 then none
    else
      match s[i - 1]? with
      | none => none
      | some c => if byteIn c (str "aeiou") then sliceTo s i else truncateLoop s maxLen n (i - 1)

/-- Source `truncateToMaxLength`: `for i := maxLen; i >= minLen; i--`. -/
def truncateToMaxLength (s : Bytes) (minLen maxLen : Nat) : Option Bytes :=
  if s.length ≤ maxLen then some s
  else truncateLoop s maxLen (maxLen + 1 - minLen) maxLen

/-- Source `removeTripleLetters`: the character at index `i` is dropped when
it equals the characters at `i-1` and `i-2` of the input. On ASCII text the
`range` loop visits every byte. -/
def removeTripleLetters (s : Bytes) : Bytes :=
  (s.enum.filter (fun ic =>
    decide (ic.1 < 2) || !(ic.2 == s.getD (ic.1 - 1) 0 && ic.2 == s.getD (ic.1 - 2) 0))).map
    Prod.snd

/-- Source `buildObfuscatedSlug`: a startup-style name like "trybeambold8". -/
def buildObfuscatedSlug (entropy : Bytes) : Option Bytes :=
  match buildGrammar entropy with
  | none => none
  | some result0 =>
    match padToMinLength result0 10 entropy with
    | none => none
    | some result1 =>
      match removeBlockedWords result1 entropy with
      | none => none
      | some result2 =>
        match truncateToMaxLength result2 10 18 with
        | none => none
        | some result3 => some (removeTripleLetters result3)

/-! ## The mnemonic encoder -/

/-- A loop `for i := range xs` that fills a slice (`words` in
`entropyToBIP39Words`, `slugs` in `Generate`): the body `f` is run for every
index in turn; a panic of the body ends the call. -/
def forRange {α : Type} (f : Nat → Option α) : List Nat → Option (List α)
  | [] => some []
  | i :: is =>
    match f i with
    | none => none
    | some a =>
      match forRange f is with
      | none => none
      | some as => some (a :: as)

/-- Source `bytesToBits`: the bits of every byte, most significant first. -/
def bytesToBits (data : Bytes) : Bytes :=
  data.flatMap (fun b => (List.range 8).map (fun j => (b >>> (7 - j)) &&& 1))

/-- Source `bitsToInt`: the big-endian integer of a bit sequence. -/
def bitsToInt (bits : Bytes) : Nat :=
  bits.foldl (fun val b => val <<< 1 ||| b) 0

/-- Source `entropyToBIP39Words`, for the dictionary `bip39Words` (the
embedded file `bip39_english.txt`, split into lines by `init`): 256 bits of
entropy and 8 bits of checksum give 24 words. -/
def entropyToBIP39Words (bip39Words : List Bytes) (entropy : Bytes) : Option (List Bytes) :=
  let checksum := sha256Sum entropy
  let allBits := bytesToBits entropy ++ bytesToBits (checksum.take 1)
  forRange (fun i =>
    match slice allBits (i * 11 : Nat) (i * 11 + 11 : Nat) with
    | none => none
    | some bits => bip39Words[bitsToInt bits]?) (List.range 24)

/-! ## The derivation dispatcher -/

/-- A Go `int` (64 bits) after an arithmetic operation: the result wraps. -/
def wrapInt64 (x : Int) : Int := (x + 2 ^ 63) % 2 ^ 64 - 2 ^ 63

/-- Source `derive`. The result `none` is a run-time panic. -/
def derive (bip39Words : List Bytes) (seed period : Bytes) (length : Int) (mode : Bytes) :
    Option (Bytes × Bytes) :=
  let entropy := hmacSHA256 seed (seed ++ str ":" ++ period)
  if equalFold mode (str "obfuscated") then
    match buildObfuscatedSlug entropy with
    | none => none
    | some slug =>
      let hash := hmacSHA256 seed (seed ++ str ":skid:" ++ period)
      let hashLen := min (Int.tdiv (wrapInt64 (length + 1)) 2) 16
      match sliceTo hash hashLen with
      | none => none
      | some h => some (slug, hexEncode h)
  else
    -- BIP39 mode: concatenate mnemonic words
    match entropyToBIP39Words bip39Words entropy with
    | none => none
    | some words =>
      let wordCount := min length 24
      let hashLen := Int.tdiv (wrapInt64 (wrapInt64 (wordCount * 11) + 7)) 8
      match sliceTo words wordCount, sliceTo entropy hashLen with
      | some ws, some h => some (ws.flatten, hexEncode h)
      | _, _ => none

/-! ## time

An instant is a count of nanoseconds since the Unix epoch together with the
location in which it is displayed: a fixed zone (UTC is the fixed zone of
offset 0) or the process's `time.Local`. The zone rules of `time.Local`,
which the process takes from `TZ` or the system, are the parameter
`localZone`: the offset east of UTC, in seconds, in force at a Unix second.
Only the layout verbs of this package's layouts are interpreted: `2006`,
`01`, `02`, `15`, `04`, `05` and `Z07:00`; every other layout byte is literal
text. -/

/-- A `*time.Location` as `time.Parse` sets it: `time.UTC` (`fixed 0`), the
zone `FixedZone("", offset)`, or `time.Local`. -/
inductive Location where
  | fixed : Int → Location
  | localLoc : Location
deriving DecidableEq, Repr

/-- A `time.Time`: the instant and its location. -/
structure Time where
  unixNano : Int
  loc : Location
deriving DecidableEq, Repr

/-- The zone rules of a process run with `TZ=UTC`. -/
def utcZone : Int → Int := fun _ => 0

/-- The method `Time.Add` for a duration in nanoseconds; the location is kept. -/
def Time.Add (t : Time) (d : Int) : Time := ⟨t.unixNano + d, t.loc⟩

/-- The offset east of UTC, in seconds, of `t` in its location (the lookup of
`Time.locabs`). -/
def Time.offset (localZone : Int → Int) (t : Time) : Int :=
  match t.loc with
  | .fixed o => o
  | .localLoc => localZone (t.unixNano / 1000000000)

/-- The civil date (year, month, day) of a day number counted from
1970-01-01, in the proleptic Gregorian calendar. -/
def civilFromDays (z0 : Int) : Int × Nat × Nat :=
  let z := z0 + 719468
  let era := z / 146097
  let doe := (z - era * 146097).toNat
  let yoe := (doe - doe / 1460 + doe / 36524 - doe / 146096) / 365
  let doy := doe - (365 * yoe + yoe / 4 - yoe / 100)
  let mp := (5 * doy + 2) / 153
  let d := doy - (153 * mp + 2) / 5 + 1
  let m := if mp < 10 then mp + 3 else mp - 9
  ((yoe : Int) + era * 400 + (if m ≤ 2 then 1 else 0), m, d)

/-- The day number, counted from 1970-01-01, of a civil date. -/
def daysFromCivil (y : Int) (m d : Nat) : Int :=
  let y1 := if m ≤ 2 then y - 1 else y
  let era := y1 / 400
  let yoe := y1 - era * 400
  let doy : Int := (153 * (if m > 2 then m - 3 else m + 9) + 2) / 5 + d - 1
  let doe := yoe * 365 + yoe / 4 - yoe / 100 + doy
  era * 146097 + doe - 719468

/-- The function `daysIn` of package time. -/
def daysIn (month : Nat) (year : Int) : Nat :=
  if month = 2 then
    if year % 4 = 0 ∧ (year % 100 ≠ 0 ∨ year % 400 = 0) then 29 else 28
  else if month = 4 ∨ month = 6 ∨ month = 9 ∨ month = 11 then 30
  else 31

/-- The function `appendInt` of package time: a decimal number, zero padded
to `width` digits, after a minus sign when negative. -/
def appendInt (x : Int) (width : Nat) : Bytes :=
  let digits := (Nat.toDigits 10 x.natAbs).map Char.toNat
  (if x < 0 then [45] else []) ++ List.replicate (width - digits.length) 48 ++ digits

/-- The seconds of the clock of `t` in its location since the epoch (the
value `abs` of `Time.locabs`, counted from 1970). -/
def Time.localSec (localZone : Int → Int) (t : Time) : Int :=
  t.unixNano / 1000000000 + t.offset localZone

/-- The function `appendFormat` of package time for the layouts of this
package, applied to the seconds `abs` of the clock in the time's location. -/
def formatClock : Bytes → Int → Bytes
  | [], _ => []
  | 50 :: 48 :: 48 :: 54 :: rest, abs =>
    appendInt (civilFromDays (abs / 86400)).1 4 ++ formatClock rest abs
  | 48 :: 49 :: rest, abs =>
    appendInt (civilFromDays (abs / 86400)).2.1 2 ++ formatClock rest abs
  | 48 :: 50 :: rest, abs =>
    appendInt (civilFromDays (abs / 86400)).2.2 2 ++ formatClock rest abs
  | 49 :: 53 :: rest, abs => appendInt (abs % 86400 / 3600) 2 ++ formatClock rest abs
  | 48 :: 52 :: rest, abs => appendInt (abs % 3600 / 60) 2 ++ formatClock rest abs
  | 48 :: 53 :: rest, abs => appendInt (abs % 60) 2 ++ formatClock rest abs
  | c :: rest, abs => c :: formatClock rest abs

/-- The method `Time.Format` for the layouts of this package: the clock is
read in the time's location, so a time in `time.Local` follows the changes of
the local offset. -/
def timeFormat (localZone : Int → Int) (layout : Bytes) (t : Time) : Bytes :=
  formatClock layout (t.localSec localZone)

/-- An ASCII decimal digit. -/
def isDigit (c : Nat) : Bool := 48 ≤ c && c ≤ 57

/-- The function `getnum` of package time: a one- or two-digit number, two
digits exactly when `fixed`. -/
def getnum (value : Bytes) (fixed : Bool) : Option (Nat × Bytes) :=
  match value with
  | [] => none
  | [a] => if isDigit a && !fixed then some (a - 48, []) else none
  | a :: b :: rest =>
    if isDigit a then
      if isDigit b then some ((a - 48) * 10 + (b - 48), rest)
      else if fixed then none else some (a - 48, b :: rest)
    else none

/-- The fields collected by `time.Parse`; `zone` is the offset read by the
verb `Z07:00`, and `none` when the value has `Z` or the layout has no zone
(the cases in which `Parse` returns a time in UTC). -/
structure ParsedFields where
  year : Nat
  month : Nat
  day : Nat
  hour : Nat
  minute : Nat
  second : Nat
  nsec : Nat
  zone : Option Int
deriving DecidableEq, Repr

/-- A fractional second after the seconds field, which `time.Parse` accepts
although the layout has none: `.` or `,` and digits, of which nine count. -/
def parseFraction (value : Bytes) : Nat × Bytes :=
  match value with
  | p :: d :: rest =>
    if (p == 46 || p == 44) && isDigit d then
      let digits := (d :: rest).takeWhile isDigit
      let nine := (digits.take 9) ++ List.replicate (9 - digits.length) 48
      (nine.foldl (fun n c => n * 10 + (c - 48)) 0, (d :: rest).dropWhile isDigit)
    else (0, value)
  | _ => (0, value)

/-- The chunk loop of `time.Parse`: the fields read so far and the rest of
the value, or `none` when the value does not match the layout. -/
def parseLoop : Bytes → Bytes → ParsedFields → Option (ParsedFields × Bytes)
  | [], value, f => some (f, value)
  | 50 :: 48 :: 48 :: 54 :: rest, value, f =>
    match value with
    | a :: b :: c :: d :: v =>
      if isDigit a && isDigit b && isDigit c && isDigit d then
        parseLoop rest v { f with
          year := (a - 48) * 1000 + (b - 48) * 100 + (c - 48) * 10 + (d - 48) }
      else none
    | _ => none
  | 48 :: 49 :: rest, value, f =>
    match getnum value true with
    | some (n, v) => if 1 ≤ n ∧ n ≤ 12 then parseLoop rest v { f with month := n } else none
    | none => none
  | 48 :: 50 :: rest, value, f =>
    match getnum value true with
    | some (n, v) => parseLoop rest v { f with day := n }
    | none => none
  | 49 :: 53 :: rest, value, f =>
    match getnum value false with
    | some (n, v) => if n < 24 then parseLoop rest v { f with hour := n } else none
    | none => none
  | 48 :: 52 :: rest, value, f =>
    match getnum value true with
    | some (n, v) => if n < 60 then parseLoop rest v { f with minute := n } else none
    | none => none
  | 48 :: 53 :: rest, value, f =>
    match getnum value true with
    | some (n, v) =>
      if n < 60 then
        parseLoop rest (parseFraction v).2 { f with second := n, nsec := (parseFraction v).1 }
      else none
    | none => none
  | 90 :: 48 :: 55 :: 58 :: 48 :: 48 :: rest, value, f =>
    match value with
    | 90 :: v => parseLoop rest v { f with zone := none }
    | sign :: h1 :: h2 :: 58 :: m1 :: m2 :: v =>
      match getnum [h1, h2] true, getnum [m1, m2] true with
      | some (hr, _), some (mm, _) =>
        if hr ≤ 24 ∧ mm ≤ 60 then
          if sign = 43 then
            parseLoop rest v { f with zone := some ((hr * 60 + mm) * 60 : Nat) }
          else if sign = 45 then
            parseLoop rest v { f with zone := some (-((hr * 60 + mm) * 60 : Nat)) }
          else none
        else none
      | _, _ => none
    | _ => none
  | c :: rest, value, f =>
    match value with
    | v :: vs => if v = c then parseLoop rest vs f else none
    | [] => none

/-- The fields that `time.Parse` reads from a value for a layout; `none` is
a parse error. -/
def parseFields (layout value : Bytes) : Option ParsedFields :=
  match parseLoop layout value ⟨0, 1, 1, 0, 0, 0, 0, none⟩ with
  | none => none
  | some (f, rest) =>
    if rest ≠ [] then none
    else if f.day < 1 ∨ f.day > daysIn f.month f.year then none
    else some f

/-- The end of `time.Parse`: without a zone offset the time is in UTC; with
an offset that `time.Local` has at that instant the time is in `time.Local`;
with any other offset it is in the fixed zone of that offset. -/
def resolveZone (localZone : Int → Int) (f : ParsedFields) : Time :=
  let secs : Int :=
    daysFromCivil f.year f.month f.day * 86400 + f.hour * 3600 + f.minute * 60 + f.second
  match f.zone with
  | none => ⟨secs * 1000000000 + f.nsec, .fixed 0⟩
  | some z =>
    if localZone (secs - z) = z then ⟨(secs - z) * 1000000000 + f.nsec, .localLoc⟩
    else ⟨(secs - z) * 1000000000 + f.nsec, .fixed z⟩

/-- The function `time.Parse` for the layouts of this package; `none` is a
parse error. -/
def timeParse (localZone : Int → Int) (layout value : Bytes) : Option Time :=
  (parseFields layout value).map (resolveZone localZone)

/-- The constant `time.RFC3339`. -/
def rfc3339 : Bytes := str "2006-01-02T15:04:05Z07:00"

/-- Source `timeFormats`. -/
def timeFormats : List Bytes :=
  [rfc3339, str "2006-01-02T15:04:05", str "2006-01-02T15:04", str "2006-01-02T15",
   str "2006-01-02"]

/-- Source `parseTime`: the first layout that parses wins. -/
def parseTime (localZone : Int → Int) (s : Bytes) : Except Bytes Time :=
  match timeFormats.findSome? (fun format => timeParse localZone format s) with
  | some t => .ok t
  | none => .error (str "invalid time: " ++ s)

/-- The constants `time.Second`, `time.Minute`, `time.Hour` in nanoseconds. -/
def second : Int := 1000000000
def minute : Int := 60 * second
def hour : Int := 60 * minute

/-- Source `parseInterval`: the step and the label layout of an interval. -/
def parseInterval (s : Bytes) : Except Bytes (Int × Bytes) :=
  let l := toLower s
  if l = str "s" ∨ l = str "second" ∨ l = str "seconds" then
    .ok (second, str "2006-01-02T15:04:05")
  else if l = str "m" ∨ l = str "minute" ∨ l = str "minutes" then
    .ok (minute, str "2006-01-02T15:04")
  else if l = str "h" ∨ l = str "hour" ∨ l = str "hours" then
    .ok (hour, str "2006-01-02T15")
  else if l = str "" ∨ l = str "d" ∨ l = str "day" ∨ l = str "days" then
    .ok (24 * hour, str "2006-01-02")
  else if l = str "w" ∨ l = str "week" ∨ l = str "weeks" then
    .ok (7 * 24 * hour, str "2006-W02")
  else .error (str "invalid interval: " ++ s)

/-! ## The window generator -/

/-- Source `Slug`. -/
structure Slug where
  Value : Bytes
  Period : Bytes
  Hash : Bytes
deriving DecidableEq, Repr

/-- What a call of a function that returns `(T, error)` does: it returns a
value, it returns an error, or it panics. -/
inductive Result (α : Type) where
  | ok : α → Result α
  | error : Bytes → Result α
  | panic : Result α
deriving DecidableEq, Repr

/-- The size in bytes of a `Slug` on a 64-bit platform: three string headers
of 16 bytes. -/
def slugSize : Int := 48

/-- The constant `maxAlloc` of the Go runtime on the 64-bit platforms with
48-bit heap addresses. -/
def maxAlloc : Int := 2 ^ 48

/-- The check of `makeslice` for `make([]Slug, n)`: it panics with "len out of
range" when `n` is negative or `n` slugs take more than `maxAlloc` bytes.
Whether the memory is then there is not part of the model. -/
def makePanics (n : Int) : Prop := n < 0 ∨ maxAlloc < slugSize * n

instance (n : Int) : Decidable (makePanics n) := by
  unfold makePanics; infer_instance

/-- The period label of index `i` in `Generate`:
`anchorTime.Add(time.Duration(start+i) * duration).Format(format)`; the
product of the two durations wraps to 64 bits. -/
def periodLabel (localZone : Int → Int) (anchorTime : Time) (duration : Int) (format : Bytes)
    (start : Int) (i : Nat) : Bytes :=
  timeFormat localZone format (anchorTime.Add (wrapInt64 (wrapInt64 (start + i) * duration)))

/-- Source `Generate`: slugs for a time window centered on `anchor`, in a
process whose `time.Local` has the zone rules `localZone`. -/
def Generate (localZone : Int → Int) (bip39Words : List Bytes) (seed anchor : Bytes)
    (length window : Int) (interval mode : Bytes) : Result (List Slug) :=
  match parseTime localZone anchor with
  | .error err => .error err
  | .ok anchorTime =>
    match parseInterval interval with
    | .error err => .error err
    | .ok (duration, format) =>
      -- slugs := make([]Slug, window)
      if makePanics window then .panic
      else
        let start := Int.tdiv (wrapInt64 (-window)) 2
        match forRange (fun i =>
            let period := periodLabel localZone anchorTime duration format start i
            match derive bip39Words seed period length mode with
            | none => none
            | some (value, hash) => some (Slug.mk value period hash))
          (List.range window.toNat) with
        | none => .panic
        | some slugs => .ok slugs

/-! ## Specification vocabulary -/

/-- No three consecutive identical characters: for no index `j ≥ 2` is
`s[j] = s[j-1] = s[j-2]`. -/
def NoTriple (s : Bytes) : Prop :=
  ∀ j, 2 ≤ j → j < s.length → ¬ (s.getD j 0 = s.getD (j - 1) 0 ∧ s.getD j 0 = s.getD (j - 2) 0)

/-- The same property by recursion on the string. -/
def TripleFree : Bytes → Prop
  | a :: b :: c :: r => ¬ (a = b ∧ b = c) ∧ TripleFree (b :: c :: r)
  | _ => True

/-- The pass of `removeTripleLetters` as a recursion over the rest of the
input that carries the input already read, last character first. -/
def dropTriples : Bytes → Bytes → Bytes
  | _, [] => []
  | hist, c :: r =>
    match hist with
    | a :: b :: _ =>
      if c = a ∧ c = b then dropTriples (c :: hist) r else c :: dropTriples (c :: hist) r
    | _ => c :: dropTriples (c :: hist) r

/-- The bits of the entropy followed by the checksum bits. -/
def allBitsOf (entropy : Bytes) : Bytes :=
  bytesToBits entropy ++ bytesToBits ((sha256Sum entropy).take 1)

/-- The word of index `i` of the mnemonic of `entropy`. -/
def wordAt (bip39Words : List Bytes) (entropy : Bytes) (i : Nat) : Bytes :=
  bip39Words.getD (bitsToInt (((allBitsOf entropy).take (i * 11 + 11)).drop (i * 11))) []

/-- The lengths for which `derive` returns in the given mode: from -2 up in
obfuscated mode, 0 to 23 words of a 2048-word dictionary in BIP39 mode. -/
def validLength (bip39Words : List Bytes) (length : Int) (mode : Bytes) : Prop :=
  if equalFold mode (str "obfuscated") = true then -2 ≤ length ∧ length ≤ 2 ^ 63 - 2
  else bip39Words.length = 2048 ∧ 0 ≤ length ∧ length ≤ 23

/-- The slug of index `i` of the window of `Generate`. -/
def slugAt (localZone : Int → Int) (bip39Words : List Bytes) (seed : Bytes) (length : Int)
    (mode : Bytes) (anchorTime : Time) (duration : Int) (format : Bytes) (start : Int)
    (i : Nat) : Slug :=
  let period := periodLabel localZone anchorTime duration format start i
  let vh := (derive bip39Words seed period length mode).getD ([], [])
  ⟨vh.1, period, vh.2⟩

/-- The zone rules of Europe/Berlin in 2026: UTC+2 from 29 March 01:00 UTC
to 25 October 01:00 UTC, UTC+1 before and after. -/
def berlinZone : Int → Int :=
  fun s => if 1774746000 ≤ s ∧ s < 1792890000 then 7200 else 3600

/-- The interval keywords of the specification, in lowercase. -/
def intervalKeywords : List Bytes :=
  ["", "d", "day", "days", "s", "second", "seconds", "m", "minute", "minutes",
   "h", "hour", "hours", "w", "week", "weeks"].map str

/-- The ISO-8601 week label "YYYY-Www" of an instant in its zone: the ISO
week-numbering year and the two-digit ISO week number, which are the
calendar year of the Thursday of the instant's week (Monday to Sunday) and
the rank of that Thursday among the Thursdays of its year. -/
def isoWeekLabel (localZone : Int → Int) (t : Time) : Bytes :=
  let z := t.localSec localZone / 86400
  let weekday := (z + 3) % 7
  let thursday := z - weekday + 3
  let year := (civilFromDays thursday).1
  let week := (thursday - daysFromCivil year 1 1) / 7 + 1
  appendInt year 4 ++ str "-W" ++ appendInt week 2

/-- The shortening rules in the words of the specification, for a word `w`
of length `n`; the first rule that matches wins. -/
def shortenWordRules (w : Bytes) : Bytes :=
  let n := w.length
  -- (1) n < 4: unchanged
  if n < 4 then w
  -- (2) w[n-2] is one of a, e, o and w[n-1] = 'r': drop both, append "r"
  else if w.getD (n - 2) 0 ∈ str "aeo" ∧ w.getD (n - 1) 0 = 114 then
    w.dropLast.dropLast ++ str "r"
  -- (3) w ends in "le": drop the last character
  else if str "le" <:+ w then w.dropLast
  -- (4) w[n-1] is a vowel and n > 4: drop the last character
  else if w.getD (n - 1) 0 ∈ str "aeiou" ∧ n > 4 then w.dropLast
  -- (5) unchanged
  else w

/-- The single forward pass of the specification: a character is dropped
exactly when it equals the last two characters already kept in the output. -/
def forwardPass (s : Bytes) : Bytes :=
  s.foldl (fun out c => if [c, c] <:+ out then out else out ++ [c]) []

/-- The maximal runs of identical characters of a string, in order, each as
the pair of its character and its length. -/
def runs : Bytes → List (Nat × Nat)
  | [] => []
  | c :: s =>
    match runs s with
    | (d, k) :: rest => if c = d then (d, k + 1) :: rest else (c, 1) :: (d, k) :: rest
    | [] => [(c, 1)]

/-- The string whose runs are `rs`, every run of `k` characters cut to
`min k 2` copies. -/
def squeezeRuns (rs : List (Nat × Nat)) : Bytes :=
  rs.flatMap (fun r => List.replicate (min r.2 2) r.1)

/-- The number of copies of `d` that end the input read so far (last
character first), counted up to two. -/
def lead (d : Nat) : Bytes → Nat
  | a :: b :: _ => if a = d then (if b = d then 2 else 1) else 0
  | [a] => if a = d then 1 else 0
  | [] => 0

/-- Bit `k` of a byte string, counted from the most significant bit of the first byte. -/
def bitAt (data : Bytes) (k : Nat) : Nat :=
  data.getD (k / 8) 0 / 2 ^ (7 - k % 8) % 2

/-- The big-endian integer of bits `11*i .. 11*i+10` of the entropy followed
by the first byte of its SHA-256 digest. -/
def groupIndex (entropy : Bytes) (i : Nat) : Nat :=
  ((List.range 11).map (fun j =>
    bitAt (entropy ++ (sha256Sum entropy).take 1) (11 * i + j) * 2 ^ (10 - j))).sum

/-- A lowercase ASCII letter `a`..`z`. -/
def isLower (c : Nat) : Prop := 97 ≤ c ∧ c ≤ 122

instance (c : Nat) : Decidable (isLower c) := by
  unfold isLower; infer_instance

/-- An ASCII digit `0`..`9`. -/
def isDecimal (c : Nat) : Prop := 48 ≤ c ∧ c ≤ 57

instance (c : Nat) : Decidable (isDecimal c) := by
  unfold isDecimal; infer_instance

/-- A text of lowercase letters and digits. -/
def isAlnum (s : Bytes) : Prop := ∀ c ∈ s, isLower c ∨ isDecimal c

instance (s : Bytes) : Decidable (isAlnum s) := by
  unfold isAlnum; infer_instance

/-- A non-empty word of lowercase letters. -/
def isLowerWord (s : Bytes) : Prop := s ≠ [] ∧ ∀ c ∈ s, isLower c

instance (s : Bytes) : Decidable (isLowerWord s) := by
  unfold isLowerWord; infer_instance

/-- The shape of a slug: lowercase letters, digits and hyphens (byte 45), at
most one hyphen, and a lowercase letter first. -/
def SlugShape (s : Bytes) : Prop :=
  (∀ c ∈ s, isLower c ∨ isDecimal c ∨ c = 45) ∧ s.count 45 ≤ 1 ∧
    ∃ c, s.head? = some c ∧ isLower c

/-! ## Lemmas -/

theorem tripleFree_noTriple : ∀ s : Bytes, TripleFree s → NoTriple s
  | [], _ => by intro j _ hj; simp at hj
  | [_], _ => by intro j h2 hj; simp at hj; omega
  | [_, _], _ => by intro j h2 hj; simp at hj; omega
  | a :: b :: c :: r, h => by
    obtain ⟨h1, h2⟩ := h
    have ih := tripleFree_noTriple (b :: c :: r) h2
    intro j hj2 hjl
    rcases Nat.lt_or_ge 2 j with hlt | hge
    · obtain ⟨k, rfl⟩ : ∃ k, j = k + 1 := ⟨j - 1, by omega⟩
      have := ih k (by omega) (by simpa using hjl)
      have e1 : k + 1 - 1 = (k - 1) + 1 := by omega
      have e2 : k + 1 - 2 = (k - 2) + 1 := by omega
      rw [e1, e2]
      simpa [List.getD_cons_succ] using this
    · have : j = 2 := by omega
      subst this
      simp only [List.getD_cons_succ, List.getD_cons_zero, Nat.reduceSub]
      rintro ⟨hcb, hca⟩
      exact h1 ⟨hca.symm.trans hcb, hcb.symm⟩

theorem dropTriples_spec : ∀ (r hist : Bytes),
    TripleFree (dropTriples hist r) ∧
    (∀ x t, hist = x :: t → ∀ u, dropTriples hist r ≠ x :: x :: u) ∧
    (∀ x t, hist = x :: x :: t → ∀ u, dropTriples hist r ≠ x :: u)
  | [], hist => by simp [dropTriples, TripleFree]
  | c :: r, hist => by
    obtain ⟨ih1, ih2, ih3⟩ := dropTriples_spec r (c :: hist)
    have ih2' := ih2 c hist rfl
    by_cases hd : ∃ t, hist = c :: c :: t
    · obtain ⟨t, rfl⟩ := hd
      have ih3' := ih3 c (c :: t) rfl
      have e : dropTriples (c :: c :: t) (c :: r) = dropTriples (c :: c :: c :: t) r := by
        simp [dropTriples]
      rw [e]
      refine ⟨ih1, ?_, ?_⟩
      · intro x t' hx u
        injection hx with hx _
        subst hx
        exact ih2' u
      · intro x t' hx u
        injection hx with hx _
        subst hx
        exact ih3' u
    · have e : dropTriples hist (c :: r) = c :: dropTriples (c :: hist) r := by
        rcases hist with _ | ⟨a, _ | ⟨b, t⟩⟩
        · simp [dropTriples]
        · simp [dropTriples]
        · have : ¬ (c = a ∧ c = b) := by
            rintro ⟨rfl, rfl⟩
            exact hd ⟨t, rfl⟩
          simp [dropTriples, this]
      rw [e]
      refine ⟨?_, ?_, ?_⟩
      · generalize hD : dropTriples (c :: hist) r = D at *
        rcases D with _ | ⟨y, _ | ⟨z, w⟩⟩
        · trivial
        · trivial
        · refine ⟨?_, ih1⟩
          rintro ⟨rfl, rfl⟩
          exact ih2' w rfl
      · intro x t hx u hcontra
        injection hcontra with hc hD
        subst hc
        subst hx
        exact ih3 c t rfl u hD
      · intro x t hx u hcontra
        injection hcontra with hc _
        subst hc
        exact hd ⟨t, hx⟩

theorem removeTripleLetters_aux : ∀ (r hist : Bytes),
    ((r.enumFrom hist.length).filter (fun ic =>
      decide (ic.1 < 2) || !(ic.2 == (hist.reverse ++ r).getD (ic.1 - 1) 0
        && ic.2 == (hist.reverse ++ r).getD (ic.1 - 2) 0))).map Prod.snd
      = dropTriples hist r
  | [], hist => by simp [dropTriples]
  | c :: r, hist => by
    have ih := removeTripleLetters_aux r (c :: hist)
    simp only [List.length_cons, List.reverse_cons, List.append_assoc, List.singleton_append] at ih
    rw [List.enumFrom_cons, List.filter_cons]
    rcases hist with _ | ⟨a, _ | ⟨b, t⟩⟩
    · simp only [List.length_nil] at ih ⊢
      simp [dropTriples, ← ih]
    · simp only [List.length_cons, List.length_nil] at ih ⊢
      simp [dropTriples, ← ih]
    · have hn : (a :: b :: t).length = t.length + 2 := by simp
      have hs : (a :: b :: t).reverse ++ c :: r = t.reverse ++ (b :: a :: c :: r) := by simp
      have g1 : ((a :: b :: t).reverse ++ c :: r).getD (t.length + 2 - 1) 0 = a := by
        rw [hs, List.getD_eq_getElem?_getD, List.getElem?_append_right (by simp)]
        simp
      have g2 : ((a :: b :: t).reverse ++ c :: r).getD (t.length + 2 - 2) 0 = b := by
        rw [hs, List.getD_eq_getElem?_getD, List.getElem?_append_right (by simp)]
        simp
      rw [hn] at ih ⊢
      simp only [g1, g2]
      by_cases h : c = a ∧ c = b
      · obtain ⟨rfl, rfl⟩ := h
        simp [dropTriples, ← ih]
      · have : ¬ (t.length + 2 < 2) := by omega
        have hb : (c == a && c == b) = false := by
          simpa using h
        simp [dropTriples, h, hb, ← ih]

theorem removeTripleLetters_eq (s : Bytes) : removeTripleLetters s = dropTriples [] s := by
  have := removeTripleLetters_aux s []
  simpa [removeTripleLetters, List.enum] using this

theorem removeTripleLetters_noTriple (s : Bytes) : NoTriple (removeTripleLetters s) := by
  rw [removeTripleLetters_eq]
  exact tripleFree_noTriple _ (dropTriples_spec s []).1

theorem sha256Sum_length (m : Bytes) : (sha256Sum m).length = 32 := by
  simp [sha256Sum, wordBytes]

theorem hmacSHA256_length (key message : Bytes) : (hmacSHA256 key message).length = 32 := by
  simp [hmacSHA256, sha256Sum_length]

theorem entropy_read (e : Bytes) (h : e.length = 32) (k : Nat) (hk : k < 32) :
    ∃ b, e[k]? = some b :=
  ⟨e[k], List.getElem?_eq_getElem (by omega)⟩

theorem pick_some (e : Bytes) (h : e.length = 32) (off : Nat) (choices : List Bytes)
    (hc : choices ≠ []) : ∃ c, c ∈ choices ∧ pick e off choices = some (c, off + 1) := by
  have h1 : off % 32 < e.length := by omega
  have hpos : 0 < choices.length := List.length_pos.mpr hc
  have h2 : e[off % 32] % choices.length < choices.length := Nat.mod_lt _ hpos
  refine ⟨choices[e[off % 32] % choices.length], List.getElem_mem _, ?_⟩
  have hne : choices.length ≠ 0 := by omega
  simp [pick, List.getElem?_eq_getElem h1, List.getElem?_eq_getElem h2, hne]

theorem consonants_length : ∀ c ∈ consonants, c.length = 1 := by decide

theorem vowels_length : ∀ c ∈ vowels, c.length = 1 := by decide

theorem makeSyllable_some (e : Bytes) (h : e.length = 32) (off : Nat) :
    ∃ syl, makeSyllable e off = some (syl, off + 3) ∧ 2 ≤ syl.length := by
  obtain ⟨c, hc, hpc⟩ := pick_some e h off consonants (by decide)
  obtain ⟨v, hv, hpv⟩ := pick_some e h (off + 1) vowels (by decide)
  obtain ⟨d, _, hpd⟩ := pick_some e h (off + 2) codas (by decide)
  refine ⟨c ++ v ++ d, ?_, ?_⟩
  · simp [makeSyllable, hpc, hpv, hpd]
  · simp [consonants_length c hc, vowels_length v hv]
    omega

theorem pickSecondWord_some (e word1 : Bytes) (h : e.length = 32) :
    ∀ (n : Nat) (w0 : Bytes) (off : Nat),
      ∃ w off1, pickSecondWord e word1 n w0 off = some (w, off1) ∧ off1 ≤ off + n
  | 0, w0, off => ⟨w0, off, rfl, by omega⟩
  | n + 1, w0, off => by
    obtain ⟨w, _, hw⟩ := pick_some e h off techWords (by decide)
    by_cases hne : w ≠ word1
    · exact ⟨w, off + 1, by simp [pickSecondWord, hw, hne], by omega⟩
    · obtain ⟨w2, off2, h2, hle⟩ := pickSecondWord_some e word1 h n w (off + 1)
      exact ⟨w2, off2, by simp [pickSecondWord, hw, hne, h2], by omega⟩

theorem slugPrefix_some (e : Bytes) (h : e.length = 32) :
    ∃ p off, slugPrefix e = some (p, off) ∧ off ≤ 2 := by
  obtain ⟨b, hb⟩ := entropy_read e h 0 (by omega)
  obtain ⟨p, _, hp⟩ := pick_some e h 1 prefixes (by decide)
  by_cases hc : b % 4 = 0
  · exact ⟨p, 2, by simp [slugPrefix, hb, hc, hp], by omega⟩
  · exact ⟨[], 1, by simp [slugPrefix, hb, hc], by omega⟩

theorem slugFirstWord_some (e : Bytes) (h : e.length = 32) (off : Nat) (ho : off + 1 < 32) :
    ∃ w, slugFirstWord e off = some (w, off + 2) := by
  obtain ⟨w, _, hw⟩ := pick_some e h off techWords (by decide)
  obtain ⟨b, hb⟩ := entropy_read e h (off + 1) ho
  exact ⟨if b % 5 = 0 then shortenWord w else w, by simp [slugFirstWord, hw, hb]⟩

theorem slugMid_some (e : Bytes) (h : e.length = 32) (off : Nat) (ho : off < 32) :
    ∃ m off1, slugMid e off = some (m, off1) ∧ off1 ≤ off + 4 := by
  obtain ⟨b, hb⟩ := entropy_read e h off ho
  obtain ⟨syl, hs, _⟩ := makeSyllable_some e h (off + 1)
  by_cases h1 : b % 7 < 2
  · by_cases h2 : b % 2 = 0
    · exact ⟨syl, off + 1 + 3, by simp [slugMid, hb, h1, h2, hs], by omega⟩
    · exact ⟨str "-", off + 1, by simp [slugMid, hb, h1, h2], by omega⟩
  · exact ⟨[], off + 1, by simp [slugMid, hb, h1], by omega⟩

theorem slugSecondWord_some (e word1 : Bytes) (h : e.length = 32) (off : Nat)
    (ho : off + 5 < 32) : ∃ w off1, slugSecondWord e word1 off = some (w, off1) ∧ off1 ≤ off + 6 := by
  obtain ⟨w, off1, hw, hle⟩ := pickSecondWord_some e word1 h 5 [] off
  obtain ⟨b, hb⟩ := entropy_read e h off1 (by omega)
  exact ⟨if b % 5 = 0 then shortenWord w else w, off1 + 1,
    by simp [slugSecondWord, hw, hb], by omega⟩

theorem slugEnding_some (e : Bytes) (h : e.length = 32) (off : Nat) (ho : off < 32) :
    ∃ s, slugEnding e off = some s := by
  obtain ⟨b, hb⟩ := entropy_read e h off ho
  obtain ⟨s1, hs1, _⟩ := makeSyllable_some e h (off + 1)
  obtain ⟨s2, hs2, _⟩ := makeSyllable_some e h (off + 1 + 3)
  obtain ⟨n, _, hn⟩ := pick_some e h (off + 1) numbers (by decide)
  obtain ⟨f, _, hf⟩ := pick_some e h (off + 1) suffixes (by decide)
  simp only [slugEnding, hb, hs1, hs2, hn, hf, Option.map_some']
  split_ifs <;> exact ⟨_, rfl⟩

theorem buildGrammar_some (e : Bytes) (h : e.length = 32) : ∃ s, buildGrammar e = some s := by
  obtain ⟨p, o1, hp, ho1⟩ := slugPrefix_some e h
  obtain ⟨w1, hw1⟩ := slugFirstWord_some e h o1 (by omega)
  obtain ⟨m, o3, hm, ho3⟩ := slugMid_some e h (o1 + 2) (by omega)
  obtain ⟨w2, o4, hw2, ho4⟩ := slugSecondWord_some e w1 h o3 (by omega)
  obtain ⟨en, hen⟩ := slugEnding_some e h o4 (by omega)
  exact ⟨p ++ w1 ++ m ++ w2 ++ en, by simp [buildGrammar, hp, hw1, hm, hw2, hen]⟩

theorem padLoop_some (e : Bytes) (h : e.length = 32) (minLen : Nat) :
    ∀ (fuel : Nat) (s : Bytes) (off : Nat), 0 < fuel → minLen < s.length + fuel →
      ∃ r, padLoop e minLen fuel s off = some r ∧ minLen ≤ r.length
  | 0, s, off, h0, hf => by omega
  | fuel + 1, s, off, _, hf => by
    by_cases hlt : s.length < minLen
    · obtain ⟨syl, hs, hl⟩ := makeSyllable_some e h off
      obtain ⟨r, hr, hrl⟩ := padLoop_some e h minLen fuel (s ++ syl) (off + 3)
        (by omega) (by simp; omega)
      exact ⟨r, by simp [padLoop, hlt, hs, hr], hrl⟩
    · exact ⟨s, by simp [padLoop, hlt], by omega⟩

theorem stringsIndex_le : ∀ (s sub : Bytes) (i : Nat), stringsIndex s sub = some i →
    i + sub.length ≤ s.length
  | [], sub, i, hi => by
    rcases sub with _ | ⟨x, sub⟩
    · simp [stringsIndex] at hi; omega
    · simp [stringsIndex] at hi
  | c :: s, sub, i, hi => by
    unfold stringsIndex at hi
    split at hi
    · rename_i hp
      have := (List.isPrefixOf_iff_prefix.mp hp).length_le
      simp at hi
      omega
    · rcases hj : stringsIndex s sub with _ | j
      · simp [hj] at hi
      · have := stringsIndex_le s sub j hj
        simp [hj] at hi
        simp
        omega

theorem toLower_length (s : Bytes) : (toLower s).length = s.length := by
  simp [toLower]

theorem insertSyllable_some (e : Bytes) (h : e.length = 32) (s : Bytes) (i : Nat) :
    ∃ r, insertSyllable s e i = some r ∧ s.length ≤ r.length := by
  unfold insertSyllable
  obtain ⟨syl, hs, _⟩ := makeSyllable_some e h (25 + i)
  simp only []
  split
  · exact ⟨s, rfl, le_refl _⟩
  · rename_i insertAt hfind
    obtain ⟨b, _, hb⟩ := List.exists_of_findSome?_eq_some hfind
    rcases hidx : stringsIndex (toLower s) b with _ | idx
    · simp [hidx] at hb
    · have hle := stringsIndex_le _ _ _ hidx
      rw [toLower_length] at hle
      simp [hidx] at hb
      have hat : insertAt ≤ s.length := by
        have : b.length / 2 ≤ b.length := Nat.div_le_self _ _
        omega
      have h1 : sliceTo s (insertAt : Int) = some (s.take insertAt) := by
        simp [sliceTo, hat]
      have h2 : sliceFrom s (insertAt : Int) = some (s.drop insertAt) := by
        simp [sliceFrom, hat]
      refine ⟨s.take insertAt ++ syl ++ s.drop insertAt, by simp [hs, h1, h2], ?_⟩
      simp
      omega

theorem removeBlockedLoop_some (e : Bytes) (h : e.length = 32) :
    ∀ (n i : Nat) (s : Bytes),
      ∃ r, removeBlockedLoop e n i s = some r ∧ s.length ≤ r.length
  | 0, i, s => ⟨s, rfl, le_refl _⟩
  | n + 1, i, s => by
    by_cases hc : containsBlockedWord s = true
    · obtain ⟨s1, hs1, hl1⟩ := insertSyllable_some e h s i
      obtain ⟨r, hr, hlr⟩ := removeBlockedLoop_some e h n (i + 1) s1
      exact ⟨r, by simp [removeBlockedLoop, hc, hs1, hr], by omega⟩
    · exact ⟨s, by simp [removeBlockedLoop, hc], le_refl _⟩

theorem truncateLoop_some (s : Bytes) (hs : 18 < s.length) :
    ∀ (n i : Nat), i = n + 9 → i ≤ 18 →
      ∃ r, truncateLoop s 18 n i = some r ∧ 10 ≤ r.length ∧ r.length ≤ 18
  | 0, i, _, _ => by
    refine ⟨s.take 18, ?_, ?_, ?_⟩
    · have : (18 : Int) ≤ (s.length : Int) := by omega
      simp [truncateLoop, sliceTo, this]
    · simp; omega
    · simp
  | n + 1, i, hi, hle => by
    have hi0 : i ≠ 0 := by omega
    have hlt : i - 1 < s.length := by omega
    obtain ⟨r, hr, h1, h2⟩ := truncateLoop_some s hs n (i - 1) (by omega) (by omega)
    by_cases hv : byteIn s[i - 1] (str "aeiou") = true
    · refine ⟨s.take i, ?_, ?_, ?_⟩
      · have : (i : Int) ≤ (s.length : Int) := by omega
        simp [truncateLoop, hi0, List.getElem?_eq_getElem hlt, hv, sliceTo, this]
      · simp; omega
      · simp; omega
    · exact ⟨r, by simp [truncateLoop, hi0, List.getElem?_eq_getElem hlt, hv, hr], h1, h2⟩

theorem truncateToMaxLength_some (s : Bytes) (hs : 10 ≤ s.length) :
    ∃ r, truncateToMaxLength s 10 18 = some r ∧ 10 ≤ r.length ∧ r.length ≤ 18 := by
  by_cases h : s.length ≤ 18
  · exact ⟨s, by simp [truncateToMaxLength, h], hs, h⟩
  · obtain ⟨r, hr, h1, h2⟩ := truncateLoop_some s (by omega) 9 18 rfl (le_refl _)
    exact ⟨r, by simp [truncateToMaxLength, h, hr], h1, h2⟩

/-- On 32-byte entropy `buildObfuscatedSlug` returns: the result is the
de-tripled form of a string of 10 to 18 characters. -/
theorem buildObfuscatedSlug_some (e : Bytes) (h : e.length = 32) :
    ∃ r, buildObfuscatedSlug e = some (removeTripleLetters r) ∧ 10 ≤ r.length ∧ r.length ≤ 18 := by
  obtain ⟨s0, h0⟩ := buildGrammar_some e h
  obtain ⟨s1, h1, hl1⟩ := padLoop_some e h 10 11 s0 20 (by omega) (by omega)
  obtain ⟨s2, h2, hl2⟩ := removeBlockedLoop_some e h 10 0 s1
  obtain ⟨s3, h3, hl3, hu3⟩ := truncateToMaxLength_some s2 (by omega)
  exact ⟨s3, by simp [buildObfuscatedSlug, h0, padToMinLength, h1, removeBlockedWords, h2, h3],
    hl3, hu3⟩

theorem forRange_map {α : Type} (f : Nat → Option α) (g : Nat → α) :
    ∀ l : List Nat, (∀ i ∈ l, f i = some (g i)) → forRange f l = some (l.map g)
  | [], _ => rfl
  | i :: is, h => by
    have h1 := h i (List.mem_cons_self _ _)
    have h2 := forRange_map f g is (fun j hj => h j (List.mem_cons_of_mem _ hj))
    simp [forRange, h1, h2]

theorem bytesToBits_length (data : Bytes) : (bytesToBits data).length = 8 * data.length := by
  induction data with
  | nil => rfl
  | cons b r ih =>
    simp only [bytesToBits, List.flatMap_cons, List.length_append, List.length_map,
      List.length_range, List.length_cons] at ih ⊢
    omega

theorem bytesToBits_le_one (data : Bytes) : ∀ x ∈ bytesToBits data, x ≤ 1 := by
  intro x hx
  simp only [bytesToBits, List.mem_flatMap, List.mem_map] at hx
  obtain ⟨b, _, j, _, rfl⟩ := hx
  exact Nat.and_le_right

theorem foldl_bits_lt : ∀ (bits : Bytes) (v k : Nat), v < 2 ^ k → (∀ x ∈ bits, x ≤ 1) →
    bits.foldl (fun val b => val <<< 1 ||| b) v < 2 ^ (k + bits.length)
  | [], v, k, hv, _ => by simpa using hv
  | b :: r, v, k, hv, hb => by
    have hb1 : b ≤ 1 := hb b (List.mem_cons_self _ _)
    have h1 : v <<< 1 < 2 ^ (k + 1) := by
      rw [Nat.shiftLeft_eq, pow_succ]
      omega
    have h2 : b < 2 ^ (k + 1) := by
      have : 1 < 2 ^ (k + 1) := Nat.one_lt_two_pow (by omega)
      omega
    have := foldl_bits_lt r (v <<< 1 ||| b) (k + 1) (Nat.or_lt_two_pow h1 h2)
      (fun x hx => hb x (List.mem_cons_of_mem _ hx))
    simpa [List.foldl_cons, Nat.add_assoc, Nat.add_comm 1] using this

theorem bitsToInt_lt (bits : Bytes) (h : ∀ x ∈ bits, x ≤ 1) :
    bitsToInt bits < 2 ^ bits.length := by
  have := foldl_bits_lt bits 0 0 (by decide) h
  simpa [bitsToInt] using this

theorem allBitsOf_length (e : Bytes) (h : e.length = 32) : (allBitsOf e).length = 264 := by
  simp [allBitsOf, bytesToBits_length, h, sha256Sum_length]

theorem entropyToBIP39Words_eq (dict : List Bytes) (e : Bytes) (hd : dict.length = 2048)
    (he : e.length = 32) :
    entropyToBIP39Words dict e = some ((List.range 24).map (wordAt dict e)) := by
  show forRange (fun i =>
    match slice (allBitsOf e) (i * 11 : Nat) (i * 11 + 11 : Nat) with
    | none => none
    | some bits => dict[bitsToInt bits]?) (List.range 24) = _
  apply forRange_map
  intro i hi
  have hi : i < 24 := List.mem_range.mp hi
  have hl := allBitsOf_length e he
  have hs : slice (allBitsOf e) (i * 11 : Nat) (i * 11 + 11 : Nat)
      = some (((allBitsOf e).take (i * 11 + 11)).drop (i * 11)) := by
    have h1 : ((i * 11 : Nat) : Int) ≤ ((i * 11 + 11 : Nat) : Int) := by omega
    have h2 : ((i * 11 + 11 : Nat) : Int) ≤ ((allBitsOf e).length : Int) := by omega
    simp only [slice, h1, h2, Int.toNat_ofNat, and_self, Int.ofNat_zero_le, if_true]
  have hlen : (((allBitsOf e).take (i * 11 + 11)).drop (i * 11)).length = 11 := by
    simp [hl]; omega
  have hbits : ∀ x ∈ ((allBitsOf e).take (i * 11 + 11)).drop (i * 11), x ≤ 1 := by
    intro x hx
    have hx := List.mem_of_mem_take (List.mem_of_mem_drop hx)
    rcases List.mem_append.mp hx with h | h
    · exact bytesToBits_le_one _ x h
    · exact bytesToBits_le_one _ x h
  have hlt := bitsToInt_lt _ hbits
  rw [hlen] at hlt
  have hlt2 : bitsToInt (((allBitsOf e).take (i * 11 + 11)).drop (i * 11)) < dict.length := by
    rw [hd]; exact hlt
  simp only [hs, wordAt]
  rw [List.getElem?_eq_getElem hlt2, List.getD_eq_getElem _ _ hlt2]

theorem wrapInt64_eq (x : Int) (h1 : -2 ^ 63 ≤ x) (h2 : x < 2 ^ 63) : wrapInt64 x = x := by
  unfold wrapInt64
  omega

theorem hexEncode_length (bs : Bytes) : (hexEncode bs).length = 2 * bs.length := by
  induction bs with
  | nil => rfl
  | cons b r ih =>
    simp only [hexEncode, List.flatMap_cons, List.length_append, List.length_cons,
      List.length_nil] at ih ⊢
    omega

/-- The value and hash that `derive` returns in obfuscated mode. -/
theorem derive_obfuscated_eq (dict : List Bytes) (seed period : Bytes) (length : Int)
    (mode : Bytes) (hm : equalFold mode (str "obfuscated") = true)
    (h1 : -2 ≤ length) (h2 : length ≤ 2 ^ 63 - 2) :
    ∃ slug, buildObfuscatedSlug (hmacSHA256 seed (seed ++ str ":" ++ period)) = some slug ∧
      derive dict seed period length mode = some (slug,
        hexEncode ((hmacSHA256 seed (seed ++ str ":skid:" ++ period)).take
          (min (Int.tdiv (length + 1) 2) 16).toNat)) := by
  obtain ⟨r, hr, _, _⟩ := buildObfuscatedSlug_some _ (hmacSHA256_length seed (seed ++ str ":" ++ period))
  refine ⟨_, hr, ?_⟩
  have hw : wrapInt64 (length + 1) = length + 1 := wrapInt64_eq _ (by omega) (by omega)
  have hnn : 0 ≤ Int.tdiv (length + 1) 2 := by
    by_cases hneg : length + 1 < 0
    · have : length + 1 = -1 := by omega
      rw [this]; decide
    · exact Int.tdiv_nonneg (by omega) (by decide)
  have hlen := hmacSHA256_length seed (seed ++ str ":skid:" ++ period)
  have hs : sliceTo (hmacSHA256 seed (seed ++ str ":skid:" ++ period))
      (min (Int.tdiv (length + 1) 2) 16)
      = some ((hmacSHA256 seed (seed ++ str ":skid:" ++ period)).take
          (min (Int.tdiv (length + 1) 2) 16).toNat) := by
    have c1 : 0 ≤ min (Int.tdiv (length + 1) 2) 16 := by omega
    have c2 : min (Int.tdiv (length + 1) 2) 16
        ≤ ((hmacSHA256 seed (seed ++ str ":skid:" ++ period)).length : Int) := by
      rw [hlen]; omega
    simp only [sliceTo, c1, c2, and_self, if_true]
  unfold derive
  rw [if_pos hm]
  simp only [hr, hw, hs]

/-- The value and hash that `derive` returns in BIP39 mode for 0 to 23 words. -/
theorem derive_bip39_eq (dict : List Bytes) (seed period : Bytes) (length : Int)
    (mode : Bytes) (hm : equalFold mode (str "obfuscated") = false)
    (hd : dict.length = 2048) (h1 : 0 ≤ length) (h2 : length ≤ 23) :
    derive dict seed period length mode = some
      ((((List.range 24).map (wordAt dict (hmacSHA256 seed (seed ++ str ":" ++ period)))).take
          length.toNat).flatten,
        hexEncode ((hmacSHA256 seed (seed ++ str ":" ++ period)).take
          ((length * 11 + 7) / 8).toNat)) := by
  have hlen := hmacSHA256_length seed (seed ++ str ":" ++ period)
  have hw := entropyToBIP39Words_eq dict _ hd hlen
  have hmin : min length 24 = length := by omega
  have hw1 : wrapInt64 (length * 11) = length * 11 := wrapInt64_eq _ (by omega) (by omega)
  have hw2 : wrapInt64 (length * 11 + 7) = length * 11 + 7 := wrapInt64_eq _ (by omega) (by omega)
  have ht : Int.tdiv (length * 11 + 7) 8 = (length * 11 + 7) / 8 :=
    Int.tdiv_eq_ediv (by omega) (by decide)
  have hs1 : sliceTo ((List.range 24).map (wordAt dict (hmacSHA256 seed (seed ++ str ":" ++ period))))
      length = some (((List.range 24).map
        (wordAt dict (hmacSHA256 seed (seed ++ str ":" ++ period)))).take length.toNat) := by
    have c2 : length ≤ (((List.range 24).map
        (wordAt dict (hmacSHA256 seed (seed ++ str ":" ++ period)))).length : Int) := by
      simp; omega
    simp only [sliceTo, h1, c2, and_self, if_true]
  have hs2 : sliceTo (hmacSHA256 seed (seed ++ str ":" ++ period)) ((length * 11 + 7) / 8)
      = some ((hmacSHA256 seed (seed ++ str ":" ++ period)).take
          ((length * 11 + 7) / 8).toNat) := by
    have c1 : 0 ≤ (length * 11 + 7) / 8 := by omega
    have c2 : (length * 11 + 7) / 8
        ≤ ((hmacSHA256 seed (seed ++ str ":" ++ period)).length : Int) := by
      rw [hlen]; omega
    simp only [sliceTo, c1, c2, and_self, if_true]
  unfold derive
  rw [if_neg (by simp [hm])]
  simp only [hw, hmin, hw1, hw2, ht, hs1, hs2]

theorem derive_some_of_valid (dict : List Bytes) (seed period : Bytes) (length : Int)
    (mode : Bytes) (hv : validLength dict length mode) :
    ∃ vh, derive dict seed period length mode = some vh := by
  unfold validLength at hv
  by_cases hm : equalFold mode (str "obfuscated") = true
  · rw [if_pos hm] at hv
    obtain ⟨slug, _, h⟩ := derive_obfuscated_eq dict seed period length mode hm hv.1 hv.2
    exact ⟨_, h⟩
  · rw [if_neg hm] at hv
    have hm' : equalFold mode (str "obfuscated") = false := by simpa using hm
    exact ⟨_, derive_bip39_eq dict seed period length mode hm' hv.1 hv.2.1 hv.2.2⟩

theorem asciiFoldEq_lower (a b : Nat) (hb : 97 ≤ b ∧ b ≤ 122) :
    asciiFoldEq a b = true ↔ (if 65 ≤ a ∧ a ≤ 90 then a + 32 else a) = b := by
  unfold asciiFoldEq
  simp only [Bool.or_eq_true, Bool.and_eq_true, beq_iff_eq, decide_eq_true_eq]
  split_ifs with h <;> constructor <;> intro h1 <;> omega

theorem equalFold_ascii : ∀ (t m : Bytes), (∀ b ∈ t, 97 ≤ b ∧ b ≤ 122) → isASCII m →
    (equalFold m t = true ↔ toLower m = t)
  | [], m, _, _ => by
    cases m <;> simp [equalFold, toLower]
  | b :: t, [], _, _ => by simp [equalFold, toLower]
  | b :: t, a :: m, ht, hm => by
    have ha : a < 128 := hm a (List.mem_cons_self _ _)
    have ih := equalFold_ascii t m (fun x hx => ht x (List.mem_cons_of_mem _ hx))
      (fun x hx => hm x (List.mem_cons_of_mem _ hx))
    have hf := asciiFoldEq_lower a b (ht b (List.mem_cons_self _ _))
    have e : equalFold (a :: m) (b :: t) = (asciiFoldEq a b && equalFold m t) := by
      simp [equalFold, ha]
    rw [e, Bool.and_eq_true, hf, ih]
    simp [toLower]

theorem parseInterval_pos (s : Bytes) (d : Int) (fmt : Bytes)
    (h : parseInterval s = .ok (d, fmt)) : 1000000000 ≤ d ∧ d ≤ 604800000000000 := by
  unfold parseInterval at h
  simp only [] at h
  split_ifs at h <;>
    (injection h with h; injection h with h1 h2; subst h1; decide)

theorem makePanics_iff (n : Int) : makePanics n ↔ n < 0 ∨ 5864062014805 < n := by
  unfold makePanics maxAlloc slugSize
  constructor <;> intro h <;> omega

theorem Generate_eq (tz : Int → Int) (dict : List Bytes) (seed anchor : Bytes)
    (length window : Int) (interval mode : Bytes) (t : Time) (d : Int) (fmt : Bytes)
    (hp : parseTime tz anchor = .ok t) (hi : parseInterval interval = .ok (d, fmt))
    (hw : 0 ≤ window) (hmk : window ≤ 5864062014805) (hv : validLength dict length mode) :
    Generate tz dict seed anchor length window interval mode
      = .ok ((List.range window.toNat).map
          (slugAt tz dict seed length mode t d fmt (Int.tdiv (wrapInt64 (-window)) 2))) := by
  have hloop : forRange (fun i =>
      match derive dict seed
        (periodLabel tz t d fmt (Int.tdiv (wrapInt64 (-window)) 2) i) length mode with
      | none => none
      | some (value, hash) =>
        some (Slug.mk value (periodLabel tz t d fmt (Int.tdiv (wrapInt64 (-window)) 2) i) hash))
      (List.range window.toNat)
      = some ((List.range window.toNat).map
          (slugAt tz dict seed length mode t d fmt (Int.tdiv (wrapInt64 (-window)) 2))) := by
    apply forRange_map
    intro i _
    obtain ⟨vh, hvh⟩ := derive_some_of_valid dict seed
      (periodLabel tz t d fmt (Int.tdiv (wrapInt64 (-window)) 2) i) length mode hv
    simp only [hvh, slugAt, Option.getD_some]
  unfold Generate
  simp only [hp, hi]
  rw [if_neg (by rw [makePanics_iff]; omega)]
  simp only [hloop]

theorem Time.Add_zero (t : Time) : t.Add 0 = t := by
  cases t
  simp [Time.Add]

theorem timeFormat_fixed (z1 z2 : Int → Int) (layout : Bytes) (t : Time) (o d : Int)
    (h : t.loc = .fixed o) :
    timeFormat z1 layout (t.Add d) = timeFormat z2 layout (t.Add d) := by
  simp only [timeFormat, Time.localSec, Time.offset, Time.Add, h]

theorem periodLabel_fixed (z1 z2 : Int → Int) (t : Time) (o : Int) (h : t.loc = .fixed o)
    (d : Int) (fmt : Bytes) (start : Int) (i : Nat) :
    periodLabel z1 t d fmt start i = periodLabel z2 t d fmt start i :=
  timeFormat_fixed z1 z2 fmt t o _ h

/-- For an anchor that parses to a time in UTC or in a fixed zone, `Generate`
does not depend on the zone rules of `time.Local`. -/
theorem Generate_fixed_zone (z1 z2 : Int → Int) (dict : List Bytes) (seed anchor : Bytes)
    (length window : Int) (interval mode : Bytes) (t : Time) (o : Int)
    (h1 : parseTime z1 anchor = .ok t) (h2 : parseTime z2 anchor = .ok t)
    (ho : t.loc = .fixed o) :
    Generate z1 dict seed anchor length window interval mode
      = Generate z2 dict seed anchor length window interval mode := by
  have hl : ∀ (d : Int) (fmt : Bytes) (start : Int),
      (fun i : Nat => periodLabel z1 t d fmt start i)
        = (fun i : Nat => periodLabel z2 t d fmt start i) := by
    intro d fmt start
    funext i
    exact periodLabel_fixed z1 z2 t o ho d fmt start i
  unfold Generate
  simp only [h1, h2]
  rcases parseInterval interval with err | ⟨d, fmt⟩
  · rfl
  · simp only []
    have e := hl d fmt (Int.tdiv (wrapInt64 (-window)) 2)
    have e1 : ∀ i : Nat, periodLabel z1 t d fmt (Int.tdiv (wrapInt64 (-window)) 2) i
        = periodLabel z2 t d fmt (Int.tdiv (wrapInt64 (-window)) 2) i := fun i => congrFun e i
    simp only [e1]

theorem tdiv_neg_window (W : Int) (h0 : 0 ≤ W) (h1 : W < 2 ^ 63) :
    Int.tdiv (wrapInt64 (-W)) 2 = -(W / 2) := by
  rw [wrapInt64_eq _ (by omega) (by omega), Int.neg_tdiv, Int.tdiv_eq_ediv h0 (by decide)]

theorem mul_step_range (k h d : Int) (hd : 0 ≤ d) (h1 : -h ≤ k) (h2 : k ≤ h)
    (hb : h * d < 2 ^ 63) : -2 ^ 63 ≤ k * d ∧ k * d < 2 ^ 63 := by
  have e1 : k * d ≤ h * d := Int.mul_le_mul_of_nonneg_right h2 hd
  have e2 : -h * d ≤ k * d := Int.mul_le_mul_of_nonneg_right h1 hd
  have e3 : -h * d = -(h * d) := by ring
  constructor <;> omega

theorem periodLabel_eq (tz : Int → Int) (t : Time) (d : Int) (fmt : Bytes) (W : Int) (i : Nat)
    (h0 : 0 ≤ W) (h1 : W < 2 ^ 63) (hi : (i : Int) < W) :
    periodLabel tz t d fmt (Int.tdiv (wrapInt64 (-W)) 2) i
      = timeFormat tz fmt (t.Add (wrapInt64 ((-(W / 2) + (i : Int)) * d))) := by
  unfold periodLabel
  rw [tdiv_neg_window W h0 h1, wrapInt64_eq (-(W / 2) + (i : Int)) (by omega) (by omega)]

theorem getElem?_range_map {α : Type} (f : Nat → α) (n i : Nat) (a : α)
    (h : ((List.range n).map f)[i]? = some a) : i < n ∧ a = f i := by
  rw [List.getElem?_map] at h
  rcases hr : (List.range n)[i]? with _ | j
  · simp [hr] at h
  · have hlt : i < (List.range n).length := by
      by_contra hc
      rw [List.getElem?_eq_none (by omega)] at hr
      cases hr
    rw [List.getElem?_eq_getElem hlt, List.getElem_range] at hr
    simp only [Option.some.injEq] at hr
    subst hr
    simp only [List.length_range] at hlt
    simp [List.getElem?_eq_getElem, hlt] at h
    exact ⟨hlt, h.symm⟩

theorem slugAt_derive (tz : Int → Int) (dict : List Bytes) (seed : Bytes) (length : Int)
    (mode : Bytes) (t : Time) (d : Int) (fmt : Bytes) (start : Int) (i : Nat)
    (hv : validLength dict length mode) :
    derive dict seed (slugAt tz dict seed length mode t d fmt start i).Period length mode
      = some ((slugAt tz dict seed length mode t d fmt start i).Value,
          (slugAt tz dict seed length mode t d fmt start i).Hash) := by
  obtain ⟨vh, hvh⟩ := derive_some_of_valid dict seed (periodLabel tz t d fmt start i) length
    mode hv
  simp only [slugAt, hvh, Option.getD_some]

theorem parseTime_example (tz : Int → Int) :
    parseTime tz (str "2026-02-03") = .ok ⟨1770076800000000000, .fixed 0⟩ := by
  rfl

theorem parseTime_berlin :
    parseTime berlinZone (str "2026-03-28T23:30:00+01:00")
      = .ok ⟨1774737000000000000, .localLoc⟩ := by
  rfl

theorem parseInterval_week :
    parseInterval (str "week") = .ok (604800000000000, str "2006-W02") := by
  rfl

theorem parseInterval_day :
    parseInterval (str "day") = .ok (86400000000000, str "2006-01-02") := by
  rfl

theorem validLength_obfuscated_16 : validLength [] 16 (str "obfuscated") := by
  unfold validLength
  rw [if_pos (by decide)]
  decide

theorem parseTime_utc_offset :
    parseTime utcZone (str "2026-03-28T23:30:00+01:00")
      = .ok ⟨1774737000000000000, .fixed 3600⟩ := by
  rfl

/-- The labels follow the zone rules of `time.Local` when the anchor's offset
is the local one at that instant: for the anchor 2026-03-28T23:30:00+01:00,
window 3 and interval day, the third period is 2026-03-30 (slug
"mybetarust2") in a process with the rules of Europe/Berlin, where the
clocks go forward on 29 March, and 2026-03-29 in a process in UTC, where the
anchor stays in its fixed zone. -/
theorem Generate_follows_local_zone :
    (∃ slugs, Generate berlinZone [] (str "seedphrase") (str "2026-03-28T23:30:00+01:00") 16 3
        (str "day") (str "obfuscated") = .ok slugs ∧
      slugs.map Slug.Period = [str "2026-03-27", str "2026-03-28", str "2026-03-30"]) ∧
    (∃ slugs, Generate utcZone [] (str "seedphrase") (str "2026-03-28T23:30:00+01:00") 16 3
        (str "day") (str "obfuscated") = .ok slugs ∧
      slugs.map Slug.Period = [str "2026-03-27", str "2026-03-28", str "2026-03-29"]) ∧
    derive [] (str "seedphrase") (str "2026-03-30") 16 (str "obfuscated")
      = some (str "mybetarust2", str "e115f6e3fa214b08") := by
  have hb := Generate_eq berlinZone [] (str "seedphrase") (str "2026-03-28T23:30:00+01:00") 16 3
    (str "day") (str "obfuscated") _ _ _ parseTime_berlin parseInterval_day (by decide)
    (by decide) validLength_obfuscated_16
  have hu := Generate_eq utcZone [] (str "seedphrase") (str "2026-03-28T23:30:00+01:00") 16 3
    (str "day") (str "obfuscated") _ _ _ parseTime_utc_offset parseInterval_day (by decide)
    (by decide) validLength_obfuscated_16
  refine ⟨⟨_, hb, ?_⟩, ⟨_, hu, ?_⟩, by decide!⟩
  · rw [List.map_map]
    decide!
  · rw [List.map_map]
    decide!

theorem parseTime_error (tz : Int → Int) (anchor : Bytes)
    (h : ∀ f ∈ timeFormats, timeParse tz f anchor = none) :
    parseTime tz anchor = .error (str "invalid time: " ++ anchor) := by
  unfold parseTime
  have : timeFormats.findSome? (fun format => timeParse tz format anchor) = none := by
    rw [List.findSome?_eq_none_iff]
    exact h
  rw [this]

theorem parseInterval_error (interval : Bytes) (h : toLower interval ∉ intervalKeywords) :
    parseInterval interval = .error (str "invalid interval: " ++ interval) := by
  have hk : intervalKeywords = [str "", str "d", str "day", str "days", str "s", str "second",
      str "seconds", str "m", str "minute", str "minutes", str "h", str "hour", str "hours",
      str "w", str "week", str "weeks"] := rfl
  rw [hk] at h
  simp only [List.mem_cons, List.mem_singleton, List.not_mem_nil, or_false, not_or] at h
  unfold parseInterval
  simp only []
  rw [if_neg (by tauto), if_neg (by tauto), if_neg (by tauto), if_neg (by tauto),
    if_neg (by tauto)]

theorem intervalKeywords_eq : intervalKeywords = [str "", str "d", str "day", str "days",
    str "s", str "second", str "seconds", str "m", str "minute", str "minutes", str "h",
    str "hour", str "hours", str "w", str "week", str "weeks"] := rfl

theorem parseInterval_of_lower (s : Bytes) :
    parseInterval s =
      (if toLower s = str "s" ∨ toLower s = str "second" ∨ toLower s = str "seconds" then
        .ok (1000000000, str "2006-01-02T15:04:05")
      else if toLower s = str "m" ∨ toLower s = str "minute" ∨ toLower s = str "minutes" then
        .ok (60000000000, str "2006-01-02T15:04")
      else if toLower s = str "h" ∨ toLower s = str "hour" ∨ toLower s = str "hours" then
        .ok (3600000000000, str "2006-01-02T15")
      else if toLower s = str "" ∨ toLower s = str "d" ∨ toLower s = str "day"
          ∨ toLower s = str "days" then
        .ok (86400000000000, str "2006-01-02")
      else if toLower s = str "w" ∨ toLower s = str "week" ∨ toLower s = str "weeks" then
        .ok (604800000000000, str "2006-W02")
      else .error (str "invalid interval: " ++ s)) := rfl

theorem hexEncode_append (a b : Bytes) : hexEncode (a ++ b) = hexEncode a ++ hexEncode b := by
  simp [hexEncode]

theorem hexEncode_prefix (a b : Bytes) (h : a <+: b) : hexEncode a <+: hexEncode b := by
  obtain ⟨t, rfl⟩ := h
  rw [hexEncode_append]
  exact List.prefix_append _ _

theorem flatten_prefix (a b : List Bytes) (h : a <+: b) : a.flatten <+: b.flatten := by
  obtain ⟨t, rfl⟩ := h
  rw [List.flatten_append]
  exact List.prefix_append _ _

theorem removeTripleLetters_length_le (s : Bytes) :
    (removeTripleLetters s).length ≤ s.length := by
  unfold removeTripleLetters
  rw [List.length_map]
  exact le_trans (List.length_filter_le _ _) (by simp)

theorem byteIn_iff (b : Nat) (chars : Bytes) : byteIn b chars = true ↔ b ∈ chars := by
  simp [byteIn]

theorem truncateLoop_spec (s : Bytes) (hs : 18 < s.length) :
    ∀ (n i : Nat), i = n + 9 → i ≤ 18 →
      (∀ j, i < j → j ≤ 18 → s.getD (j - 1) 0 ∉ str "aeiou") →
      ∃ k, 10 ≤ k ∧ k ≤ 18 ∧ truncateLoop s 18 n i = some (s.take k) ∧
        (∀ j, k < j → j ≤ 18 → s.getD (j - 1) 0 ∉ str "aeiou") ∧
        (s.getD (k - 1) 0 ∈ str "aeiou" ∨
          (k = 18 ∧ ∀ j, 10 ≤ j → j ≤ 18 → s.getD (j - 1) 0 ∉ str "aeiou"))
  | 0, i, hi, _, hno => by
    refine ⟨18, by omega, by omega, ?_, fun j h1 h2 => by omega, Or.inr ⟨rfl, ?_⟩⟩
    · have : (18 : Int) ≤ (s.length : Int) := by omega
      simp [truncateLoop, sliceTo, this]
    · intro j h1 h2
      exact hno j (by omega) h2
  | n + 1, i, hi, hle, hno => by
    have hi0 : i ≠ 0 := by omega
    have hlt : i - 1 < s.length := by omega
    have hget : s.getD (i - 1) 0 = s[i - 1] := List.getD_eq_getElem _ _ hlt
    by_cases hv : s[i - 1] ∈ str "aeiou"
    · refine ⟨i, by omega, hle, ?_, hno, Or.inl (by rw [hget]; exact hv)⟩
      have : (i : Int) ≤ (s.length : Int) := by omega
      have hb : byteIn s[i - 1] (str "aeiou") = true := (byteIn_iff _ _).mpr hv
      simp [truncateLoop, hi0, List.getElem?_eq_getElem hlt, hb, sliceTo, this]
    · have hb : byteIn s[i - 1] (str "aeiou") = false := by
        rw [← Bool.not_eq_true, byteIn_iff]
        exact hv
      obtain ⟨k, h1, h2, h3, h4, h5⟩ := truncateLoop_spec s hs n (i - 1) (by omega) (by omega)
        (fun j hj1 hj2 => by
          by_cases hj : j = i
          · subst hj; rw [hget]; exact hv
          · exact hno j (by omega) hj2)
      exact ⟨k, h1, h2,
        by simp [truncateLoop, hi0, List.getElem?_eq_getElem hlt, hb, h3], h4, h5⟩

theorem dropTriples_cons (hist : Bytes) (c : Nat) (r : Bytes) :
    dropTriples hist (c :: r)
      = if hist.take 2 = [c, c] then dropTriples (c :: hist) r
        else c :: dropTriples (c :: hist) r := by
  rcases hist with _ | ⟨a, _ | ⟨b, t⟩⟩
  · simp [dropTriples]
  · simp [dropTriples]
  · by_cases h : c = a ∧ c = b
    · obtain ⟨rfl, rfl⟩ := h
      simp [dropTriples]
    · have h2 : ¬ (a = c ∧ b = c) := fun ⟨h1, h2⟩ => h ⟨h1.symm, h2.symm⟩
      simp [dropTriples, h, h2]

theorem suffix_pair_iff (c : Nat) (out : Bytes) :
    [c, c] <:+ out ↔ out.reverse.take 2 = [c, c] := by
  rw [← List.reverse_prefix, List.prefix_iff_eq_take]
  simp only [List.reverse_cons, List.reverse_nil, List.nil_append, List.singleton_append,
    List.length_cons, List.length_nil]
  exact eq_comm

theorem foldl_forward : ∀ (s out hist : Bytes), hist.take 2 = out.reverse.take 2 →
    s.foldl (fun out c => if [c, c] <:+ out then out else out ++ [c]) out
      = out ++ dropTriples hist s
  | [], out, hist, _ => by simp [dropTriples]
  | c :: r, out, hist, h => by
    rw [List.foldl_cons, dropTriples_cons]
    by_cases hc : [c, c] <:+ out
    · have hc2 : hist.take 2 = [c, c] := by rw [h]; exact (suffix_pair_iff c out).mp hc
      rw [if_pos hc, if_pos hc2]
      apply foldl_forward r out (c :: hist)
      have h1 : hist.take 1 = [c] := by
        have := congrArg (List.take 1) hc2
        simpa [List.take_take] using this
      rw [← h, hc2]
      simp [h1]
    · have hc2 : ¬ hist.take 2 = [c, c] := by
        rw [h]; exact fun hh => hc ((suffix_pair_iff c out).mpr hh)
      rw [if_neg hc, if_neg hc2]
      have h1 : hist.take 1 = out.reverse.take 1 := by
        have := congrArg (List.take 1) h
        simpa [List.take_take] using this
      rw [foldl_forward r (out ++ [c]) (c :: hist) (by simp [h1])]
      simp

theorem lead_le (d : Nat) (hist : Bytes) : lead d hist ≤ 2 := by
  rcases hist with _ | ⟨a, _ | ⟨b, t⟩⟩ <;> simp only [lead] <;> (try split_ifs) <;> omega

theorem lead_eq_two (d : Nat) (hist : Bytes) : lead d hist = 2 ↔ hist.take 2 = [d, d] := by
  rcases hist with _ | ⟨a, _ | ⟨b, t⟩⟩
  · simp [lead]
  · simp only [lead]
    split_ifs <;> simp
  · simp only [lead]
    split_ifs with h1 h2
    · simp [h1, h2]
    · simp [h1, h2]
    · simp [h1]

theorem lead_cons_self (d : Nat) (hist : Bytes) :
    lead d (d :: hist) = if lead d hist = 0 then 1 else 2 := by
  rcases hist with _ | ⟨a, _ | ⟨b, t⟩⟩
  · simp [lead]
  · simp only [lead]
    split_ifs <;> simp_all
  · simp only [lead]
    split_ifs <;> simp_all

theorem lead_cons_ne (d c : Nat) (hist : Bytes) (h : c ≠ d) : lead d (c :: hist) = 0 := by
  rcases hist with _ | ⟨a, t⟩ <;> simp [lead, h]

theorem squeezeRuns_cons (d k : Nat) (rest : List (Nat × Nat)) :
    squeezeRuns ((d, k) :: rest) = List.replicate (min k 2) d ++ squeezeRuns rest := by
  simp [squeezeRuns]

theorem dropTriples_runs : ∀ (s hist : Bytes),
    dropTriples hist s =
      match runs s with
      | [] => []
      | (d, k) :: rest => List.replicate (min k (2 - lead d hist)) d ++ squeezeRuns rest
  | [], hist => by simp [dropTriples, runs]
  | c :: s, hist => by
    have ih := dropTriples_runs s (c :: hist)
    have hl := lead_le c hist
    rw [dropTriples_cons, ih]
    rcases hr : runs s with _ | ⟨⟨d, k⟩, rest⟩
    · have e : runs (c :: s) = [(c, 1)] := by simp [runs, hr]
      rw [e]
      simp only [squeezeRuns, List.flatMap_nil, List.append_nil]
      by_cases h2 : hist.take 2 = [c, c]
      · have : lead c hist = 2 := (lead_eq_two c hist).mpr h2
        rw [if_pos h2, this]
        simp
      · have : lead c hist ≠ 2 := fun hh => h2 ((lead_eq_two c hist).mp hh)
        have hm : min 1 (2 - lead c hist) = 1 := by omega
        rw [if_neg h2, hm]
        simp
    · by_cases hcd : c = d
      · subst hcd
        have e : runs (c :: s) = (c, k + 1) :: rest := by simp [runs, hr]
        rw [e]
        simp only []
        rw [lead_cons_self]
        by_cases h2 : hist.take 2 = [c, c]
        · have h2' : lead c hist = 2 := (lead_eq_two c hist).mpr h2
          rw [if_pos h2, h2']
          simp
        · have h2' : lead c hist ≠ 2 := fun hh => h2 ((lead_eq_two c hist).mp hh)
          rw [if_neg h2]
          by_cases h0 : lead c hist = 0
          · rw [if_pos h0, h0]
            have : min (k + 1) (2 - 0) = min k (2 - 1) + 1 := by omega
            rw [this, List.replicate_succ]
            simp
          · rw [if_neg h0]
            have h1 : lead c hist = 1 := by omega
            rw [h1]
            have : min (k + 1) (2 - 1) = min k (2 - 2) + 1 := by omega
            rw [this, List.replicate_succ]
            simp
      · have e : runs (c :: s) = (c, 1) :: (d, k) :: rest := by simp [runs, hr, hcd]
        rw [e]
        simp only []
        rw [lead_cons_ne d c hist hcd, squeezeRuns_cons]
        by_cases h2 : hist.take 2 = [c, c]
        · have h2' : lead c hist = 2 := (lead_eq_two c hist).mpr h2
          rw [if_pos h2, h2']
          simp
        · have h2' : lead c hist ≠ 2 := fun hh => h2 ((lead_eq_two c hist).mp hh)
          have hm : min 1 (2 - lead c hist) = 1 := by omega
          rw [if_neg h2, hm]
          simp

theorem runs_expand : ∀ s : Bytes,
    (runs s).flatMap (fun r => List.replicate r.2 r.1) = s ∧
    (∀ r ∈ runs s, 1 ≤ r.2) ∧
    List.Chain' (fun a b : Nat × Nat => a.1 ≠ b.1) (runs s)
  | [] => by simp [runs]
  | c :: s => by
    obtain ⟨h1, h2, h3⟩ := runs_expand s
    have key : (runs (c :: s)).flatMap (fun r => List.replicate r.2 r.1) = c :: s ∧
        (∀ r ∈ runs (c :: s), 1 ≤ r.2) ∧
        List.Chain' (fun a b : Nat × Nat => a.1 ≠ b.1) (runs (c :: s)) := by
      rcases hr : runs s with _ | ⟨⟨d, k⟩, rest⟩
      · rw [hr] at h1
        simp only [List.flatMap_nil] at h1
        subst h1
        simp [runs]
      · rw [hr] at h1 h2 h3
        by_cases hcd : c = d
        · subst hcd
          have e : runs (c :: s) = (c, k + 1) :: rest := by simp [runs, hr]
          rw [e]
          refine ⟨?_, ?_, ?_⟩
          · simp only [List.flatMap_cons] at h1 ⊢
            rw [List.replicate_succ, List.cons_append, h1]
          · intro r hr'
            rcases List.mem_cons.mp hr' with h | h
            · subst h; simp
            · exact h2 r (List.mem_cons_of_mem _ h)
          · rcases rest with _ | ⟨y, rest'⟩
            · simp
            · rw [List.chain'_cons] at h3 ⊢
              exact h3
        · have e : runs (c :: s) = (c, 1) :: (d, k) :: rest := by simp [runs, hr, hcd]
          rw [e]
          refine ⟨?_, ?_, ?_⟩
          · simp only [List.flatMap_cons] at h1 ⊢
            rw [h1]
            rfl
          · intro r hr'
            rcases List.mem_cons.mp hr' with h | h
            · subst h; simp
            · exact h2 r h
          · rw [List.chain'_cons]
            exact ⟨hcd, h3⟩
    exact key

theorem bytesToBits_append (a b : Bytes) :
    bytesToBits (a ++ b) = bytesToBits a ++ bytesToBits b := by
  simp [bytesToBits, List.flatMap_append]

theorem bytesToBits_getD : ∀ (data : Bytes) (k : Nat),
    (bytesToBits data).getD k 0 = bitAt data k
  | [], k => by simp [bytesToBits, bitAt]
  | b :: r, k => by
    have ih := bytesToBits_getD r (k - 8)
    have e : bytesToBits (b :: r)
        = (List.range 8).map (fun j => (b >>> (7 - j)) &&& 1) ++ bytesToBits r := by
      simp [bytesToBits]
    rw [e]
    by_cases hk : k < 8
    · have h0 : k / 8 = 0 := by omega
      have h1 : k % 8 = k := by omega
      rw [List.getD_eq_getElem?_getD, List.getElem?_append_left (by simpa using hk)]
      simp only [bitAt, h0, h1, List.getD_cons_zero]
      rw [List.getElem?_map, List.getElem?_range hk]
      simp [Nat.shiftRight_eq_div_pow]
    · have h0 : k / 8 = (k - 8) / 8 + 1 := by omega
      have h1 : k % 8 = (k - 8) % 8 := by omega
      rw [List.getD_eq_getElem?_getD, List.getElem?_append_right (by simpa using hk)]
      simp only [List.length_map, List.length_range]
      rw [← List.getD_eq_getElem?_getD, ih]
      simp only [bitAt, h0, h1, List.getD_cons_succ]

theorem take_drop_eq_map (l : Bytes) (a n : Nat) (h : a + n ≤ l.length) :
    (l.take (a + n)).drop a = (List.range n).map (fun j => l.getD (a + j) 0) := by
  apply List.ext_getElem?
  intro j
  by_cases hj : j < n
  · have : a + j < l.length := by omega
    rw [List.getElem?_drop, List.getElem?_take_of_lt (by omega), List.getElem?_map,
      List.getElem?_range hj]
    simp [List.getD_eq_getElem?_getD, List.getElem?_eq_getElem this]
  · have h1 : ((l.take (a + n)).drop a).length ≤ j := by simp; omega
    have h2 : ((List.range n).map (fun j => l.getD (a + j) 0)).length ≤ j := by simp; omega
    rw [List.getElem?_eq_none h1, List.getElem?_eq_none h2]

theorem shift_or_bit (v b : Nat) (hb : b ≤ 1) : v <<< 1 ||| b = 2 * v + b := by
  have h := Nat.mul_add_lt_is_or (show b < 2 ^ 1 by omega) v
  rw [Nat.shiftLeft_eq, Nat.mul_comm v (2 ^ 1), ← h]

theorem bitsToInt_eleven (f : Nat → Nat) (hf : ∀ j, f j ≤ 1) :
    bitsToInt ((List.range 11).map f)
      = ((List.range 11).map (fun j => f j * 2 ^ (10 - j))).sum := by
  have hr : List.range 11 = [0, 1, 2, 3, 4, 5, 6, 7, 8, 9, 10] := by decide
  rw [hr]
  simp only [bitsToInt, List.map_cons, List.map_nil, List.foldl_cons, List.foldl_nil,
    List.sum_cons, List.sum_nil]
  rw [shift_or_bit _ _ (hf 0), shift_or_bit _ _ (hf 1), shift_or_bit _ _ (hf 2),
    shift_or_bit _ _ (hf 3), shift_or_bit _ _ (hf 4), shift_or_bit _ _ (hf 5),
    shift_or_bit _ _ (hf 6), shift_or_bit _ _ (hf 7), shift_or_bit _ _ (hf 8),
    shift_or_bit _ _ (hf 9), shift_or_bit _ _ (hf 10)]
  norm_num
  try omega

theorem bitAt_le_one (data : Bytes) (k : Nat) : bitAt data k ≤ 1 := by
  unfold bitAt
  omega

theorem groupIndex_eq (e : Bytes) (he : e.length = 32) (i : Nat) (hi : i < 24) :
    bitsToInt (((allBitsOf e).take (i * 11 + 11)).drop (i * 11)) = groupIndex e i := by
  have hl := allBitsOf_length e he
  rw [take_drop_eq_map _ _ _ (by omega)]
  have hb : allBitsOf e = bytesToBits (e ++ (sha256Sum e).take 1) := by
    rw [allBitsOf, bytesToBits_append]
  have hm : (List.range 11).map (fun j => (allBitsOf e).getD (i * 11 + j) 0)
      = (List.range 11).map (fun j => bitAt (e ++ (sha256Sum e).take 1) (11 * i + j)) := by
    apply List.map_congr_left
    intro j _
    rw [hb, bytesToBits_getD, Nat.mul_comm i 11]
  rw [hm, bitsToInt_eleven _ (fun j => bitAt_le_one _ _)]
  rfl

theorem groupIndex_lt (e : Bytes) (i : Nat) : groupIndex e i < 2048 := by
  have hr : List.range 11 = [0, 1, 2, 3, 4, 5, 6, 7, 8, 9, 10] := by decide
  unfold groupIndex
  rw [hr]
  simp only [List.map_cons, List.map_nil, List.sum_cons, List.sum_nil]
  have h := fun j => bitAt_le_one (e ++ (sha256Sum e).take 1) (11 * i + j)
  have h0 := h 0; rw [Nat.add_zero] at h0
  have h1 := h 1; have h2 := h 2; have h3 := h 3; have h4 := h 4
  have h5 := h 5; have h6 := h 6; have h7 := h 7; have h8 := h 8; have h9 := h 9
  have h10 := h 10
  norm_num
  omega

theorem sha256Sum_byte (m : Bytes) : ∀ b ∈ sha256Sum m, b < 256 := by
  intro b hb
  simp only [sha256Sum, wordBytes, List.mem_append, List.mem_cons, List.mem_singleton,
    List.not_mem_nil, or_false] at hb
  omega

theorem hmacSHA256_byte (key message : Bytes) : ∀ b ∈ hmacSHA256 key message, b < 256 :=
  sha256Sum_byte _

theorem hexDigit_inj (a b : Nat) (ha : a < 16) (hb : b < 16) (h : hexDigit a = hexDigit b) :
    a = b := by
  unfold hexDigit at h
  split_ifs at h <;> omega

theorem hexEncode_inj : ∀ (a b : Bytes), (∀ x ∈ a, x < 256) → (∀ x ∈ b, x < 256) →
    hexEncode a = hexEncode b → a = b
  | [], [], _, _, _ => rfl
  | [], y :: b, _, _, h => by simp [hexEncode] at h
  | x :: a, [], _, _, h => by simp [hexEncode] at h
  | x :: a, y :: b, ha, hb, h => by
    have e1 : hexEncode (x :: a) = hexDigit (x / 16 % 16) :: hexDigit (x % 16) :: hexEncode a := by
      simp [hexEncode]
    have e2 : hexEncode (y :: b) = hexDigit (y / 16 % 16) :: hexDigit (y % 16) :: hexEncode b := by
      simp [hexEncode]
    rw [e1, e2] at h
    injection h with h1 h
    injection h with h2 h3
    have hx := ha x (List.mem_cons_self _ _)
    have hy := hb y (List.mem_cons_self _ _)
    have d1 := hexDigit_inj _ _ (Nat.mod_lt _ (by decide)) (Nat.mod_lt _ (by decide)) h1
    have d2 := hexDigit_inj _ _ (Nat.mod_lt _ (by decide)) (Nat.mod_lt _ (by decide)) h2
    have hxy : x = y := by omega
    rw [hxy, hexEncode_inj a b (fun z hz => ha z (List.mem_cons_of_mem _ hz))
      (fun z hz => hb z (List.mem_cons_of_mem _ hz)) h3]

theorem getD_take_lt (l : Bytes) (m i : Nat) (h : i < m) : (l.take m).getD i 0 = l.getD i 0 := by
  rw [List.getD_eq_getElem?_getD, List.getD_eq_getElem?_getD, List.getElem?_take_of_lt h]

theorem groupIndex_congr (e1 e2 : Bytes) (h1 : e1.length = 32) (h2 : e2.length = 32)
    (n i : Nat) (hn : n ≤ 23) (hi : i < n)
    (heq : e1.take ((11 * n + 7) / 8) = e2.take ((11 * n + 7) / 8)) :
    groupIndex e1 i = groupIndex e2 i := by
  unfold groupIndex
  refine congrArg List.sum ?_
  apply List.map_congr_left
  intro j hj
  have hj : j < 11 := List.mem_range.mp hj
  have hk : (11 * i + j) / 8 < (11 * n + 7) / 8 := by omega
  have hk32 : (11 * i + j) / 8 < 32 := by omega
  have key : ∀ e : Bytes, e.length = 32 →
      (e ++ (sha256Sum e).take 1).getD ((11 * i + j) / 8) 0
        = (e.take ((11 * n + 7) / 8)).getD ((11 * i + j) / 8) 0 := by
    intro e he
    rw [getD_take_lt _ _ _ hk, List.getD_eq_getElem?_getD, List.getD_eq_getElem?_getD,
      List.getElem?_append_left (by omega)]
  simp only [bitAt]
  rw [key e1 h1, key e2 h2, heq]

theorem wordAt_eq (dict : List Bytes) (e : Bytes) (he : e.length = 32) (i : Nat) (hi : i < 24) :
    wordAt dict e i = dict.getD (groupIndex e i) [] := by
  rw [wordAt, groupIndex_eq e he i hi]

theorem words_take_eq (dict : List Bytes) (e1 e2 : Bytes) (h1 : e1.length = 32)
    (h2 : e2.length = 32) (n : Nat) (hn : n ≤ 23)
    (heq : e1.take ((11 * n + 7) / 8) = e2.take ((11 * n + 7) / 8)) :
    ((List.range 24).map (wordAt dict e1)).take n
      = ((List.range 24).map (wordAt dict e2)).take n := by
  rw [← List.map_take, ← List.map_take, List.take_range]
  apply List.map_congr_left
  intro i hi
  have hi : i < min n 24 := List.mem_range.mp hi
  rw [wordAt_eq dict e1 h1 i (by omega), wordAt_eq dict e2 h2 i (by omega),
    groupIndex_congr e1 e2 h1 h2 n i hn (by omega) heq]

theorem codas_length : ∀ c ∈ codas, c.length ≤ 1 := by decide

theorem pick_mem (e : Bytes) (off : Nat) (choices : List Bytes) (c : Bytes) (o : Nat)
    (h : pick e off choices = some (c, o)) : c ∈ choices ∧ o = off + 1 := by
  unfold pick at h
  split at h
  · cases h
  · split_ifs at h
    split at h
    · cases h
    · rename_i c1 hc
      simp only [Option.some.injEq, Prod.mk.injEq] at h
      exact ⟨h.1 ▸ List.getElem?_mem hc, h.2.symm⟩

theorem makeSyllable_form (e : Bytes) (off : Nat) (syl : Bytes) (o : Nat)
    (h : makeSyllable e off = some (syl, o)) :
    ∃ c v d, c ∈ consonants ∧ v ∈ vowels ∧ d ∈ codas ∧ syl = c ++ v ++ d ∧ o = off + 3 := by
  unfold makeSyllable at h
  rcases h1 : pick e off consonants with _ | ⟨c, o1⟩
  · simp [h1] at h
  · rcases h2 : pick e o1 vowels with _ | ⟨v, o2⟩
    · simp [h1, h2] at h
    · rcases h3 : pick e o2 codas with _ | ⟨d, o3⟩
      · simp [h1, h2, h3] at h
      · simp only [h1, h2, h3, Option.some.injEq, Prod.mk.injEq] at h
        obtain ⟨m1, q1⟩ := pick_mem _ _ _ _ _ h1
        obtain ⟨m2, q2⟩ := pick_mem _ _ _ _ _ h2
        obtain ⟨m3, q3⟩ := pick_mem _ _ _ _ _ h3
        exact ⟨c, v, d, m1, m2, m3, h.1.symm, by omega⟩

theorem makeSyllable_bounds (e : Bytes) (h : e.length = 32) (off : Nat) :
    ∃ syl, makeSyllable e off = some (syl, off + 3) ∧ 2 ≤ syl.length ∧ syl.length ≤ 3 := by
  obtain ⟨syl, hs, hl⟩ := makeSyllable_some e h off
  obtain ⟨c, v, d, hc, hv, hd, rfl, _⟩ := makeSyllable_form _ _ _ _ hs
  refine ⟨_, hs, hl, ?_⟩
  have := consonants_length c hc
  have := vowels_length v hv
  have := codas_length d hd
  simp only [List.length_append]
  omega

theorem insertSyllable_form (s e : Bytes) (i : Nat) (r : Bytes)
    (h : insertSyllable s e i = some r) :
    r = s ∨ ∃ k syl o, 1 ≤ k ∧ k ≤ s.length ∧ makeSyllable e (25 + i) = some (syl, o) ∧
      r = s.take k ++ syl ++ s.drop k := by
  unfold insertSyllable at h
  simp only [] at h
  split at h
  · left
    simp only [Option.some.injEq] at h
    exact h.symm
  · rename_i insertAt hfind
    right
    obtain ⟨b, hbm, hb⟩ := List.exists_of_findSome?_eq_some hfind
    have hb2 : 1 ≤ b.length / 2 := by
      have : ∀ w ∈ blockedWords, 1 ≤ w.length / 2 := by decide
      exact this b hbm
    rcases hidx : stringsIndex (toLower s) b with _ | idx
    · simp [hidx] at hb
    · have hle := stringsIndex_le _ _ _ hidx
      rw [toLower_length] at hle
      simp [hidx] at hb
      have hat : insertAt ≤ s.length := by
        have : b.length / 2 ≤ b.length := Nat.div_le_self _ _
        omega
      have h1 : sliceTo s (insertAt : Int) = some (s.take insertAt) := by
        simp [sliceTo, hat]
      have h2 : sliceFrom s (insertAt : Int) = some (s.drop insertAt) := by
        simp [sliceFrom, hat]
      rcases hm : makeSyllable e (25 + i) with _ | ⟨syl, o⟩
      · simp [hm] at h
      · simp only [hm, h1, h2, Option.some.injEq] at h
        exact ⟨insertAt, syl, o, by omega, hat, rfl, h.symm⟩

theorem insertSyllable_bounds (e : Bytes) (h : e.length = 32) (s : Bytes) (i : Nat) :
    ∃ r, insertSyllable s e i = some r ∧ s.length ≤ r.length ∧ r.length ≤ s.length + 3 := by
  obtain ⟨r, hr, hl⟩ := insertSyllable_some e h s i
  refine ⟨r, hr, hl, ?_⟩
  rcases insertSyllable_form _ _ _ _ hr with rfl | ⟨k, syl, o, _, hk, hm, rfl⟩
  · omega
  · obtain ⟨syl1, hs1, _, h3⟩ := makeSyllable_bounds e h (25 + i)
    rw [hm] at hs1
    simp only [Option.some.injEq, Prod.mk.injEq] at hs1
    rw [← hs1.1] at h3
    simp only [List.length_append, List.length_take, List.length_drop]
    omega

theorem removeBlockedLoop_bounds (e : Bytes) (h : e.length = 32) :
    ∀ (n i : Nat) (s : Bytes),
      ∃ r, removeBlockedLoop e n i s = some r ∧ s.length ≤ r.length ∧ r.length ≤ s.length + 3 * n
  | 0, i, s => ⟨s, rfl, le_refl _, by omega⟩
  | n + 1, i, s => by
    by_cases hc : containsBlockedWord s = true
    · obtain ⟨s1, hs1, hl1, hu1⟩ := insertSyllable_bounds e h s i
      obtain ⟨r, hr, hlr, hur⟩ := removeBlockedLoop_bounds e h n (i + 1) s1
      exact ⟨r, by simp [removeBlockedLoop, hc, hs1, hr], by omega, by omega⟩
    · exact ⟨s, by simp [removeBlockedLoop, hc], le_refl _, by omega⟩

theorem truncateToMaxLength_total (s : Bytes) :
    ∃ r, truncateToMaxLength s 10 18 = some r ∧ r <+: s := by
  by_cases h : s.length ≤ 18
  · exact ⟨s, by simp [truncateToMaxLength, h], List.prefix_refl _⟩
  · obtain ⟨k, _, _, hk, _⟩ := truncateLoop_spec s (by omega) 9 18 rfl (le_refl _)
      (fun j hj1 hj2 => by omega)
    exact ⟨s.take k, by simp [truncateToMaxLength, h, hk], List.take_prefix _ _⟩

theorem isLowerWord_alnum (s : Bytes) (h : isLowerWord s) : isAlnum s :=
  fun c hc => Or.inl (h.2 c hc)

theorem isAlnum_append (s t : Bytes) (hs : isAlnum s) (ht : isAlnum t) : isAlnum (s ++ t) := by
  intro c hc
  rcases List.mem_append.mp hc with h | h
  · exact hs c h
  · exact ht c h

theorem isAlnum_count (s : Bytes) (h : isAlnum s) : s.count 45 = 0 := by
  rw [List.count_eq_zero]
  intro hm
  rcases h 45 hm with h1 | h1
  · unfold isLower at h1; omega
  · unfold isDecimal at h1; omega

theorem isAlnum_chars (s : Bytes) (h : isAlnum s) : ∀ c ∈ s, isLower c ∨ isDecimal c ∨ c = 45 := by
  intro c hc
  rcases h c hc with h1 | h1
  · exact Or.inl h1
  · exact Or.inr (Or.inl h1)

theorem words_lower :
    (∀ p ∈ prefixes, isLowerWord p) ∧ (∀ p ∈ suffixes, isLowerWord p) ∧
    (∀ c ∈ consonants, isLowerWord c) ∧ (∀ c ∈ vowels, isLowerWord c) ∧
    (∀ c ∈ codas, isAlnum c) ∧ (∀ c ∈ numbers, isAlnum c) := by
  decide

theorem techWords_lower : ∀ w ∈ techWords, isLowerWord w ∧ isLowerWord (shortenWord w) := by
  decide!

theorem makeSyllable_lower (e : Bytes) (off : Nat) (syl : Bytes) (o : Nat)
    (h : makeSyllable e off = some (syl, o)) : isLowerWord syl := by
  obtain ⟨c, v, d, hc, hv, hd, rfl, _⟩ := makeSyllable_form _ _ _ _ h
  have h1 := words_lower.2.2.1 c hc
  have h2 := words_lower.2.2.2.1 v hv
  have h3 := words_lower.2.2.2.2.1 d hd
  refine ⟨by simp [h1.1], ?_⟩
  intro x hx
  simp only [List.mem_append] at hx
  rcases hx with (hx | hx) | hx
  · exact h1.2 x hx
  · exact h2.2 x hx
  · rcases h3 x hx with h4 | h4
    · exact h4
    · exfalso
      have : ∀ c ∈ codas, ∀ x ∈ c, ¬ isDecimal x := by decide
      exact this d hd x hx h4

theorem slugPrefix_form (e : Bytes) (p : Bytes) (o : Nat) (h : slugPrefix e = some (p, o)) :
    p = [] ∨ isLowerWord p := by
  unfold slugPrefix at h
  split at h
  · cases h
  · split_ifs at h
    · exact Or.inr (words_lower.1 p (pick_mem _ _ _ _ _ h).1)
    · simp only [Option.some.injEq, Prod.mk.injEq] at h
      exact Or.inl h.1.symm

theorem slugFirstWord_form (e : Bytes) (off : Nat) (w : Bytes) (o : Nat)
    (h : slugFirstWord e off = some (w, o)) : isLowerWord w := by
  unfold slugFirstWord at h
  rcases h1 : pick e off techWords with _ | ⟨w0, o1⟩
  · simp [h1] at h
  · have hm := techWords_lower w0 (pick_mem _ _ _ _ _ h1).1
    simp only [h1] at h
    split at h
    · cases h
    · simp only [Option.some.injEq, Prod.mk.injEq] at h
      rw [← h.1]
      split_ifs
      · exact hm.2
      · exact hm.1

theorem pickSecondWord_form (e word1 : Bytes) :
    ∀ (n : Nat) (w0 : Bytes) (off : Nat) (w : Bytes) (o : Nat),
      pickSecondWord e word1 n w0 off = some (w, o) → w = w0 ∨ w ∈ techWords
  | 0, w0, off, w, o, h => by
    simp only [pickSecondWord, Option.some.injEq, Prod.mk.injEq] at h
    exact Or.inl h.1.symm
  | n + 1, w0, off, w, o, h => by
    unfold pickSecondWord at h
    rcases h1 : pick e off techWords with _ | ⟨w1, o1⟩
    · simp [h1] at h
    · have hm := (pick_mem _ _ _ _ _ h1).1
      simp only [h1] at h
      split_ifs at h
      · simp only [Option.some.injEq, Prod.mk.injEq] at h
        exact Or.inr (h.1 ▸ hm)
      · rcases pickSecondWord_form e word1 n w1 o1 w o h with h2 | h2
        · exact Or.inr (h2 ▸ hm)
        · exact Or.inr h2

theorem pickSecondWord_mem (e word1 : Bytes) (n : Nat) (w0 : Bytes) (off : Nat) (w : Bytes)
    (o : Nat) (h : pickSecondWord e word1 (n + 1) w0 off = some (w, o)) : w ∈ techWords := by
  unfold pickSecondWord at h
  rcases h1 : pick e off techWords with _ | ⟨w1, o1⟩
  · simp [h1] at h
  · have hm := (pick_mem _ _ _ _ _ h1).1
    simp only [h1] at h
    split_ifs at h
    · simp only [Option.some.injEq, Prod.mk.injEq] at h
      exact h.1 ▸ hm
    · rcases pickSecondWord_form e word1 n w1 o1 w o h with h2 | h2
      · exact h2 ▸ hm
      · exact h2

theorem slugSecondWord_form (e word1 : Bytes) (off : Nat) (w : Bytes) (o : Nat)
    (h : slugSecondWord e word1 off = some (w, o)) : isLowerWord w := by
  unfold slugSecondWord at h
  rcases h1 : pickSecondWord e word1 5 [] off with _ | ⟨w0, o1⟩
  · simp [h1] at h
  · have hm := techWords_lower w0 (pickSecondWord_mem _ _ _ _ _ _ _ h1)
    simp only [h1] at h
    split at h
    · cases h
    · simp only [Option.some.injEq, Prod.mk.injEq] at h
      rw [← h.1]
      split_ifs
      · exact hm.2
      · exact hm.1

theorem slugMid_form (e : Bytes) (off : Nat) (m : Bytes) (o : Nat)
    (h : slugMid e off = some (m, o)) : isAlnum m ∨ m = str "-" := by
  unfold slugMid at h
  split at h
  · cases h
  · split_ifs at h
    · exact Or.inl (isLowerWord_alnum _ (makeSyllable_lower _ _ _ _ h))
    · simp only [Option.some.injEq, Prod.mk.injEq] at h
      exact Or.inr h.1.symm
    · simp only [Option.some.injEq, Prod.mk.injEq] at h
      left
      rw [← h.1]
      intro c hc
      cases hc

theorem slugEnding_form (e : Bytes) (off : Nat) (en : Bytes) (h : slugEnding e off = some en) :
    isAlnum en := by
  unfold slugEnding at h
  split at h
  · cases h
  · split_ifs at h
    · rcases h1 : makeSyllable e (off + 1) with _ | ⟨syl, o⟩
      · simp [h1] at h
      · simp only [h1, Option.map_some', Option.some.injEq] at h
        exact h ▸ isLowerWord_alnum _ (makeSyllable_lower _ _ _ _ h1)
    · rcases h1 : pick e (off + 1) numbers with _ | ⟨c, o⟩
      · simp [h1] at h
      · simp only [h1, Option.map_some', Option.some.injEq] at h
        exact h ▸ words_lower.2.2.2.2.2 c (pick_mem _ _ _ _ _ h1).1
    · rcases h1 : makeSyllable e (off + 1) with _ | ⟨syl, o⟩
      · simp [h1] at h
      · rcases h2 : makeSyllable e o with _ | ⟨syl2, o2⟩
        · simp [h1, h2] at h
        · simp only [h1, h2, Option.map_some', Option.some.injEq] at h
          exact h ▸ isAlnum_append _ _ (isLowerWord_alnum _ (makeSyllable_lower _ _ _ _ h1))
            (isLowerWord_alnum _ (makeSyllable_lower _ _ _ _ h2))
    · rcases h1 : pick e (off + 1) suffixes with _ | ⟨c, o⟩
      · simp [h1] at h
      · simp only [h1, Option.map_some', Option.some.injEq] at h
        exact h ▸ isLowerWord_alnum _ (words_lower.2.1 c (pick_mem _ _ _ _ _ h1).1)

theorem shape_append (s t : Bytes) (hs : SlugShape s) (ht : isAlnum t) : SlugShape (s ++ t) := by
  obtain ⟨h1, h2, c, h3, h4⟩ := hs
  refine ⟨?_, ?_, c, ?_, h4⟩
  · intro x hx
    rcases List.mem_append.mp hx with h | h
    · exact h1 x h
    · exact isAlnum_chars t ht x h
  · rw [List.count_append, isAlnum_count t ht]
    omega
  · rcases s with _ | ⟨a, s⟩
    · simp at h3
    · simpa using h3

theorem shape_take (s : Bytes) (k : Nat) (hs : SlugShape s) (hk : 1 ≤ k) :
    SlugShape (s.take k) := by
  obtain ⟨h1, h2, c, h3, h4⟩ := hs
  refine ⟨fun x hx => h1 x (List.mem_of_mem_take hx), ?_, c, ?_, h4⟩
  · exact le_trans (List.Sublist.count_le (List.take_sublist k s) 45) h2
  · rcases s with _ | ⟨a, s⟩
    · simp at h3
    · obtain ⟨k1, rfl⟩ : ∃ k1, k = k1 + 1 := ⟨k - 1, by omega⟩
      simpa using h3

theorem shape_insert (s t : Bytes) (k : Nat) (hs : SlugShape s) (ht : isAlnum t) (hk : 1 ≤ k) :
    SlugShape (s.take k ++ t ++ s.drop k) := by
  obtain ⟨h1, h2, c, h3, h4⟩ := hs
  refine ⟨?_, ?_, c, ?_, h4⟩
  · intro x hx
    simp only [List.mem_append] at hx
    rcases hx with (h | h) | h
    · exact h1 x (List.mem_of_mem_take h)
    · exact isAlnum_chars t ht x h
    · exact h1 x (List.mem_of_mem_drop h)
  · have : (s.take k).count 45 + (s.drop k).count 45 = s.count 45 := by
      rw [← List.count_append, List.take_append_drop]
    rw [List.count_append, List.count_append, isAlnum_count t ht]
    omega
  · rcases s with _ | ⟨a, s⟩
    · simp at h3
    · obtain ⟨k1, rfl⟩ : ∃ k1, k = k1 + 1 := ⟨k - 1, by omega⟩
      simpa using h3

theorem removeTripleLetters_sublist (s : Bytes) : List.Sublist (removeTripleLetters s) s := by
  unfold removeTripleLetters
  have h := List.Sublist.map Prod.snd (List.filter_sublist (p := fun ic : Nat × Nat =>
    decide (ic.1 < 2) || !(ic.2 == s.getD (ic.1 - 1) 0 && ic.2 == s.getD (ic.1 - 2) 0)) s.enum)
  rwa [List.enum_map_snd] at h

theorem shape_detriple (s : Bytes) (hs : SlugShape s) : SlugShape (removeTripleLetters s) := by
  obtain ⟨h1, h2, c, h3, h4⟩ := hs
  have hsub := removeTripleLetters_sublist s
  refine ⟨fun x hx => h1 x (hsub.subset hx), le_trans (hsub.count_le 45) h2, c, ?_, h4⟩
  rcases s with _ | ⟨a, s⟩
  · simp at h3
  · rw [removeTripleLetters_eq]
    simpa [dropTriples] using h3

theorem buildGrammar_shape (e s : Bytes) (h : buildGrammar e = some s) : SlugShape s := by
  unfold buildGrammar at h
  rcases hp : slugPrefix e with _ | ⟨p, o1⟩
  · simp [hp] at h
  rcases hw1 : slugFirstWord e o1 with _ | ⟨w1, o2⟩
  · simp [hp, hw1] at h
  rcases hm : slugMid e o2 with _ | ⟨m, o3⟩
  · simp [hp, hw1, hm] at h
  rcases hw2 : slugSecondWord e w1 o3 with _ | ⟨w2, o4⟩
  · simp [hp, hw1, hm, hw2] at h
  rcases hen : slugEnding e o4 with _ | en
  · simp [hp, hw1, hm, hw2, hen] at h
  simp only [hp, hw1, hm, hw2, hen, Option.some.injEq] at h
  subst h
  have f1 := slugFirstWord_form _ _ _ _ hw1
  have f2 := slugSecondWord_form _ _ _ _ _ hw2
  have f3 := slugEnding_form _ _ _ hen
  have base : SlugShape (p ++ w1) := by
    rcases slugPrefix_form _ _ _ hp with rfl | hpp
    · obtain ⟨hne, hl⟩ := f1
      rcases w1 with _ | ⟨a, w1⟩
      · exact absurd rfl hne
      · refine ⟨fun x hx => Or.inl (hl x hx), ?_, a, rfl, hl a (List.mem_cons_self _ _)⟩
        rw [List.nil_append, isAlnum_count _ (isLowerWord_alnum _ ⟨hne, hl⟩)]
        omega
    · obtain ⟨hne, hl⟩ := hpp
      rcases p with _ | ⟨a, p⟩
      · exact absurd rfl hne
      · have hal : isAlnum ((a :: p) ++ w1) :=
          isAlnum_append _ _ (isLowerWord_alnum _ ⟨hne, hl⟩) (isLowerWord_alnum _ f1)
        refine ⟨isAlnum_chars _ hal, ?_, a, rfl, hl a (List.mem_cons_self _ _)⟩
        rw [isAlnum_count _ hal]
        omega
  have mid : SlugShape (p ++ w1 ++ m) := by
    rcases slugMid_form _ _ _ _ hm with hmm | rfl
    · exact shape_append _ _ base hmm
    · obtain ⟨h1, h2, c, h3, h4⟩ := base
      have hal : isAlnum (p ++ w1) := by
        rcases slugPrefix_form _ _ _ hp with rfl | hpp
        · exact isLowerWord_alnum _ f1
        · exact isAlnum_append _ _ (isLowerWord_alnum _ hpp) (isLowerWord_alnum _ f1)
      refine ⟨?_, ?_, c, ?_, h4⟩
      · intro x hx
        rcases List.mem_append.mp hx with hx | hx
        · exact h1 x hx
        · simp only [str] at hx
          have : x = 45 := by simpa using hx
          exact Or.inr (Or.inr this)
      · rw [List.count_append, isAlnum_count _ hal]
        decide
      · rcases hpw : p ++ w1 with _ | ⟨a, r⟩
        · rw [hpw] at h3; simp at h3
        · rw [hpw] at h3; simpa using h3
  exact shape_append _ _ (shape_append _ _ mid (isLowerWord_alnum _ f2)) f3

theorem padLoop_shape (e : Bytes) (minLen : Nat) :
    ∀ (fuel : Nat) (s : Bytes) (off : Nat) (r : Bytes),
      padLoop e minLen fuel s off = some r → SlugShape s → SlugShape r
  | 0, s, off, r, h, _ => by simp [padLoop] at h
  | fuel + 1, s, off, r, h, hs => by
    unfold padLoop at h
    split_ifs at h
    · rcases h1 : makeSyllable e off with _ | ⟨syl, o⟩
      · simp [h1] at h
      · simp only [h1] at h
        exact padLoop_shape e minLen fuel _ _ r h
          (shape_append _ _ hs (isLowerWord_alnum _ (makeSyllable_lower _ _ _ _ h1)))
    · simp only [Option.some.injEq] at h
      exact h ▸ hs

theorem removeBlockedLoop_shape (e : Bytes) :
    ∀ (n i : Nat) (s r : Bytes), removeBlockedLoop e n i s = some r → SlugShape s → SlugShape r
  | 0, i, s, r, h, hs => by
    simp only [removeBlockedLoop, Option.some.injEq] at h
    exact h ▸ hs
  | n + 1, i, s, r, h, hs => by
    unfold removeBlockedLoop at h
    split_ifs at h
    · rcases h1 : insertSyllable s e i with _ | s1
      · simp [h1] at h
      · simp only [h1] at h
        apply removeBlockedLoop_shape e n (i + 1) s1 r h
        rcases insertSyllable_form _ _ _ _ h1 with rfl | ⟨k, syl, o, hk, _, hm, rfl⟩
        · exact hs
        · exact shape_insert _ _ _ hs (isLowerWord_alnum _ (makeSyllable_lower _ _ _ _ hm)) hk
    · simp only [Option.some.injEq] at h
      exact h ▸ hs

theorem truncateToMaxLength_shape (s r : Bytes) (h : truncateToMaxLength s 10 18 = some r)
    (hs : SlugShape s) : SlugShape r := by
  by_cases hl : s.length ≤ 18
  · simp only [truncateToMaxLength, hl, if_true, Option.some.injEq] at h
    exact h ▸ hs
  · obtain ⟨k, hk1, _, hk, _⟩ := truncateLoop_spec s (by omega) 9 18 rfl (le_refl _)
      (fun j hj1 hj2 => by omega)
    simp only [truncateToMaxLength, hl, if_false] at h
    rw [show 18 + 1 - 10 = 9 from rfl, hk] at h
    simp only [Option.some.injEq] at h
    exact h ▸ shape_take s k hs (by omega)

theorem buildObfuscatedSlug_shape (e s : Bytes) (h : buildObfuscatedSlug e = some s) :
    SlugShape s := by
  unfold buildObfuscatedSlug at h
  rcases h0 : buildGrammar e with _ | s0
  · simp [h0] at h
  rcases h1 : padToMinLength s0 10 e with _ | s1
  · simp [h0, h1] at h
  rcases h2 : removeBlockedWords s1 e with _ | s2
  · simp [h0, h1, h2] at h
  rcases h3 : truncateToMaxLength s2 10 18 with _ | s3
  · simp [h0, h1, h2, h3] at h
  simp only [h0, h1, h2, h3, Option.some.injEq] at h
  subst h
  exact shape_detriple _ (truncateToMaxLength_shape _ _ h3
    (removeBlockedLoop_shape e 10 0 _ _ h2 (padLoop_shape e 10 11 _ 20 _ h1
      (buildGrammar_shape _ _ h0))))

/-! ## Claims -/

/-- C1: in BIP39 mode `derive` panics for every requested length of 24 or
more: the word count is capped at 24, the hash length is then
`(24*11+7)/8 = 33`, and `entropy[:33]` is out of range for the 32-byte
entropy. So the claimed value and hash are not returned for `n = 24`. -/
theorem derive_bip39_24_panics (dict : List Bytes) (seed period : Bytes) (k : Nat) :
    derive dict seed period (24 + (k : Int)) (str "bip39") = none := by
  have hm : equalFold (str "bip39") (str "obfuscated") = false := by decide
  unfold derive
  rw [if_neg (by simp [hm])]
  have hmin : min (24 + (k : Int)) 24 = 24 := by omega
  have hl : Int.tdiv (wrapInt64 (wrapInt64 (24 * 11) + 7)) 8 = 33 := by decide
  have hs : sliceTo (hmacSHA256 seed (seed ++ str ":" ++ period)) 33 = none := by
    simp [sliceTo, hmacSHA256_length]
  simp only [hmin, hl, hs]
  cases entropyToBIP39Words dict (hmacSHA256 seed (seed ++ str ":" ++ period)) with
  | none => rfl
  | some words =>
    dsimp only
    cases sliceTo words 24 <;> rfl

/-- C2, as stated, fails for length 16: the reference vector has the
8-byte hash "5d3bf0d55db67ea2", while `min(ceil((16+1)/2), 16) = 9` bytes
would give 18 hex characters. -/
theorem derive_obfuscated_hash_not_ceil :
    derive [] (str "seedphrase") (str "2026-02-03") 16 (str "obfuscated")
        = some (str "trybeambold8", str "5d3bf0d55db67ea2") ∧
      str "5d3bf0d55db67ea2" ≠
        hexEncode ((hmacSHA256 (str "seedphrase") (str "seedphrase:skid:2026-02-03")).take
          (min ((16 + 1 + 1) / 2) 16)) :=
  ⟨by decide!, by decide!⟩

/-- C2, amended: for every seed, period and requested length from 0 to
`2^63 - 2`, `derive` in obfuscated mode returns as hash the hex encoding of
the first `min(floor((length+1)/2), 16)` bytes of
HMAC-SHA256(seed, seed+":skid:"+period), which has twice that many
characters. -/
theorem derive_obfuscated_hash (dict : List Bytes) (seed period : Bytes) (length : Int)
    (h1 : 0 ≤ length) (h2 : length ≤ 2 ^ 63 - 2) :
    ∃ slug, derive dict seed period length (str "obfuscated") = some (slug,
        hexEncode ((hmacSHA256 seed (seed ++ str ":skid:" ++ period)).take
          (min ((length + 1) / 2) 16).toNat)) ∧
      (hexEncode ((hmacSHA256 seed (seed ++ str ":skid:" ++ period)).take
          (min ((length + 1) / 2) 16).toNat)).length = 2 * (min ((length + 1) / 2) 16).toNat := by
  obtain ⟨slug, _, h⟩ := derive_obfuscated_eq dict seed period length (str "obfuscated")
    (by decide) (by omega) h2
  have ht : Int.tdiv (length + 1) 2 = (length + 1) / 2 :=
    Int.tdiv_eq_ediv (by omega) (by decide)
  rw [ht] at h
  refine ⟨slug, h, ?_⟩
  rw [hexEncode_length, List.length_take, hmacSHA256_length]
  omega

theorem derive_obfuscated_hash_witness :
    ∃ slug, derive [] (str "seedphrase") (str "2026-02-03") 16 (str "obfuscated") = some (slug,
        hexEncode ((hmacSHA256 (str "seedphrase")
          (str "seedphrase" ++ str ":skid:" ++ str "2026-02-03")).take
          (min (((16 : Int) + 1) / 2) 16).toNat)) ∧
      (hexEncode ((hmacSHA256 (str "seedphrase")
          (str "seedphrase" ++ str ":skid:" ++ str "2026-02-03")).take
          (min (((16 : Int) + 1) / 2) 16).toNat)).length
        = 2 * (min (((16 : Int) + 1) / 2) 16).toNat :=
  derive_obfuscated_hash [] (str "seedphrase") (str "2026-02-03") 16 (by decide) (by decide)

/-- C3: the slug of seed "seedphrase" and period "2024-10-18" has 9
characters. The grammar gives "pulllinkti" (10 characters, so no padding),
and de-tripling, which runs after padding and truncation, drops one "l". -/
theorem buildObfuscatedSlug_short :
    buildObfuscatedSlug (hmacSHA256 (str "seedphrase") (str "seedphrase:2024-10-18"))
        = some (str "pullinkti") ∧
      (str "pullinkti").length = 9 ∧
      derive [] (str "seedphrase") (str "2024-10-18") 16 (str "obfuscated")
        = some (str "pullinkti", str "84d70ca53f3e7446") :=
  ⟨by decide!, by decide, by decide!⟩

/-- C4: for the 32-byte entropy below the slug is "datasigmanalabaga", which
contains the blocked word "anal": the ten attempts of `removeBlockedWords`
are used up while a blocked word is still present. -/
theorem buildObfuscatedSlug_blocked :
    buildObfuscatedSlug
        [0x36, 0x01, 0x48, 0xa0, 0x14, 0x44, 0x1e, 0xec, 0x5c, 0x27, 0x89, 0xd1, 0x2a, 0x63,
         0x00, 0xeb, 0x1e, 0x78, 0x18, 0xd1, 0xab, 0x1f, 0xb8, 0xa6, 0xe7, 0x74, 0xcb, 0x51,
         0x00, 0x9a, 0x0a, 0x49]
        = some (str "datasigmanalabaga") ∧
      containsBlockedWord (str "datasigmanalabaga") = true := by
  decide!

/-- C5: for every ASCII string `s`, `removeTripleLetters s` has no three
consecutive identical characters; so for every 32-byte entropy
`buildObfuscatedSlug` returns a slug with no index `j ≥ 2` such that
`slug[j] = slug[j-1] = slug[j-2]`. -/
theorem removeTripleLetters_no_triple :
    (∀ s : Bytes, isASCII s → NoTriple (removeTripleLetters s)) ∧
    (∀ e : Bytes, e.length = 32 → ∃ slug, buildObfuscatedSlug e = some slug ∧
      ∀ j, 2 ≤ j → j < slug.length →
        ¬ (slug.getD j 0 = slug.getD (j - 1) 0 ∧ slug.getD j 0 = slug.getD (j - 2) 0)) := by
  refine ⟨fun s _ => removeTripleLetters_noTriple s, fun e he => ?_⟩
  obtain ⟨r, hr, _, _⟩ := buildObfuscatedSlug_some e he
  exact ⟨_, hr, removeTripleLetters_noTriple r⟩

theorem removeTripleLetters_no_triple_witness :
    NoTriple (removeTripleLetters (str "pulllinkti")) ∧
    ∃ slug, buildObfuscatedSlug (hmacSHA256 (str "seedphrase") (str "seedphrase:2024-10-18"))
        = some slug ∧
      ∀ j, 2 ≤ j → j < slug.length →
        ¬ (slug.getD j 0 = slug.getD (j - 1) 0 ∧ slug.getD j 0 = slug.getD (j - 2) 0) :=
  ⟨removeTripleLetters_no_triple.1 (str "pulllinkti") (by decide),
   removeTripleLetters_no_triple.2 _ (hmacSHA256_length _ _)⟩

/-- C6, as stated, fails for a window of 30502 weeks: the product
`time.Duration(start) * duration` for `start = -15251` overflows 64 bits, so
the first period is labelled in year 2318 while the second, one index later,
is in 1733; the label one step before the second would be "1733-W20". The
process is in UTC; the anchor has no offset, so it is parsed in UTC in every
zone. -/
theorem Generate_week_window_overflow :
    ∃ slugs, Generate utcZone [] (str "seedphrase") (str "2026-02-03") 16 30502 (str "week")
        (str "obfuscated") = .ok slugs ∧
      slugs.length = 30502 ∧
      (slugs.map Slug.Period).take 2 = [str "2318-W10", str "1733-W27"] ∧
      timeFormat utcZone (str "2006-W02")
        ((⟨1770076800000000000, .fixed 0⟩ : Time).Add ((0 - 30502 / 2) * 604800000000000))
        = str "1733-W20" := by
  have h := Generate_eq utcZone [] (str "seedphrase") (str "2026-02-03") 16 30502 (str "week")
    (str "obfuscated") _ _ _ (parseTime_example utcZone) parseInterval_week (by decide)
    (by decide) validLength_obfuscated_16
  refine ⟨_, h, by simp, ?_, by decide!⟩
  rw [List.map_map, ← List.map_take, List.take_range]
  decide!

/-- C6, amended: in a process with any zone rules for `time.Local`, for a
length valid for the mode, a parseable anchor, a recognised interval of step
`d` and a window `W ≥ 1` with `floor(W/2) * d < 2^63` nanoseconds (every
`W ≤ 30500`), `Generate` returns exactly `W` slugs; slug `i` is labelled with
the instant `anchor + (i - floor(W/2)) * d`, formatted in the anchor's
location, so consecutive slugs are one step apart and the anchor's own label
is at index `floor(W/2)`, and its value and hash are `derive` of its
period. -/
theorem Generate_window (localZone : Int → Int) (dict : List Bytes) (seed anchor : Bytes)
    (length W : Int) (interval mode : Bytes) (t : Time) (d : Int) (fmt : Bytes)
    (hp : parseTime localZone anchor = .ok t) (hi : parseInterval interval = .ok (d, fmt))
    (hv : validLength dict length mode) (hW : 1 ≤ W) (hb : W / 2 * d < 2 ^ 63) :
    ∃ slugs, Generate localZone dict seed anchor length W interval mode = .ok slugs ∧
      slugs.length = W.toNat ∧
      (∀ (i : Nat) (s : Slug), slugs[i]? = some s →
        s.Period = timeFormat localZone fmt (t.Add (((i : Int) - W / 2) * d)) ∧
        derive dict seed s.Period length mode = some (s.Value, s.Hash)) ∧
      (∀ (i : Nat) (s s1 : Slug), slugs[i]? = some s → slugs[i + 1]? = some s1 →
        ∃ u : Time, s.Period = timeFormat localZone fmt u ∧
          s1.Period = timeFormat localZone fmt (u.Add d)) ∧
      (∃ s, slugs[(W / 2).toNat]? = some s ∧ s.Period = timeFormat localZone fmt t) := by
  obtain ⟨hd0, hd1⟩ := parseInterval_pos interval d fmt hi
  have hW3 : W ≤ 5864062014805 := by
    by_contra hc
    have h1 : (2932031007402 : Int) ≤ W / 2 := by omega
    have h2 : (2932031007402 : Int) * 1000000000 ≤ W / 2 * d :=
      Int.mul_le_mul h1 hd0 (by decide) (by omega)
    omega
  have hW2 : W < 2 ^ 63 := by omega
  have hG := Generate_eq localZone dict seed anchor length W interval mode t d fmt hp hi
    (by omega) hW3 hv
  have key : ∀ (i : Nat) (s : Slug), ((List.range W.toNat).map
      (slugAt localZone dict seed length mode t d fmt
        (Int.tdiv (wrapInt64 (-W)) 2)))[i]? = some s →
      s.Period = timeFormat localZone fmt (t.Add (((i : Int) - W / 2) * d)) ∧
      derive dict seed s.Period length mode = some (s.Value, s.Hash) := by
    intro i s hs
    obtain ⟨hlt, rfl⟩ := getElem?_range_map _ _ _ _ hs
    have hiW : (i : Int) < W := by omega
    refine ⟨?_, slugAt_derive localZone dict seed length mode t d fmt _ i hv⟩
    have hr := mul_step_range (-(W / 2) + (i : Int)) (W / 2) d (by omega) (by omega)
      (by omega) hb
    show periodLabel localZone t d fmt (Int.tdiv (wrapInt64 (-W)) 2) i = _
    rw [periodLabel_eq localZone t d fmt W i (by omega) hW2 hiW, wrapInt64_eq _ hr.1 hr.2]
    congr 3
    ring
  refine ⟨_, hG, by simp, key, ?_, ?_⟩
  · intro i s s1 hs hs1
    refine ⟨t.Add (((i : Int) - W / 2) * d), (key i s hs).1, ?_⟩
    rw [(key (i + 1) s1 hs1).1]
    congr 1
    simp only [Time.Add, Time.mk.injEq, and_true]
    push_cast
    ring
  · have hlt : (W / 2).toNat < W.toNat := by omega
    have hget : ((List.range W.toNat).map
        (slugAt localZone dict seed length mode t d fmt
          (Int.tdiv (wrapInt64 (-W)) 2)))[(W / 2).toNat]?
        = some (slugAt localZone dict seed length mode t d fmt (Int.tdiv (wrapInt64 (-W)) 2)
            (W / 2).toNat) := by
      rw [List.getElem?_map, List.getElem?_eq_getElem (by simpa using hlt), List.getElem_range]
      rfl
    refine ⟨_, hget, ?_⟩
    rw [(key _ _ hget).1]
    have : (((W / 2).toNat : Int) - W / 2) * d = 0 := by
      rw [Int.toNat_of_nonneg (by omega)]
      simp
    rw [this, Time.Add_zero]

theorem Generate_window_witness :
    ∃ slugs, Generate berlinZone [] (str "seedphrase") (str "2026-03-28T23:30:00+01:00") 16 3
        (str "day") (str "obfuscated") = .ok slugs ∧
      slugs.length = (3 : Int).toNat ∧
      (∀ (i : Nat) (s : Slug), slugs[i]? = some s →
        s.Period = timeFormat berlinZone (str "2006-01-02")
          ((⟨1774737000000000000, .localLoc⟩ : Time).Add
            (((i : Int) - 3 / 2) * 86400000000000)) ∧
        derive [] (str "seedphrase") s.Period 16 (str "obfuscated") = some (s.Value, s.Hash)) ∧
      (∀ (i : Nat) (s s1 : Slug), slugs[i]? = some s → slugs[i + 1]? = some s1 →
        ∃ u : Time, s.Period = timeFormat berlinZone (str "2006-01-02") u ∧
          s1.Period = timeFormat berlinZone (str "2006-01-02") (u.Add 86400000000000)) ∧
      (∃ s, slugs[((3 : Int) / 2).toNat]? = some s ∧
        s.Period = timeFormat berlinZone (str "2006-01-02")
          ⟨1774737000000000000, .localLoc⟩) :=
  Generate_window berlinZone [] (str "seedphrase") (str "2026-03-28T23:30:00+01:00") 16 3
    (str "day") (str "obfuscated") _ _ _ parseTime_berlin parseInterval_day
    validLength_obfuscated_16 (by decide) (by decide)

/-- C7, as stated, fails for a window of 3: `Generate` labels the three
slugs 2026-02-02, 2026-02-03, 2026-02-04 (start offset -1), while the floor
of -3/2 is -2 and the label at offset -2 is 2026-02-01. The process is in
UTC; the anchor has no offset, so it is parsed in UTC in every zone. -/
theorem Generate_start_not_floor :
    Generate utcZone [] (str "seedphrase") (str "2026-02-03") 16 3 (str "day")
        (str "obfuscated")
        = .ok [⟨str "goflux-zenci", str "2026-02-02", str "0193ecaf6290f6d3"⟩,
               ⟨str "trybeambold8", str "2026-02-03", str "5d3bf0d55db67ea2"⟩,
               ⟨str "brightbeamvivar", str "2026-02-04", str "f9fb66a05050f52f"⟩] ∧
      Int.fdiv (-3) 2 = -2 ∧
      periodLabel utcZone ⟨1770076800000000000, .fixed 0⟩ 86400000000000 (str "2006-01-02")
        (Int.fdiv (-3) 2) 0 = str "2026-02-01" := by
  refine ⟨?_, by decide, by decide!⟩
  rw [Generate_eq utcZone [] (str "seedphrase") (str "2026-02-03") 16 3 (str "day")
    (str "obfuscated") _ _ _ (parseTime_example utcZone) parseInterval_day (by decide)
    (by decide) validLength_obfuscated_16]
  have hr : List.range (3 : Int).toNat = [0, 1, 2] := by decide
  have s0 : slugAt utcZone [] (str "seedphrase") 16 (str "obfuscated")
      ⟨1770076800000000000, .fixed 0⟩ 86400000000000 (str "2006-01-02")
      (Int.tdiv (wrapInt64 (-3)) 2) 0
      = ⟨str "goflux-zenci", str "2026-02-02", str "0193ecaf6290f6d3"⟩ := by decide!
  have s1 : slugAt utcZone [] (str "seedphrase") 16 (str "obfuscated")
      ⟨1770076800000000000, .fixed 0⟩ 86400000000000 (str "2006-01-02")
      (Int.tdiv (wrapInt64 (-3)) 2) 1
      = ⟨str "trybeambold8", str "2026-02-03", str "5d3bf0d55db67ea2"⟩ := by decide!
  have s2 : slugAt utcZone [] (str "seedphrase") 16 (str "obfuscated")
      ⟨1770076800000000000, .fixed 0⟩ 86400000000000 (str "2006-01-02")
      (Int.tdiv (wrapInt64 (-3)) 2) 2
      = ⟨str "brightbeamvivar", str "2026-02-04", str "f9fb66a05050f52f"⟩ := by decide!
  rw [hr]
  simp only [List.map_cons, List.map_nil]
  rw [s0, s1, s2]

/-- C7, amended: in a process with any zone rules for `time.Local`, for every
window `W ≥ 1` that `make([]Slug, W)` accepts (`48 * W ≤ 2^48`), the period
offsets used by `Generate` run from `-floor(W/2)` (the quotient `-W/2`
truncated toward zero) through `-floor(W/2) + W - 1`: slug `i` is labelled
with the instant `anchor + (-floor(W/2) + i) * d`, the product taken in 64
bits, formatted in the anchor's location. For odd `W` this start is one more
than the floor of `-W/2`. -/
theorem Generate_offsets (localZone : Int → Int) (dict : List Bytes) (seed anchor : Bytes)
    (length W : Int) (interval mode : Bytes) (t : Time) (d : Int) (fmt : Bytes)
    (hp : parseTime localZone anchor = .ok t) (hi : parseInterval interval = .ok (d, fmt))
    (hv : validLength dict length mode) (hW : 1 ≤ W) (hmk : slugSize * W ≤ maxAlloc) :
    ∃ slugs, Generate localZone dict seed anchor length W interval mode = .ok slugs ∧
      slugs.length = W.toNat ∧
      (∀ (i : Nat) (s : Slug), slugs[i]? = some s →
        s.Period
          = timeFormat localZone fmt (t.Add (wrapInt64 ((-(W / 2) + (i : Int)) * d)))) ∧
      Int.tdiv (-W) 2 = -(W / 2) ∧
      (W % 2 = 1 → -(W / 2) = Int.fdiv (-W) 2 + 1) := by
  have hW3 : W ≤ 5864062014805 := by
    unfold slugSize maxAlloc at hmk
    omega
  have hW2 : W < 2 ^ 63 := by omega
  have hG := Generate_eq localZone dict seed anchor length W interval mode t d fmt hp hi
    (by omega) hW3 hv
  refine ⟨_, hG, by simp, ?_, ?_, ?_⟩
  · intro i s hs
    obtain ⟨hlt, rfl⟩ := getElem?_range_map _ _ _ _ hs
    exact periodLabel_eq localZone t d fmt W i (by omega) hW2 (by omega)
  · rw [Int.neg_tdiv, Int.tdiv_eq_ediv (by omega) (by decide)]
  · intro hodd
    rw [Int.fdiv_eq_ediv _ (by decide)]
    omega

theorem Generate_offsets_witness :
    ∃ slugs, Generate berlinZone [] (str "seedphrase") (str "2026-03-28T23:30:00+01:00") 16 3
        (str "day") (str "obfuscated") = .ok slugs ∧
      slugs.length = (3 : Int).toNat ∧
      (∀ (i : Nat) (s : Slug), slugs[i]? = some s →
        s.Period = timeFormat berlinZone (str "2006-01-02")
          ((⟨1774737000000000000, .localLoc⟩ : Time).Add
            (wrapInt64 ((-(3 / 2) + (i : Int)) * 86400000000000)))) ∧
      Int.tdiv (-3) 2 = -(3 / 2) ∧
      ((3 : Int) % 2 = 1 → -((3 : Int) / 2) = Int.fdiv (-3) 2 + 1) :=
  Generate_offsets berlinZone [] (str "seedphrase") (str "2026-03-28T23:30:00+01:00") 16 3
    (str "day") (str "obfuscated") _ _ _ parseTime_berlin parseInterval_day
    validLength_obfuscated_16 (by decide) (by decide)

/-- C8, as stated, fails for window -1: `make([]Slug, window)` panics (here
in a process in UTC; the amended statement covers every zone). -/
theorem Generate_negative_window_panics :
    Generate utcZone [] (str "seedphrase") (str "2026-02-03") 3 (-1) (str "day") (str "bip39")
      = .panic := by
  decide!

/-- C8, amended: with a parseable anchor and a recognised interval,
`Generate` returns an empty sequence and no error for window 0, and panics
for every negative window. -/
theorem Generate_nonpositive_window (localZone : Int → Int) (dict : List Bytes)
    (seed anchor : Bytes) (length : Int) (interval mode : Bytes) (t : Time)
    (step : Int × Bytes)
    (hp : parseTime localZone anchor = .ok t) (hi : parseInterval interval = .ok step) :
    Generate localZone dict seed anchor length 0 interval mode = .ok [] ∧
    ∀ W : Int, W < 0 → Generate localZone dict seed anchor length W interval mode = .panic := by
  constructor
  · unfold Generate
    simp only [hp, hi]
    rw [if_neg (by decide)]
    rfl
  · intro W hW
    unfold Generate
    simp only [hp, hi]
    rw [if_pos (show makePanics W from Or.inl hW)]

theorem Generate_nonpositive_window_witness :
    Generate berlinZone [] (str "seedphrase") (str "2026-02-03") 3 0 (str "day") (str "bip39")
      = .ok [] ∧
    ∀ W : Int, W < 0 →
      Generate berlinZone [] (str "seedphrase") (str "2026-02-03") 3 W (str "day") (str "bip39")
        = .panic :=
  Generate_nonpositive_window berlinZone [] (str "seedphrase") (str "2026-02-03") 3 (str "day")
    (str "bip39") _ _ (parseTime_example berlinZone) parseInterval_day

/-- C9, as stated, fails for length -3 in obfuscated mode: the hash length
is `(-3+1)/2 = -1` and `hash[:-1]` panics, in `derive` and so in `Generate`.
It also fails for the valid length 16 and the window `2^62`, where
`make([]Slug, window)` panics. The process is in UTC. -/
theorem derive_negative_length_panics :
    derive [] (str "seedphrase") (str "2026-02-03") (-3) (str "obfuscated") = none ∧
    Generate utcZone [] (str "seedphrase") (str "2026-02-03") (-3) 1 (str "day")
      (str "obfuscated") = .panic ∧
    Generate utcZone [] (str "seedphrase") (str "2026-02-03") 16 (2 ^ 62) (str "day")
      (str "obfuscated") = .panic :=
  ⟨by decide!, by decide!, by decide!⟩

/-- C9, amended: no mode string makes `derive` fail. For every seed, period
and mode, `derive` returns a pair when the length is from -2 to `2^63 - 2`
in obfuscated mode, or from 0 to 23 in BIP39 mode with a 2048-word
dictionary; for such lengths `Generate` with a parseable anchor, a recognised
interval and a window `≥ 0` that `make([]Slug, window)` accepts
(`48 * window ≤ 2^48`) succeeds, whatever the zone rules of `time.Local`. -/
theorem derive_returns_on_valid_length (dict : List Bytes) (seed : Bytes) (length : Int)
    (mode : Bytes) :
    (equalFold mode (str "obfuscated") = true → -2 ≤ length → length ≤ 2 ^ 63 - 2 →
      ∀ period, ∃ vh, derive dict seed period length mode = some vh) ∧
    (equalFold mode (str "obfuscated") = false → dict.length = 2048 → 0 ≤ length →
      length ≤ 23 → ∀ period, ∃ vh, derive dict seed period length mode = some vh) ∧
    (validLength dict length mode → ∀ localZone anchor window interval t step,
      parseTime localZone anchor = .ok t → parseInterval interval = .ok step → 0 ≤ window →
      slugSize * window ≤ maxAlloc →
      ∃ slugs, Generate localZone dict seed anchor length window interval mode
        = .ok slugs) := by
  refine ⟨?_, ?_, ?_⟩
  · intro hm h1 h2 period
    obtain ⟨slug, _, h⟩ := derive_obfuscated_eq dict seed period length mode hm h1 h2
    exact ⟨_, h⟩
  · intro hm hd h1 h2 period
    exact ⟨_, derive_bip39_eq dict seed period length mode hm hd h1 h2⟩
  · intro hv tz anchor window interval t step hp hi hw hmk
    have hW3 : window ≤ 5864062014805 := by
      unfold slugSize maxAlloc at hmk
      omega
    exact ⟨_, Generate_eq tz dict seed anchor length window interval mode t step.1 step.2 hp hi
      hw hW3 hv⟩

theorem derive_returns_on_valid_length_witness :
    (∀ period, ∃ vh, derive [] (str "seedphrase") period (-2) (str "Obfuscated") = some vh) ∧
    (∃ slugs, Generate berlinZone [] (str "seedphrase") (str "2026-03-28T23:30:00+01:00") 16 3
        (str "day") (str "obfuscated") = .ok slugs) :=
  ⟨(derive_returns_on_valid_length [] (str "seedphrase") (-2) (str "Obfuscated")).1
      (by decide) (by decide) (by decide),
   (derive_returns_on_valid_length [] (str "seedphrase") 16 (str "obfuscated")).2.2
      validLength_obfuscated_16 berlinZone _ 3 _ _ _ parseTime_berlin parseInterval_day
      (by decide) (by decide)⟩

/-- C10: mode dispatch in `derive` is case-insensitive with a BIP39 fallback.
A mode that equals "obfuscated" under `strings.EqualFold` gives the result of
"obfuscated", every other mode gives the result of "bip39"; for an ASCII
mode, equality under `EqualFold` is equality of the lowercase forms. -/
theorem derive_mode_dispatch (dict : List Bytes) (seed period : Bytes) (length : Int)
    (m : Bytes) :
    (equalFold m (str "obfuscated") = true →
      derive dict seed period length m = derive dict seed period length (str "obfuscated")) ∧
    (equalFold m (str "obfuscated") = false →
      derive dict seed period length m = derive dict seed period length (str "bip39")) ∧
    (isASCII m → (equalFold m (str "obfuscated") = true ↔ toLower m = str "obfuscated")) := by
  have ho : equalFold (str "obfuscated") (str "obfuscated") = true := by decide
  have hb : equalFold (str "bip39") (str "obfuscated") = false := by decide
  refine ⟨?_, ?_, ?_⟩
  · intro h
    unfold derive
    rw [if_pos h, if_pos ho]
  · intro h
    unfold derive
    rw [if_neg (by simp [h]), if_neg (by simp [hb])]
  · intro h
    exact equalFold_ascii (str "obfuscated") m (by decide) h

theorem derive_mode_dispatch_witness :
    derive [] (str "seed") (str "2026-01-01") 3 (str "OBFUSCATED")
        = derive [] (str "seed") (str "2026-01-01") 3 (str "obfuscated") ∧
      derive [] (str "seed") (str "2026-01-01") 3 (str "BIP39")
        = derive [] (str "seed") (str "2026-01-01") 3 (str "bip39") ∧
      derive [] (str "seed") (str "2026-01-01") 3 []
        = derive [] (str "seed") (str "2026-01-01") 3 (str "bip39") ∧
      (equalFold (str "Obfuscated") (str "obfuscated") = true
        ↔ toLower (str "Obfuscated") = str "obfuscated") :=
  ⟨(derive_mode_dispatch [] (str "seed") (str "2026-01-01") 3 (str "OBFUSCATED")).1 (by decide),
   (derive_mode_dispatch [] (str "seed") (str "2026-01-01") 3 (str "BIP39")).2.1 (by decide),
   (derive_mode_dispatch [] (str "seed") (str "2026-01-01") 3 []).2.1 (by decide),
   (derive_mode_dispatch [] (str "seed") (str "2026-01-01") 3 (str "Obfuscated")).2.2
     (by decide)⟩

/-- C11: `Generate` reports parse errors in a fixed order and without partial
results. If no accepted layout parses the anchor, the result is the error
"invalid time: " followed by the anchor, whatever the interval (and the other
arguments) are; if the anchor parses and the lowercase form of the (ASCII)
interval is not a keyword, the result is the error "invalid interval: "
followed by the interval. -/
theorem Generate_parse_errors (localZone : Int → Int) (dict : List Bytes)
    (seed anchor : Bytes) (length window : Int) (interval mode : Bytes) :
    ((∀ f ∈ timeFormats, timeParse localZone f anchor = none) →
      Generate localZone dict seed anchor length window interval mode
        = .error (str "invalid time: " ++ anchor)) ∧
    (∀ t, parseTime localZone anchor = .ok t → isASCII interval →
      toLower interval ∉ intervalKeywords →
      Generate localZone dict seed anchor length window interval mode
        = .error (str "invalid interval: " ++ interval)) := by
  constructor
  · intro h
    unfold Generate
    rw [parseTime_error localZone anchor h]
  · intro t ht _ hi
    unfold Generate
    rw [ht, parseInterval_error interval hi]

theorem Generate_parse_errors_witness :
    Generate utcZone [] (str "seed") (str "not-a-date") 3 3 (str "bogus") (str "bip39")
        = .error (str "invalid time: not-a-date") ∧
    Generate utcZone [] (str "seed") (str "2026-02-03") 3 3 (str "bogus") (str "bip39")
        = .error (str "invalid interval: bogus") :=
  ⟨(Generate_parse_errors utcZone [] (str "seed") (str "not-a-date") 3 3 (str "bogus")
      (str "bip39")).1 (by decide!),
   (Generate_parse_errors utcZone [] (str "seed") (str "2026-02-03") 3 3 (str "bogus")
      (str "bip39")).2 _ (parseTime_example utcZone) (by decide) (by decide!)⟩

/-- C12: for the interval "week" the period label is not the ISO week label.
The layout "2006-W02" has no week verb: it prints the year, "-W" and the
two-digit day of the month. For the anchor 2026-02-03 and a window of 1
`Generate` labels the slug "2026-W03", while the ISO week label of that
instant is "2026-W06". -/
theorem Generate_week_label_not_iso :
    ∀ localZone : Int → Int,
    Generate localZone [] (str "seedphrase") (str "2026-02-03") 16 1 (str "week")
        (str "obfuscated")
        = .ok [⟨str "foxredpocax", str "2026-W03", str "e13ffb51133b5f4b"⟩] ∧
      isoWeekLabel localZone ⟨1770076800000000000, .fixed 0⟩ = str "2026-W06" ∧
      (∀ t : Time, timeFormat localZone (str "2006-W02") t
        = appendInt (civilFromDays (t.localSec localZone / 86400)).1 4 ++ str "-W"
            ++ appendInt (civilFromDays (t.localSec localZone / 86400)).2.2 2) := by
  intro tz
  have hiso : isoWeekLabel tz ⟨1770076800000000000, .fixed 0⟩
      = isoWeekLabel utcZone ⟨1770076800000000000, .fixed 0⟩ := by
    simp only [isoWeekLabel, Time.localSec, Time.offset]
  rw [Generate_fixed_zone tz utcZone [] (str "seedphrase") (str "2026-02-03") 16 1
      (str "week") (str "obfuscated") _ 0 (parseTime_example tz) (parseTime_example utcZone) rfl,
    hiso]
  refine ⟨by decide!, by decide!, fun t => ?_⟩
  show appendInt _ 4 ++ (45 :: 87 :: (appendInt _ 2 ++ [])) = _
  simp [str]

/-- C13: for ASCII `s`, `parseInterval s` succeeds exactly when the lowercase
form of `s` is one of the sixteen keywords, and fails with "invalid interval: " followed by
`s` otherwise; the step is 1 second, 1 minute, 1 hour, 24 hours and 7*24
hours (in nanoseconds) for the second, minute, hour, day (with the empty
string) and week families; two strings with the same lowercase form, one of
the keywords, give the same result. -/
theorem parseInterval_keywords (s : Bytes) (_hs : isASCII s) :
    ((∃ r, parseInterval s = .ok r) ↔ toLower s ∈ intervalKeywords) ∧
    (toLower s ∉ intervalKeywords → parseInterval s = .error (str "invalid interval: " ++ s)) ∧
    (toLower s ∈ [str "s", str "second", str "seconds"] →
      ∃ f, parseInterval s = .ok (1000000000, f)) ∧
    (toLower s ∈ [str "m", str "minute", str "minutes"] →
      ∃ f, parseInterval s = .ok (60 * 1000000000, f)) ∧
    (toLower s ∈ [str "h", str "hour", str "hours"] →
      ∃ f, parseInterval s = .ok (60 * 60 * 1000000000, f)) ∧
    (toLower s ∈ [str "", str "d", str "day", str "days"] →
      ∃ f, parseInterval s = .ok (24 * 60 * 60 * 1000000000, f)) ∧
    (toLower s ∈ [str "w", str "week", str "weeks"] →
      ∃ f, parseInterval s = .ok (7 * 24 * 60 * 60 * 1000000000, f)) ∧
    (∀ s1, isASCII s1 → toLower s1 = toLower s → toLower s ∈ intervalKeywords →
      parseInterval s1 = parseInterval s) := by
  have hs : str "s" ≠ str "m" ∧ str "s" ≠ str "minute" := by decide
  refine ⟨?_, parseInterval_error s, ?_, ?_, ?_, ?_, ?_, ?_⟩
  · constructor
    · rintro ⟨r, hr⟩
      by_contra hn
      rw [parseInterval_error s hn] at hr
      cases hr
    · intro h
      rw [intervalKeywords_eq] at h
      simp only [List.mem_cons, List.mem_singleton, List.not_mem_nil, or_false] at h
      rw [parseInterval_of_lower]
      split_ifs with h1 h2 h3 h4 h5
      · exact ⟨_, rfl⟩
      · exact ⟨_, rfl⟩
      · exact ⟨_, rfl⟩
      · exact ⟨_, rfl⟩
      · exact ⟨_, rfl⟩
      · exfalso; tauto
  · intro h
    simp only [List.mem_cons, List.mem_singleton, List.not_mem_nil, or_false] at h
    rw [parseInterval_of_lower, if_pos h]
    exact ⟨_, rfl⟩
  · intro h
    simp only [List.mem_cons, List.mem_singleton, List.not_mem_nil, or_false] at h
    have n1 : ¬ (toLower s = str "s" ∨ toLower s = str "second" ∨ toLower s = str "seconds") := by
      rcases h with h | h | h <;> rw [h] <;> decide
    rw [parseInterval_of_lower, if_neg n1, if_pos h]
    exact ⟨_, rfl⟩
  · intro h
    simp only [List.mem_cons, List.mem_singleton, List.not_mem_nil, or_false] at h
    have n1 : ¬ (toLower s = str "s" ∨ toLower s = str "second" ∨ toLower s = str "seconds") := by
      rcases h with h | h | h <;> rw [h] <;> decide
    have n2 : ¬ (toLower s = str "m" ∨ toLower s = str "minute" ∨ toLower s = str "minutes") := by
      rcases h with h | h | h <;> rw [h] <;> decide
    rw [parseInterval_of_lower, if_neg n1, if_neg n2, if_pos h]
    exact ⟨_, rfl⟩
  · intro h
    simp only [List.mem_cons, List.mem_singleton, List.not_mem_nil, or_false] at h
    have n1 : ¬ (toLower s = str "s" ∨ toLower s = str "second" ∨ toLower s = str "seconds") := by
      rcases h with h | h | h | h <;> rw [h] <;> decide
    have n2 : ¬ (toLower s = str "m" ∨ toLower s = str "minute" ∨ toLower s = str "minutes") := by
      rcases h with h | h | h | h <;> rw [h] <;> decide
    have n3 : ¬ (toLower s = str "h" ∨ toLower s = str "hour" ∨ toLower s = str "hours") := by
      rcases h with h | h | h | h <;> rw [h] <;> decide
    rw [parseInterval_of_lower, if_neg n1, if_neg n2, if_neg n3, if_pos h]
    exact ⟨_, rfl⟩
  · intro h
    simp only [List.mem_cons, List.mem_singleton, List.not_mem_nil, or_false] at h
    have n1 : ¬ (toLower s = str "s" ∨ toLower s = str "second" ∨ toLower s = str "seconds") := by
      rcases h with h | h | h <;> rw [h] <;> decide
    have n2 : ¬ (toLower s = str "m" ∨ toLower s = str "minute" ∨ toLower s = str "minutes") := by
      rcases h with h | h | h <;> rw [h] <;> decide
    have n3 : ¬ (toLower s = str "h" ∨ toLower s = str "hour" ∨ toLower s = str "hours") := by
      rcases h with h | h | h <;> rw [h] <;> decide
    have n4 : ¬ (toLower s = str "" ∨ toLower s = str "d" ∨ toLower s = str "day"
        ∨ toLower s = str "days") := by
      rcases h with h | h | h <;> rw [h] <;> decide
    rw [parseInterval_of_lower, if_neg n1, if_neg n2, if_neg n3, if_neg n4, if_pos h]
    exact ⟨_, rfl⟩
  · intro s1 _ he h
    rw [intervalKeywords_eq] at h
    simp only [List.mem_cons, List.mem_singleton, List.not_mem_nil, or_false] at h
    rw [parseInterval_of_lower s1, parseInterval_of_lower s, he]
    split_ifs with h1 h2 h3 h4 h5
    · rfl
    · rfl
    · rfl
    · rfl
    · rfl
    · exfalso; tauto

theorem parseInterval_keywords_witness :
    ((∃ r, parseInterval (str "Weeks") = .ok r) ↔ toLower (str "Weeks") ∈ intervalKeywords) ∧
    parseInterval (str "fortnight") = .error (str "invalid interval: fortnight") ∧
    (∃ f, parseInterval (str "S") = .ok (1000000000, f)) ∧
    (∃ f, parseInterval (str "Minute") = .ok (60 * 1000000000, f)) ∧
    (∃ f, parseInterval (str "HOURS") = .ok (60 * 60 * 1000000000, f)) ∧
    (∃ f, parseInterval [] = .ok (24 * 60 * 60 * 1000000000, f)) ∧
    (∃ f, parseInterval (str "W") = .ok (7 * 24 * 60 * 60 * 1000000000, f)) ∧
    parseInterval (str "DAY") = parseInterval (str "day") :=
  ⟨(parseInterval_keywords (str "Weeks") (by decide)).1,
   (parseInterval_keywords (str "fortnight") (by decide)).2.1 (by decide),
   (parseInterval_keywords (str "S") (by decide)).2.2.1 (by decide),
   (parseInterval_keywords (str "Minute") (by decide)).2.2.2.1 (by decide),
   (parseInterval_keywords (str "HOURS") (by decide)).2.2.2.2.1 (by decide),
   (parseInterval_keywords [] (by decide)).2.2.2.2.2.1 (by decide),
   (parseInterval_keywords (str "W") (by decide)).2.2.2.2.2.2.1 (by decide),
   (parseInterval_keywords (str "day") (by decide)).2.2.2.2.2.2.2 (str "DAY") (by decide)
     (by decide) (by decide)⟩

/-- C14: BIP39 length coupling. For word counts `0 ≤ m ≤ n ≤ 23` (and a
2048-word dictionary) the value for `m` is the concatenation of the first `m`
of the 24 words and the value for `n` that of the first `n`, so the first is
a prefix of the second; the hash for `m` is a prefix of the hash for `n`, and
they encode `ceil(11*m/8)` and `ceil(11*n/8)` bytes. -/
theorem derive_bip39_length_coupling (dict : List Bytes) (seed period : Bytes) (m n : Int)
    (hd : dict.length = 2048) (hm : 0 ≤ m) (hmn : m ≤ n) (hn : n ≤ 23) :
    ∃ words v1 h1 v2 h2,
      entropyToBIP39Words dict (hmacSHA256 seed (seed ++ str ":" ++ period)) = some words ∧
      derive dict seed period m (str "bip39") = some (v1, h1) ∧
      derive dict seed period n (str "bip39") = some (v2, h2) ∧
      v1 = (words.take m.toNat).flatten ∧ v2 = (words.take n.toNat).flatten ∧
      v1 <+: v2 ∧ h1 <+: h2 ∧
      h1.length = 2 * ((11 * m + 7) / 8).toNat ∧ h2.length = 2 * ((11 * n + 7) / 8).toNat := by
  have hb : equalFold (str "bip39") (str "obfuscated") = false := by decide
  have hlen := hmacSHA256_length seed (seed ++ str ":" ++ period)
  have hw := entropyToBIP39Words_eq dict _ hd hlen
  have e1 := derive_bip39_eq dict seed period m (str "bip39") hb hd hm (by omega)
  have e2 := derive_bip39_eq dict seed period n (str "bip39") hb hd (by omega) hn
  refine ⟨_, _, _, _, _, hw, e1, e2, rfl, rfl, ?_, ?_, ?_, ?_⟩
  · exact flatten_prefix _ _ (List.take_prefix_take_left _ (by omega))
  · exact hexEncode_prefix _ _ (List.take_prefix_take_left _ (by omega))
  · rw [hexEncode_length, List.length_take, hlen]
    omega
  · rw [hexEncode_length, List.length_take, hlen]
    omega

theorem derive_bip39_length_coupling_witness :
    ∃ words v1 h1 v2 h2,
      entropyToBIP39Words (List.replicate 2048 (str "word"))
        (hmacSHA256 (str "seedphrase") (str "seedphrase" ++ str ":" ++ str "2026-02-03"))
          = some words ∧
      derive (List.replicate 2048 (str "word")) (str "seedphrase") (str "2026-02-03") 3
        (str "bip39") = some (v1, h1) ∧
      derive (List.replicate 2048 (str "word")) (str "seedphrase") (str "2026-02-03") 5
        (str "bip39") = some (v2, h2) ∧
      v1 = (words.take (3 : Int).toNat).flatten ∧ v2 = (words.take (5 : Int).toNat).flatten ∧
      v1 <+: v2 ∧ h1 <+: h2 ∧
      h1.length = 2 * ((11 * (3 : Int) + 7) / 8).toNat ∧
      h2.length = 2 * ((11 * (5 : Int) + 7) / 8).toNat :=
  derive_bip39_length_coupling (List.replicate 2048 (str "word")) (str "seedphrase")
    (str "2026-02-03") 3 5 (List.length_replicate _ _) (by decide) (by decide) (by decide)

/-- C15, as stated, fails on the reference vector: for length 16 the value is
"trybeambold8", which has 12 characters. -/
theorem derive_obfuscated_value_not_length :
    derive [] (str "seedphrase") (str "2026-02-03") 16 (str "obfuscated")
        = some (str "trybeambold8", str "5d3bf0d55db67ea2") ∧
      (str "trybeambold8").length = 12 := by
  decide!

/-- C15, amended: in obfuscated mode the length parameter does not set the
slug's character count. For every seed, period and length from -2 to
`2^63 - 2` the value returned by `derive` is `buildObfuscatedSlug` of the
entropy, which has at most 18 characters whatever the length is. -/
theorem derive_obfuscated_value (dict : List Bytes) (seed period : Bytes) (length : Int)
    (h1 : -2 ≤ length) (h2 : length ≤ 2 ^ 63 - 2) :
    ∃ slug hash, derive dict seed period length (str "obfuscated") = some (slug, hash) ∧
      buildObfuscatedSlug (hmacSHA256 seed (seed ++ str ":" ++ period)) = some slug ∧
      slug.length ≤ 18 := by
  obtain ⟨slug, hs, hd⟩ := derive_obfuscated_eq dict seed period length (str "obfuscated")
    (by decide) h1 h2
  obtain ⟨r, hr, _, hr18⟩ := buildObfuscatedSlug_some _
    (hmacSHA256_length seed (seed ++ str ":" ++ period))
  rw [hr] at hs
  cases hs
  exact ⟨_, _, hd, hr, le_trans (removeTripleLetters_length_le r) hr18⟩

theorem derive_obfuscated_value_witness :
    ∃ slug hash, derive [] (str "seedphrase") (str "2026-02-03") 40 (str "obfuscated")
        = some (slug, hash) ∧
      buildObfuscatedSlug (hmacSHA256 (str "seedphrase")
        (str "seedphrase" ++ str ":" ++ str "2026-02-03")) = some slug ∧
      slug.length ≤ 18 :=
  derive_obfuscated_value [] (str "seedphrase") (str "2026-02-03") 40 (by decide) (by decide)

/-- C16: the reference vector. For seed "seedphrase", period "2026-02-03",
length 16 and mode "obfuscated", `derive` returns ("trybeambold8",
"5d3bf0d55db67ea2"): the slug is `buildObfuscatedSlug` of the HMAC-SHA256 of
"seedphrase:2026-02-03" keyed by the seed, and the hash is the first 8 bytes
of the HMAC-SHA256 of "seedphrase:skid:2026-02-03". -/
theorem derive_reference_vector :
    derive [] (str "seedphrase") (str "2026-02-03") 16 (str "obfuscated")
        = some (str "trybeambold8", str "5d3bf0d55db67ea2") ∧
      buildObfuscatedSlug (hmacSHA256 (str "seedphrase") (str "seedphrase:2026-02-03"))
        = some (str "trybeambold8") ∧
      hexEncode ((hmacSHA256 (str "seedphrase") (str "seedphrase:skid:2026-02-03")).take 8)
        = str "5d3bf0d55db67ea2" ∧
      hexEncode (hmacSHA256 (str "seedphrase") (str "seedphrase:2026-02-03"))
        = str "50011c26d0a864eccc58675738b7cc38103a488392122486799687585e31f912" :=
  ⟨by decide!, by decide!, by decide!, by decide!⟩

/-- C17: for every 32-byte entropy `e` and a dictionary of exactly 2048
words, `entropyToBIP39Words` returns exactly 24 words, and word `i` (for `i`
in 0..23) is the dictionary entry whose index is the big-endian integer of
bits `11*i .. 11*i+10` of `e` followed by the first byte of SHA-256(`e`);
every such index is below 2048, so the lookup is in range. -/
theorem entropyToBIP39Words_indices (dict : List Bytes) (e : Bytes)
    (hd : dict.length = 2048) (he : e.length = 32) :
    ∃ words, entropyToBIP39Words dict e = some words ∧ words.length = 24 ∧
      (e ++ (sha256Sum e).take 1).length * 8 = 264 ∧
      ∀ i : Nat, i < 24 → groupIndex e i < 2048 ∧
        ∃ w, dict[groupIndex e i]? = some w ∧ words[i]? = some w := by
  refine ⟨(List.range 24).map (wordAt dict e), entropyToBIP39Words_eq dict e hd he,
    by simp, ?_, ?_⟩
  · simp [he, sha256Sum_length]
  · intro i hi
    have hlt := groupIndex_lt e i
    have hlt2 : groupIndex e i < dict.length := by omega
    refine ⟨hlt, dict[groupIndex e i], List.getElem?_eq_getElem hlt2, ?_⟩
    rw [List.getElem?_map, List.getElem?_range hi]
    simp only [Option.map_some', wordAt, groupIndex_eq e he i hi]
    rw [List.getD_eq_getElem?_getD, List.getElem?_eq_getElem hlt2]
    rfl

theorem entropyToBIP39Words_indices_witness :
    ∃ words, entropyToBIP39Words ((List.range 2048).map (fun n : Nat => appendInt (n : Int) 4))
        (List.replicate 32 0) = some words ∧ words.length = 24 ∧
      (List.replicate 32 0 ++ (sha256Sum (List.replicate 32 0)).take 1).length * 8 = 264 ∧
      ∀ i : Nat, i < 24 → groupIndex (List.replicate 32 0) i < 2048 ∧
        ∃ w, ((List.range 2048).map (fun n : Nat => appendInt (n : Int) 4))[groupIndex (List.replicate 32 0) i]?
          = some w ∧ words[i]? = some w :=
  entropyToBIP39Words_indices ((List.range 2048).map (fun n : Nat => appendInt (n : Int) 4))
    (List.replicate 32 0) (by rw [List.length_map, List.length_range])
    (List.length_replicate _ _)

/-- C18: `shortenWord` is the first matching rule of the specification, for
every word; in particular tiger gives tigr, purple gives purpl, delta gives
delt, and nova, cat and cloud are unchanged. -/
theorem shortenWord_rules :
    (∀ w : Bytes, shortenWord w = shortenWordRules w) ∧
    shortenWord (str "tiger") = str "tigr" ∧ shortenWord (str "purple") = str "purpl" ∧
    shortenWord (str "delta") = str "delt" ∧ shortenWord (str "nova") = str "nova" ∧
    shortenWord (str "cat") = str "cat" ∧ shortenWord (str "cloud") = str "cloud" := by
  refine ⟨fun w => ?_, by decide, by decide, by decide, by decide, by decide, by decide⟩
  unfold shortenWord shortenWordRules
  simp only []
  have hd1 : w.dropLast = w.take (w.length - 1) := List.dropLast_eq_take w
  have hd2 : w.dropLast.dropLast = w.take (w.length - 2) := by
    rw [List.dropLast_eq_take, hd1, List.take_take, List.length_take]
    congr 1
    omega
  by_cases h1 : w.length < 4
  · rw [if_pos h1, if_pos h1]
  · rw [if_neg h1, if_neg h1]
    by_cases h2 : w.getD (w.length - 2) 0 ∈ str "aeo" ∧ w.getD (w.length - 1) 0 = 114
    · rw [if_pos h2, if_pos (by simpa [byteIn_iff] using h2), hd2]
    · rw [if_neg h2, if_neg (by simpa [byteIn_iff] using h2)]
      by_cases h3 : str "le" <:+ w
      · rw [if_pos h3, if_pos (by
          simp only [hasSuffix, Bool.and_eq_true, decide_eq_true_eq, List.isSuffixOf_iff_suffix]
          exact ⟨h3, by omega⟩), hd1]
      · rw [if_neg h3, if_neg (by
          simp only [hasSuffix, Bool.and_eq_true, decide_eq_true_eq, List.isSuffixOf_iff_suffix]
          tauto)]
        by_cases h4 : w.getD (w.length - 1) 0 ∈ str "aeiou" ∧ w.length > 4
        · rw [if_pos h4, if_pos (by simpa [byteIn_iff] using h4), hd1]
        · rw [if_neg h4, if_neg (by simpa [byteIn_iff] using h4)]

/-- C19: for every ASCII string `s`, `removeTripleLetters s`, which compares
each character with its two predecessors in the input, equals the single
forward pass that compares with the last two characters kept; both are the
string in which every maximal run of `k` identical characters of `s` is
replaced by `min k 2` copies. The runs of `s` are non-empty, adjacent runs
have different characters, and written out they give `s`. -/
theorem removeTripleLetters_forward_pass (s : Bytes) (_hs : isASCII s) :
    removeTripleLetters s = forwardPass s ∧
    removeTripleLetters s = squeezeRuns (runs s) ∧
    forwardPass s = squeezeRuns (runs s) ∧
    (runs s).flatMap (fun r => List.replicate r.2 r.1) = s ∧
    (∀ r ∈ runs s, 1 ≤ r.2) ∧
    List.Chain' (fun a b : Nat × Nat => a.1 ≠ b.1) (runs s) := by
  have h1 : removeTripleLetters s = forwardPass s := by
    rw [removeTripleLetters_eq, forwardPass, foldl_forward s [] [] rfl]
    simp
  have h2 : removeTripleLetters s = squeezeRuns (runs s) := by
    rw [removeTripleLetters_eq, dropTriples_runs]
    rcases runs s with _ | ⟨⟨d, k⟩, rest⟩
    · simp [squeezeRuns]
    · simp [squeezeRuns, lead]
  obtain ⟨e1, e2, e3⟩ := runs_expand s
  exact ⟨h1, h2, h1 ▸ h2, e1, e2, e3⟩

theorem removeTripleLetters_forward_pass_witness :
    removeTripleLetters (str "aaaabbbcdd") = forwardPass (str "aaaabbbcdd") ∧
    removeTripleLetters (str "aaaabbbcdd") = squeezeRuns (runs (str "aaaabbbcdd")) ∧
    forwardPass (str "aaaabbbcdd") = squeezeRuns (runs (str "aaaabbbcdd")) ∧
    (runs (str "aaaabbbcdd")).flatMap (fun r => List.replicate r.2 r.1) = str "aaaabbbcdd" ∧
    (∀ r ∈ runs (str "aaaabbbcdd"), 1 ≤ r.2) ∧
    List.Chain' (fun a b : Nat × Nat => a.1 ≠ b.1) (runs (str "aaaabbbcdd")) :=
  removeTripleLetters_forward_pass (str "aaaabbbcdd") (by decide)

/-- C20: `truncateToMaxLength(s, 10, 18)` returns `s` when `len(s) ≤ 18`;
otherwise it returns the prefix `s[:i]` for the largest `i` in 10..18 such
that `s[i-1]` is one of a, e, i, o, u, or `s[:18]` when there is no such `i`.
The result is always a prefix of `s` and, when `len(s) > 18`, has 10 to 18
characters. -/
theorem truncateToMaxLength_spec (s : Bytes) :
    (s.length ≤ 18 → truncateToMaxLength s 10 18 = some s) ∧
    (18 < s.length → ∃ i, 10 ≤ i ∧ i ≤ 18 ∧ truncateToMaxLength s 10 18 = some (s.take i) ∧
      (∀ j, i < j → j ≤ 18 → s.getD (j - 1) 0 ∉ str "aeiou") ∧
      (s.getD (i - 1) 0 ∈ str "aeiou" ∨
        (i = 18 ∧ ∀ j, 10 ≤ j → j ≤ 18 → s.getD (j - 1) 0 ∉ str "aeiou"))) ∧
    (∃ r, truncateToMaxLength s 10 18 = some r ∧ r <+: s ∧
      (18 < s.length → 10 ≤ r.length ∧ r.length ≤ 18)) := by
  have hbig : 18 < s.length → ∃ i, 10 ≤ i ∧ i ≤ 18 ∧
      truncateToMaxLength s 10 18 = some (s.take i) ∧
      (∀ j, i < j → j ≤ 18 → s.getD (j - 1) 0 ∉ str "aeiou") ∧
      (s.getD (i - 1) 0 ∈ str "aeiou" ∨
        (i = 18 ∧ ∀ j, 10 ≤ j → j ≤ 18 → s.getD (j - 1) 0 ∉ str "aeiou")) := by
    intro hs
    obtain ⟨k, h1, h2, h3, h4, h5⟩ := truncateLoop_spec s hs 9 18 rfl (le_refl _)
      (fun j hj1 hj2 => by omega)
    refine ⟨k, h1, h2, ?_, h4, h5⟩
    have : ¬ s.length ≤ 18 := by omega
    simp [truncateToMaxLength, this, h3]
  have hsmall : s.length ≤ 18 → truncateToMaxLength s 10 18 = some s := by
    intro h
    simp [truncateToMaxLength, h]
  refine ⟨hsmall, hbig, ?_⟩
  by_cases h : s.length ≤ 18
  · exact ⟨s, hsmall h, List.prefix_refl _, fun h' => by omega⟩
  · obtain ⟨i, h1, h2, h3, _, _⟩ := hbig (by omega)
    refine ⟨_, h3, List.take_prefix _ _, fun _ => ?_⟩
    rw [List.length_take]
    omega

theorem truncateToMaxLength_spec_witness :
    truncateToMaxLength (str "cloudsmart") 10 18 = some (str "cloudsmart") ∧
    (∃ i, 10 ≤ i ∧ i ≤ 18 ∧
      truncateToMaxLength (str "onultrapeakmapavasserex") 10 18
        = some ((str "onultrapeakmapavasserex").take i) ∧
      (∀ j, i < j → j ≤ 18 → (str "onultrapeakmapavasserex").getD (j - 1) 0 ∉ str "aeiou") ∧
      ((str "onultrapeakmapavasserex").getD (i - 1) 0 ∈ str "aeiou" ∨
        (i = 18 ∧ ∀ j, 10 ≤ j → j ≤ 18 →
          (str "onultrapeakmapavasserex").getD (j - 1) 0 ∉ str "aeiou"))) :=
  ⟨(truncateToMaxLength_spec (str "cloudsmart")).1 (by decide),
   (truncateToMaxLength_spec (str "onultrapeakmapavasserex")).2.1 (by decide)⟩

/-- C21: in BIP39 mode the hash determines the slug. For two 32-byte
entropies and a word count `n` in 0..23 whose first `ceil(11*n/8)` bytes
agree, the first `n` words of `entropyToBIP39Words` agree; and two calls of
`derive` in BIP39 mode (any seeds, periods and word counts in 0..23, one
2048-word dictionary) that return the same hash return the same value. -/
theorem derive_bip39_hash_determines_value (dict : List Bytes) (hd : dict.length = 2048)
    (e1 e2 : Bytes) (n : Nat) (he1 : e1.length = 32) (he2 : e2.length = 32) (hn : n ≤ 23)
    (heq : e1.take ((11 * n + 7) / 8) = e2.take ((11 * n + 7) / 8))
    (seed1 period1 seed2 period2 : Bytes) (n1 n2 : Int)
    (h10 : 0 ≤ n1) (h11 : n1 ≤ 23) (h20 : 0 ≤ n2) (h21 : n2 ≤ 23) :
    (∃ w1 w2, entropyToBIP39Words dict e1 = some w1 ∧ entropyToBIP39Words dict e2 = some w2 ∧
      w1.take n = w2.take n) ∧
    (∃ v1 h1 v2 h2, derive dict seed1 period1 n1 (str "bip39") = some (v1, h1) ∧
      derive dict seed2 period2 n2 (str "bip39") = some (v2, h2) ∧
      (h1 = h2 → v1 = v2)) := by
  constructor
  · exact ⟨_, _, entropyToBIP39Words_eq dict e1 hd he1, entropyToBIP39Words_eq dict e2 hd he2,
      words_take_eq dict e1 e2 he1 he2 n hn heq⟩
  · have hb : equalFold (str "bip39") (str "obfuscated") = false := by decide
    have l1 := hmacSHA256_length seed1 (seed1 ++ str ":" ++ period1)
    have l2 := hmacSHA256_length seed2 (seed2 ++ str ":" ++ period2)
    refine ⟨_, _, _, _, derive_bip39_eq dict seed1 period1 n1 (str "bip39") hb hd h10 h11,
      derive_bip39_eq dict seed2 period2 n2 (str "bip39") hb hd h20 h21, ?_⟩
    intro hh
    have hlen := congrArg List.length hh
    rw [hexEncode_length, hexEncode_length, List.length_take, List.length_take, l1, l2] at hlen
    have hn : n1 = n2 := by omega
    subst hn
    have hbytes := hexEncode_inj _ _
      (fun x hx => hmacSHA256_byte _ _ x (List.mem_of_mem_take hx))
      (fun x hx => hmacSHA256_byte _ _ x (List.mem_of_mem_take hx)) hh
    have hk : ((n1 * 11 + 7) / 8).toNat = (11 * n1.toNat + 7) / 8 := by omega
    rw [hk] at hbytes
    rw [words_take_eq dict _ _ l1 l2 n1.toNat (by omega) hbytes]

theorem derive_bip39_hash_determines_value_witness :
    (∃ w1 w2,
      entropyToBIP39Words ((List.range 2048).map (fun k : Nat => appendInt (k : Int) 4))
        (List.replicate 32 0) = some w1 ∧
      entropyToBIP39Words ((List.range 2048).map (fun k : Nat => appendInt (k : Int) 4))
        (List.replicate 31 0 ++ [1]) = some w2 ∧
      w1.take 22 = w2.take 22) ∧
    (∃ v1 h1 v2 h2,
      derive ((List.range 2048).map (fun k : Nat => appendInt (k : Int) 4)) (str "seedphrase")
        (str "2026-02-03") 3 (str "bip39") = some (v1, h1) ∧
      derive ((List.range 2048).map (fun k : Nat => appendInt (k : Int) 4)) (str "seed")
        (str "2026-02-04") 5 (str "bip39") = some (v2, h2) ∧
      (h1 = h2 → v1 = v2)) :=
  derive_bip39_hash_determines_value
    ((List.range 2048).map (fun k : Nat => appendInt (k : Int) 4))
    (by rw [List.length_map, List.length_range])
    (List.replicate 32 0) (List.replicate 31 0 ++ [1]) 22 (by decide) (by decide) (by decide)
    (by decide) (str "seedphrase") (str "2026-02-03") (str "seed") (str "2026-02-04") 3 5
    (by decide) (by decide) (by decide) (by decide)

/-- C22: `buildObfuscatedSlug` is total and index-safe on every 32-byte
entropy (a panic or a loop that does not end would be `none`). Every `pick`
returns an element of a non-empty choice list, and the choice lists of the
package are non-empty; every syllable has 2 or 3 characters, so
`padToMinLength` ends with at least 10 characters; `removeBlockedWords` ends
after at most 10 insertions (at most 30 characters more) with every slice in
bounds; `truncateToMaxLength` returns a prefix. In the grammar the direct
reads `entropy[offset]` are at 0, `o2 - 1`, `o2`, `o4 - 1` and `o4` for the
offsets `o2 = o1 + 2 ≤ 4` and `o4 ≤ 14` after the first and the second word;
the all-zero entropy reaches 14. -/
theorem buildObfuscatedSlug_total (e : Bytes) (he : e.length = 32) :
    (∃ s, buildObfuscatedSlug e = some s) ∧
    (∀ off choices, choices ≠ [] → ∃ c, c ∈ choices ∧ pick e off choices = some (c, off + 1)) ∧
    (consonants ≠ [] ∧ vowels ≠ [] ∧ codas ≠ [] ∧ prefixes ≠ [] ∧ suffixes ≠ [] ∧
      numbers ≠ [] ∧ techWords ≠ []) ∧
    (∀ off, ∃ syl, makeSyllable e off = some (syl, off + 3) ∧ 2 ≤ syl.length ∧
      syl.length ≤ 3) ∧
    (∃ p o1 w1 m o3 w2 o4 en, slugPrefix e = some (p, o1) ∧
      slugFirstWord e o1 = some (w1, o1 + 2) ∧ slugMid e (o1 + 2) = some (m, o3) ∧
      slugSecondWord e w1 o3 = some (w2, o4) ∧ slugEnding e o4 = some en ∧
      buildGrammar e = some (p ++ w1 ++ m ++ w2 ++ en) ∧
      o1 ≤ 2 ∧ o3 ≤ 8 ∧ o4 ≤ 14) ∧
    (∃ p w1 m w2, slugPrefix (List.replicate 32 0) = some (p, 2) ∧
      slugFirstWord (List.replicate 32 0) 2 = some (w1, 4) ∧
      slugMid (List.replicate 32 0) 4 = some (m, 8) ∧
      slugSecondWord (List.replicate 32 0) w1 8 = some (w2, 14)) ∧
    (∀ s, ∃ r, padToMinLength s 10 e = some r ∧ 10 ≤ r.length) ∧
    (∀ s, ∃ r, removeBlockedWords s e = some r ∧ s.length ≤ r.length ∧
      r.length ≤ s.length + 30) ∧
    (∀ s, ∃ r, truncateToMaxLength s 10 18 = some r ∧ r <+: s) := by
  refine ⟨?_, fun off choices hc => pick_some e he off choices hc, by decide,
    makeSyllable_bounds e he, ?_, ?_, ?_, ?_, truncateToMaxLength_total⟩
  · obtain ⟨r, hr, _⟩ := buildObfuscatedSlug_some e he
    exact ⟨_, hr⟩
  · obtain ⟨p, o1, hp, ho1⟩ := slugPrefix_some e he
    obtain ⟨w1, hw1⟩ := slugFirstWord_some e he o1 (by omega)
    obtain ⟨m, o3, hm, ho3⟩ := slugMid_some e he (o1 + 2) (by omega)
    obtain ⟨w2, o4, hw2, ho4⟩ := slugSecondWord_some e w1 he o3 (by omega)
    obtain ⟨en, hen⟩ := slugEnding_some e he o4 (by omega)
    exact ⟨p, o1, w1, m, o3, w2, o4, en, hp, hw1, hm, hw2, hen,
      by simp [buildGrammar, hp, hw1, hm, hw2, hen], ho1, by omega, by omega⟩
  · exact ⟨str "get", str "cloud", str "ba", str "cloud", by decide!, by decide!, by decide!,
      by decide!⟩
  · intro s
    exact padLoop_some e he 10 11 s 20 (by omega) (by omega)
  · intro s
    obtain ⟨r, hr, h1, h2⟩ := removeBlockedLoop_bounds e he 10 0 s
    exact ⟨r, hr, h1, by omega⟩

theorem buildObfuscatedSlug_total_witness :
    (∃ s, buildObfuscatedSlug (hmacSHA256 (str "seedphrase") (str "seedphrase:2026-02-03"))
      = some s) ∧
    (∀ off choices, choices ≠ [] → ∃ c, c ∈ choices ∧
      pick (hmacSHA256 (str "seedphrase") (str "seedphrase:2026-02-03")) off choices
        = some (c, off + 1)) ∧
    (consonants ≠ [] ∧ vowels ≠ [] ∧ codas ≠ [] ∧ prefixes ≠ [] ∧ suffixes ≠ [] ∧
      numbers ≠ [] ∧ techWords ≠ []) ∧
    (∀ off, ∃ syl, makeSyllable (hmacSHA256 (str "seedphrase") (str "seedphrase:2026-02-03")) off
      = some (syl, off + 3) ∧ 2 ≤ syl.length ∧ syl.length ≤ 3) ∧
    (∃ p o1 w1 m o3 w2 o4 en,
      slugPrefix (hmacSHA256 (str "seedphrase") (str "seedphrase:2026-02-03")) = some (p, o1) ∧
      slugFirstWord (hmacSHA256 (str "seedphrase") (str "seedphrase:2026-02-03")) o1
        = some (w1, o1 + 2) ∧
      slugMid (hmacSHA256 (str "seedphrase") (str "seedphrase:2026-02-03")) (o1 + 2)
        = some (m, o3) ∧
      slugSecondWord (hmacSHA256 (str "seedphrase") (str "seedphrase:2026-02-03")) w1 o3
        = some (w2, o4) ∧
      slugEnding (hmacSHA256 (str "seedphrase") (str "seedphrase:2026-02-03")) o4 = some en ∧
      buildGrammar (hmacSHA256 (str "seedphrase") (str "seedphrase:2026-02-03"))
        = some (p ++ w1 ++ m ++ w2 ++ en) ∧
      o1 ≤ 2 ∧ o3 ≤ 8 ∧ o4 ≤ 14) ∧
    (∃ p w1 m w2, slugPrefix (List.replicate 32 0) = some (p, 2) ∧
      slugFirstWord (List.replicate 32 0) 2 = some (w1, 4) ∧
      slugMid (List.replicate 32 0) 4 = some (m, 8) ∧
      slugSecondWord (List.replicate 32 0) w1 8 = some (w2, 14)) ∧
    (∀ s, ∃ r, padToMinLength s 10 (hmacSHA256 (str "seedphrase") (str "seedphrase:2026-02-03"))
      = some r ∧ 10 ≤ r.length) ∧
    (∀ s, ∃ r, removeBlockedWords s (hmacSHA256 (str "seedphrase") (str "seedphrase:2026-02-03"))
      = some r ∧ s.length ≤ r.length ∧ r.length ≤ s.length + 30) ∧
    (∀ s, ∃ r, truncateToMaxLength s 10 18 = some r ∧ r <+: s) :=
  buildObfuscatedSlug_total (hmacSHA256 (str "seedphrase") (str "seedphrase:2026-02-03"))
    (hmacSHA256_length _ _)

/-- C23, as stated, fails at the largest `int`: for length `2^63 - 1` the sum
`length + 1` wraps to `-2^63`, the hash length is negative and `hash[:hashLen]`
panics, while length 0 returns the value with an empty hash. -/
theorem derive_obfuscated_max_length_panics :
    derive [] (str "seedphrase") (str "2026-02-03") 0 (str "obfuscated")
        = some (str "trybeambold8", []) ∧
    derive [] (str "seedphrase") (str "2026-02-03") (2 ^ 63 - 1) (str "obfuscated") = none := by
  decide!

/-- C23, amended: in obfuscated mode the value does not depend on the
requested length. For every seed, period and lengths `0 ≤ L1 ≤ L2 ≤ 2^63 - 2`
the two calls of `derive` return the same value, and the hash for `L1` is a
prefix of the hash for `L2`. -/
theorem derive_obfuscated_length_independent (dict : List Bytes) (seed period : Bytes)
    (L1 L2 : Int) (h0 : 0 ≤ L1) (h12 : L1 ≤ L2) (h2 : L2 ≤ 2 ^ 63 - 2) :
    ∃ v h1 h2, derive dict seed period L1 (str "obfuscated") = some (v, h1) ∧
      derive dict seed period L2 (str "obfuscated") = some (v, h2) ∧ h1 <+: h2 := by
  obtain ⟨s1, hs1, d1⟩ := derive_obfuscated_eq dict seed period L1 (str "obfuscated")
    (by decide) (by omega) (by omega)
  obtain ⟨s2, hs2, d2⟩ := derive_obfuscated_eq dict seed period L2 (str "obfuscated")
    (by decide) (by omega) h2
  rw [hs1] at hs2
  cases hs2
  refine ⟨_, _, _, d1, d2, hexEncode_prefix _ _ (List.take_prefix_take_left _ ?_)⟩
  have e1 : Int.tdiv (L1 + 1) 2 = (L1 + 1) / 2 := Int.tdiv_eq_ediv (by omega) (by omega)
  have e2 : Int.tdiv (L2 + 1) 2 = (L2 + 1) / 2 := Int.tdiv_eq_ediv (by omega) (by omega)
  rw [e1, e2]
  omega

theorem derive_obfuscated_length_independent_witness :
    ∃ v h1 h2, derive [] (str "seedphrase") (str "2026-02-03") 3 (str "obfuscated")
        = some (v, h1) ∧
      derive [] (str "seedphrase") (str "2026-02-03") 16 (str "obfuscated") = some (v, h2) ∧
      h1 <+: h2 :=
  derive_obfuscated_length_independent [] (str "seedphrase") (str "2026-02-03") 3 16
    (by decide) (by decide) (by decide)

/-- C24: for every 32-byte entropy `buildObfuscatedSlug` returns a slug in
which every character is a lowercase letter `a`..`z`, a digit `0`..`9` or the
hyphen (byte 45), with at most one hyphen and a lowercase letter first. -/
theorem buildObfuscatedSlug_alphabet (e : Bytes) (he : e.length = 32) :
    ∃ s, buildObfuscatedSlug e = some s ∧
      (∀ c ∈ s, (97 ≤ c ∧ c ≤ 122) ∨ (48 ≤ c ∧ c ≤ 57) ∨ c = 45) ∧
      s.count 45 ≤ 1 ∧
      ∃ c, s.head? = some c ∧ 97 ≤ c ∧ c ≤ 122 := by
  obtain ⟨r, hr, _⟩ := buildObfuscatedSlug_some e he
  have hsh := buildObfuscatedSlug_shape e _ hr
  unfold SlugShape isLower isDecimal at hsh
  exact ⟨_, hr, hsh⟩

theorem buildObfuscatedSlug_alphabet_witness :
    ∃ s, buildObfuscatedSlug (hmacSHA256 (str "seed") (str "seed:2026-01-01")) = some s ∧
      (∀ c ∈ s, (97 ≤ c ∧ c ≤ 122) ∨ (48 ≤ c ∧ c ≤ 57) ∨ c = 45) ∧
      s.count 45 ≤ 1 ∧
      ∃ c, s.head? = some c ∧ 97 ≤ c ∧ c ≤ 122 :=
  buildObfuscatedSlug_alphabet (hmacSHA256 (str "seed") (str "seed:2026-01-01"))
    (hmacSHA256_length _ _)

end Timeslug
